import Mathlib

/-!
Shallow embedding of a context-free-grammar toolkit consisting of a grammar
data model with FIRST/FOLLOW fixpoint computation (grammar.py), an LL(1)
table-driven predictive parser (ll1_parser.py) and an SLR(1) shift-reduce
parser built over an LR(0) canonical collection (slr1_parser.py).

Python strings are modelled as lists of characters (`Str`), Python dicts as
insertion-ordered association lists, Python sets as duplicate-free lists with
insertion order (set-iteration order is unspecified in Python; all properties
proved below are insensitive to it).  Python `while` loops that run to a
fixpoint are modelled with an explicit fuel that is computed from the grammar
and provably sufficient where a theorem needs the fixpoint to be reached.
Operations that can raise (KeyError / IndexError) return `Option` or an
explicit error result.
-/

/-- A Python string: a list of characters. -/
abbrev Str := List Char

/-- Python set.add on a list used as a set: append if not already present. -/
def addNew [DecidableEq α] (xs : List α) (x : α) : List α :=
  if x ∈ xs then xs else xs ++ [x]

/-- Dictionary lookup on an insertion-ordered association list. -/
def alLookup [DecidableEq κ] : List (κ × α) → κ → Option α
  | [], _ => none
  | (k', v) :: rest, k => if k' = k then some v else alLookup rest k

/-- Dictionary assignment: update in place, or append a new key at the end
(Python dicts preserve insertion order). -/
def alSet [DecidableEq κ] : List (κ × α) → κ → α → List (κ × α)
  | [], k, v => [(k, v)]
  | (k', v') :: rest, k, v =>
    if k' = k then (k, v) :: rest else (k', v') :: alSet rest k v

/-- Dictionary lookup with a default value. -/
def alGetD [DecidableEq κ] (m : List (κ × α)) (k : κ) (d : α) : α :=
  (alLookup m k).getD d

/-- The apostrophe character, used by the augmented start symbol. -/
def apos : Char := Char.ofNat 39

/-- Grammar.__init__ / the Grammar class state (grammar.py, lines 8-19):
productions dictionary, terminal set, non-terminal set, and the start symbol
which is fixed to the literal string S by the constructor. -/
structure Grammar where
  productions : List (Str × List Str)
  terminals : List Char
  non_terminals : List Str
  start_symbol : Str
deriving DecidableEq, Repr

/-- A freshly constructed Grammar: empty maps and start symbol S. -/
def Grammar.init : Grammar := ⟨[], [], [], ['S']⟩

/-- Symbol classification inside add_production (grammar.py, lines 36-42):
uppercase characters join the non-terminal set, the epsilon sentinel e is
skipped, anything else joins the terminal set. -/
def Grammar.classify (g : Grammar) (c : Char) : Grammar :=
  if c.isUpper then { g with non_terminals := addNew g.non_terminals [c] }
  else if c = 'e' then g
  else { g with terminals := addNew g.terminals c }

/-- Append one production to an existing dictionary entry
(self.productions[non_terminal].append(prod)). -/
def alAppendVal : List (Str × List Str) → Str → Str → List (Str × List Str)
  | [], _, _ => []
  | (k', vs) :: rest, k, v =>
    if k' = k then (k', vs ++ [v]) :: rest else (k', vs) :: alAppendVal rest k v

/-- Grammar.add_production (grammar.py, lines 21-42): create the entry for a
new non-terminal, then append each alternative and classify its symbols. -/
def Grammar.add_production (g : Grammar) (nt : Str) (prods : List Str) : Grammar :=
  let g1 := if (alLookup g.productions nt).isSome then g
            else { g with productions := g.productions ++ [(nt, [])],
                          non_terminals := addNew g.non_terminals nt }
  prods.foldl (fun g2 p =>
    let g3 := { g2 with productions := alAppendVal g2.productions nt p }
    p.foldl Grammar.classify g3) g1

/-- A FIRST or FOLLOW value: a set of characters (terminals, e, or the end
marker) kept as a duplicate-free list. -/
abbrev CSet := List Char

/-- A FIRST or FOLLOW map: keys are symbols-as-strings. -/
abbrev SMap := List (Str × CSet)

/-- Initial FIRST map (grammar.py, lines 69-77): empty sets for non-terminals,
singletons for terminals, and the epsilon entry. -/
def firstInit (g : Grammar) : SMap :=
  let m : SMap := g.non_terminals.map (fun nt => (nt, ([] : CSet)))
  let m := g.terminals.foldl (fun m t => alSet m [t] [t]) m
  alSet m ['e'] ['e']

/-- Grammar.get_first_set, missing-symbol guard (grammar.py, lines 98-102):
a walked symbol with no FIRST entry yet receives an empty set when uppercase
and a self singleton otherwise. -/
def firstEnsure (m : SMap) (c : Char) : SMap :=
  match alLookup m [c] with
  | some _ => m
  | none => if c.isUpper then alSet m [c] [] else alSet m [c] [c]

/-- Grammar.get_first_set, inner term loop (grammar.py, lines 104-108): add
every non-epsilon member of FIRST(symbol) to FIRST(non-terminal), flagging an
update when something new arrives. -/
def firstAddTerms (m : SMap) (nt : Str) (src : CSet) : SMap × Bool :=
  src.foldl (fun acc t =>
    if t ≠ 'e' ∧ t ∉ alGetD acc.1 nt [] then
      (alSet acc.1 nt (alGetD acc.1 nt [] ++ [t]), true)
    else acc) (m, false)

/-- Grammar.get_first_set, symbol walk of one production (grammar.py, lines
96-115): returns the updated map, the update flag, and whether every symbol of
the production could derive epsilon. -/
def firstWalk (nt : Str) (m : SMap) (upd : Bool) : Str → SMap × Bool × Bool
  | [] => (m, upd, true)
  | c :: rest =>
    let m1 := firstEnsure m c
    let r := firstAddTerms m1 nt (alGetD m1 [c] [])
    if 'e' ∈ alGetD r.1 [c] [] then firstWalk nt r.1 (upd || r.2) rest
    else (r.1, upd || r.2, false)

/-- Grammar.get_first_set, one production (grammar.py, lines 85-120): the
direct-epsilon case, else the walk followed by the all-nullable epsilon add. -/
def firstProd (nt : Str) (mu : SMap × Bool) (p : Str) : SMap × Bool :=
  if p = ['e'] then
    if 'e' ∈ alGetD mu.1 nt [] then mu
    else (alSet mu.1 nt (alGetD mu.1 nt [] ++ ['e']), true)
  else
    match firstWalk nt mu.1 mu.2 p with
    | (m1, u1, epsAll) =>
      if epsAll ∧ 'e' ∉ alGetD m1 nt [] then
        (alSet m1 nt (alGetD m1 nt [] ++ ['e']), true)
      else (m1, u1)

/-- One full pass of the FIRST fixpoint loop over all productions. -/
def firstPass (g : Grammar) (m : SMap) : SMap × Bool :=
  g.productions.foldl (fun mu entry => entry.2.foldl (firstProd entry.1) mu) (m, false)

/-- The while-updated loop (grammar.py, lines 81-124): repeat the pass until
no pass reports an update; the fuel bounds the number of passes and is chosen
large enough to reach the fixpoint. -/
def fixLoop (pass : α → α × Bool) : Nat → α → α
  | 0, x => x
  | n + 1, x =>
    match pass x with
    | (y, upd) => if upd then fixLoop pass n y else y

/-- All characters occurring in right-hand sides of the grammar. -/
def Grammar.symChars (g : Grammar) : List Char :=
  g.productions.foldl (fun acc e => e.2.foldl (fun a p => a ++ p) acc) []

/-- Sufficient pass count for the FIRST fixpoint: the total size of the map is
bounded by (number of possible keys) times (number of possible members). -/
def Grammar.firstFuel (g : Grammar) : Nat :=
  (g.non_terminals.length + g.terminals.length + g.symChars.length + 2) *
    (g.terminals.length + g.symChars.length + 2) + 1

/-- Grammar.get_first_set (grammar.py, lines 64-126). -/
def Grammar.get_first_set (g : Grammar) : SMap :=
  fixLoop (firstPass g) g.firstFuel (firstInit g)

/-- Grammar.get_follow_set, FIRST of the rest of a production (grammar.py,
lines 156-174): accumulate non-epsilon members left to right, stopping at the
first non-nullable symbol; an unknown uppercase symbol is skipped, an unknown
other symbol is added verbatim and stops the walk.  Returns the accumulated
set and the all-have-epsilon flag. -/
def followFirstRest (fs : SMap) : Str → CSet → CSet × Bool
  | [], acc => (acc, true)
  | c :: rest, acc =>
    match alLookup fs [c] with
    | none =>
      if c.isUpper then followFirstRest fs rest acc
      else (addNew acc c, false)
    | some s =>
      let acc1 := s.foldl (fun a t => if t ≠ 'e' then addNew a t else a) acc
      if 'e' ∈ s then followFirstRest fs rest acc1 else (acc1, false)

/-- Add every member of a source set to FOLLOW(k), flagging an update when a
new member arrives (grammar.py, lines 176-193). -/
def followAddAll (m : SMap) (k : Str) (src : CSet) : SMap × Bool :=
  src.foldl (fun acc t =>
    if t ∉ alGetD acc.1 k [] then (alSet acc.1 k (alGetD acc.1 k [] ++ [t]), true)
    else acc) (m, false)

/-- Grammar.get_follow_set, walk over the symbols of one production
(grammar.py, lines 149-193): terminals are skipped; a non-terminal with a
non-empty rest receives FIRST(rest) and, when the whole rest is nullable, the
owner's FOLLOW; a trailing non-terminal receives the owner's FOLLOW. -/
def followStep (nt : Str) (fs : SMap) : SMap × Bool → Str → SMap × Bool
  | mu, [] => mu
  | (m, u), c :: rest =>
    if c.isUpper then
      if rest ≠ [] then
        let fr := followFirstRest fs rest []
        let r1 := followAddAll m [c] fr.1
        let r2 := if fr.2 then followAddAll r1.1 [c] (alGetD r1.1 nt []) else (r1.1, false)
        followStep nt fs (r2.1, u || r1.2 || r2.2) rest
      else
        let r := followAddAll m [c] (alGetD m nt [])
        followStep nt fs (r.1, u || r.2) rest
    else followStep nt fs (m, u) rest

/-- One full pass of the FOLLOW fixpoint loop over all productions; epsilon
productions contribute nothing (grammar.py, lines 144-147). -/
def followPass (g : Grammar) (fs : SMap) (m : SMap) : SMap × Bool :=
  g.productions.foldl (fun mu entry =>
    entry.2.foldl (fun mu2 p =>
      if p = ['e'] then mu2 else followStep entry.1 fs mu2 p) mu) (m, false)

/-- Sufficient pass count for the FOLLOW fixpoint. -/
def Grammar.followFuel (g : Grammar) : Nat :=
  (g.non_terminals.length + g.symChars.length + 2) *
    (g.terminals.length + g.symChars.length + 2) + 1

/-- Grammar.get_follow_set (grammar.py, lines 128-198): initialise empty
FOLLOW sets for the non-terminals, seed the start symbol's set with the end
marker — a missing start-symbol key raises (None here) — then iterate to the
fixpoint. -/
def Grammar.get_follow_set (g : Grammar) (fs : SMap) : Option SMap :=
  let fol : SMap := g.non_terminals.map (fun nt => (nt, ([] : CSet)))
  match alLookup fol g.start_symbol with
  | none => none
  | some cur =>
    some (fixLoop (followPass g fs) g.followFuel
      (alSet fol g.start_symbol (addNew cur '$')))

/-- LL1Parser._get_first_of_string, main walk (ll1_parser.py, lines 33-58). -/
def ll1FirstOfStrGo (fs : SMap) : Str → CSet → CSet
  | [], acc => addNew acc 'e'
  | c :: rest, acc =>
    match alLookup fs [c] with
    | none => addNew acc c
    | some sf =>
      let acc1 := sf.foldl (fun a t => if t ≠ 'e' then addNew a t else a) acc
      if 'e' ∈ sf then ll1FirstOfStrGo fs rest acc1 else acc1

/-- LL1Parser._get_first_of_string (ll1_parser.py, lines 24-58): FIRST of a
symbol string; the empty string and the epsilon sentinel give the epsilon
singleton. -/
def ll1FirstOfStr (fs : SMap) (s : Str) : CSet :=
  if s = [] ∨ s = ['e'] then ['e'] else ll1FirstOfStrGo fs s []

/-- One row of the LL(1) parse table: absent key = absent cell, value none =
conflict marker, value some p = the production p. -/
abbrev LL1Row := List (Char × Option Str)

/-- The LL(1) parse table, one row per non-terminal. -/
abbrev LL1Table := List (Str × LL1Row)

/-- The LL(1) cell write (ll1_parser.py, lines 83-86 and 91-94): writing into
an occupied cell stores the conflict marker regardless of the value, a first
write stores the production. -/
def ll1Insert (row : LL1Row) (t : Char) (p : Str) : LL1Row :=
  if (alLookup row t).isSome then alSet row t none else alSet row t (some p)

/-- Write into the row of a non-terminal inside the whole table. -/
def ll1TblInsert (tbl : LL1Table) (nt : Str) (t : Char) (p : Str) : LL1Table :=
  alSet tbl nt (ll1Insert (alGetD tbl nt []) t p)

/-- The body of the LL(1) table-filling loop for one production
(ll1_parser.py, lines 76-94): write the production under every non-epsilon
member of its FIRST, and when epsilon belongs to that FIRST also under every
member of the owner's FOLLOW. -/
def ll1ProdWrites (fs fol : SMap) (nt : Str) (tbl : LL1Table) (p : Str) : LL1Table :=
  let fop := ll1FirstOfStr fs p
  let tb2 := fop.foldl (fun t0 t => if t ≠ 'e' then ll1TblInsert t0 nt t p else t0) tbl
  if 'e' ∈ fop then
    (alGetD fol nt []).foldl (fun t0 t => ll1TblInsert t0 nt t p) tb2
  else tb2

/-- LL1Parser._build_parse_table (ll1_parser.py, lines 60-96): initialise a
row per non-terminal, then run the per-production writes over all
productions of all non-terminals. -/
def build_parse_table (g : Grammar) (fs : SMap) (fol : SMap) : LL1Table :=
  let tbl : LL1Table := g.non_terminals.map (fun nt => (nt, ([] : LL1Row)))
  g.productions.foldl (fun tb entry =>
    entry.2.foldl (ll1ProdWrites fs fol entry.1) tb) tbl

/-- LL1Parser._check_if_ll1 (ll1_parser.py, lines 98-110): true iff no cell
holds the conflict marker. -/
def check_if_ll1 (tbl : LL1Table) : Bool :=
  tbl.all (fun e => e.2.all (fun c => c.2.isSome))

/-- Result of running the predictive loop: normal exit with the final cursor,
a mid-loop rejection, a raised exception, or exhausted fuel. -/
inductive LoopRes where
  | reject
  | finished (ptr : Nat)
  | error
  | fuelOut
deriving DecidableEq, Repr

/-- Python str.isupper for the symbol strings that occur here (ASCII): at
least one letter, and no lowercase letter. -/
def pyIsUpperStr (s : Str) : Bool :=
  s.any (fun c => c.isAlpha) && s.all (fun c => !c.isAlpha || c.isUpper)

/-- LL1Parser.parse, main loop (ll1_parser.py, lines 137-163): pop the top of
the stack; epsilon is discarded; a terminal must match the current input
symbol; a non-terminal is looked up in the table — a missing row raises, an
absent cell or a conflict cell rejects, otherwise the production's symbols
are pushed in reverse order.  The input symbol beyond the end is the end
marker. -/
def ll1Loop (tbl : LL1Table) (input : Str) : Nat → List Str → Nat → LoopRes
  | _, [], ptr => .finished ptr
  | 0, _ :: _, _ => .fuelOut
  | fuel + 1, top :: stack, ptr =>
    let ci := if h : ptr < input.length then input.get ⟨ptr, h⟩ else '$'
    if top = ['e'] then ll1Loop tbl input fuel stack ptr
    else if ¬ pyIsUpperStr top then
      if top = [ci] then ll1Loop tbl input fuel stack (ptr + 1) else .reject
    else
      match alLookup tbl top with
      | none => .error
      | some row =>
        match alLookup row ci with
        | none => .reject
        | some none => .reject
        | some (some p) =>
          if p = ['e'] then ll1Loop tbl input fuel stack ptr
          else ll1Loop tbl input fuel (p.map (fun c => [c]) ++ stack) ptr

/-- The final acceptance check of LL1Parser.parse (ll1_parser.py, line 165):
the cursor consumed the whole input, or sits exactly on a final end marker. -/
def ll1Accept (input : Str) (ptr : Nat) : Bool :=
  decide (ptr ≥ input.length) ||
    (decide (ptr = input.length - 1) && decide (input.getLast? = some '$'))

/-- The state of a constructed LL1Parser instance (ll1_parser.py, lines
8-22). -/
structure LL1Parser where
  grammar : Grammar
  first_sets : SMap
  follow_sets : SMap
  parse_table : LL1Table
  is_ll1 : Bool
deriving DecidableEq, Repr

/-- LL1Parser.__init__ (ll1_parser.py, lines 8-22): compute FIRST, FOLLOW
(which can raise), the parse table and the conflict check. -/
def mkLL1 (g : Grammar) : Option LL1Parser :=
  let fs := g.get_first_set
  match g.get_follow_set fs with
  | none => none
  | some fol =>
    let tbl := build_parse_table g fs fol
    some ⟨g, fs, fol, tbl, check_if_ll1 tbl⟩

/-- Result of a parse call: a boolean verdict, a raised exception, or
exhausted fuel. -/
inductive PRes where
  | ok (b : Bool)
  | error
  | fuelOut
deriving DecidableEq, Repr

/-- Append the end marker when absent (ll1_parser.py, lines 130-131). -/
def ensureDollar (s : Str) : Str :=
  if s.getLast? = some '$' then s else s ++ ['$']

/-- LL1Parser.parse (ll1_parser.py, lines 112-165): reject at once when the
grammar is not LL(1); otherwise run the stack machine from the stack holding
the end marker below the start symbol and apply the final acceptance check. -/
def LL1Parser.parse (P : LL1Parser) (input : Str) (fuel : Nat) : PRes :=
  if P.is_ll1 = false then .ok false
  else
    let inp := ensureDollar input
    match ll1Loop P.parse_table inp fuel [P.grammar.start_symbol, ['$']] 0 with
    | .finished ptr => .ok (ll1Accept inp ptr)
    | .reject => .ok false
    | .error => .error
    | .fuelOut => .fuelOut

/-- SLR1Parser._augment_grammar (slr1_parser.py, lines 24-42): copy every
(non-terminal, production) pair into a fresh grammar in order, then add the
new non-terminal S-apostrophe with the source start symbol as sole production
and make it the start symbol. -/
def augment_grammar (g : Grammar) : Grammar :=
  let ag := g.productions.foldl (fun a e =>
    e.2.foldl (fun a2 p => a2.add_production e.1 [p]) a) Grammar.init
  let ag := ag.add_production ['S', apos] [g.start_symbol]
  { ag with start_symbol := ['S', apos] }

/-- An LR(0) item: owning non-terminal, production, dot position
(slr1_parser.py, line 49). -/
abbrev Item := Str × Str × Nat

/-- Python set.add for item sets kept as duplicate-free lists. -/
def sAdd (s : List Item) (x : Item) : List Item :=
  if x ∈ s then s else s ++ [x]

/-- Content equality of two item sets, matching Python set equality. -/
def sEq (a b : List Item) : Bool :=
  a.all (fun x => decide (x ∈ b)) && b.all (fun x => decide (x ∈ a))

/-- The symbol after the dot, none when the dot is at the end or the
production is the epsilon sentinel (slr1_parser.py, lines 62-67). -/
def itemAfterDot (it : Item) : Option Char :=
  if it.2.2 ≥ it.2.1.length ∨ it.2.1 = ['e'] then none else it.2.1[it.2.2]?

/-- Add the dot-0 items of every production of an expanded non-terminal to
the growing closure, setting the change flag for every genuinely new item
(slr1_parser.py, lines 72-76). -/
def closureAddProds (c : Char) : List Str → List Item × Bool → List Item × Bool
  | [], r => r
  | p :: rest, r =>
    if (([c] : Str), p, 0) ∈ r.1 then closureAddProds c rest r
    else closureAddProds c rest (r.1 ++ [([c], p, 0)], true)

/-- Processing of one item during a closure scan: an item with a
non-terminal after the dot expands that non-terminal's productions; a
missing productions entry raises (none). -/
def closureStepItem (ag : Grammar) (acc : Option (List Item × Bool)) (it : Item) :
    Option (List Item × Bool) :=
  match acc with
  | none => none
  | some r =>
    match itemAfterDot it with
    | none => some r
    | some c =>
      if [c] ∈ ag.non_terminals then
        match alLookup ag.productions [c] with
        | none => none
        | some prods => some (closureAddProds c prods r)
      else some r

/-- One scan of SLR1Parser._closure (slr1_parser.py, lines 56-82): process
every item of the current set, returning the grown set and whether anything
new was added. -/
def closureScan (ag : Grammar) (cl : List Item) : Option (List Item × Bool) :=
  cl.foldl (closureStepItem ag) (some (cl, false))

/-- Three-way result for constructions that can raise or run out of fuel. -/
inductive Res (α : Type) where
  | err
  | out
  | ok (a : α)
deriving DecidableEq, Repr

/-- The closure fixpoint loop (slr1_parser.py, lines 56-84). -/
def closureLoop (ag : Grammar) : Nat → List Item → Res (List Item)
  | 0, _ => .out
  | n + 1, cl =>
    match closureScan ag cl with
    | none => .err
    | some (s, ch) => if ch then closureLoop ag n s else .ok s

/-- Sufficient fuel for the closure loop: one more than the total number of
LR(0) items of the grammar. -/
def Grammar.itemFuel (ag : Grammar) : Nat :=
  ag.productions.foldl (fun acc e => e.2.foldl (fun a p => a + p.length + 1) acc) 0 + 1

/-- SLR1Parser._goto, dot-advancing collection walk (slr1_parser.py, lines
99-110): skip completed and epsilon items, and add the dot-advanced item
when the symbol after the dot matches. -/
def slrGotoGo (sym : Str) : List Item → List Item → List Item
  | [], acc => acc
  | it :: rest, acc =>
    if it.2.2 ≥ it.2.1.length ∨ it.2.1 = ['e'] then slrGotoGo sym rest acc
    else
      match it.2.1[it.2.2]? with
      | some c =>
        if [c] = sym then slrGotoGo sym rest (sAdd acc (it.1, it.2.1, it.2.2 + 1))
        else slrGotoGo sym rest acc
      | none => slrGotoGo sym rest acc

/-- SLR1Parser._goto, dot-advancing collection (slr1_parser.py, lines
97-110). -/
def slrGotoCore (items : List Item) (sym : Str) : List Item :=
  slrGotoGo sym items []

/-- SLR1Parser._goto (slr1_parser.py, lines 86-113): advance the dot past the
symbol, then close. -/
def slrGoto (ag : Grammar) (items : List Item) (sym : Str) : Res (List Item) :=
  closureLoop ag ag.itemFuel (slrGotoCore items sym)

/-- The canonical collection: the list of states and the transition map
(slr1_parser.py, lines 115-149). -/
structure CC where
  states : List (List Item)
  trans : List ((Nat × Str) × Nat)
deriving DecidableEq, Repr

/-- Python states.index under set equality: the first index whose item set
has the same content. -/
def idxOfState : List (List Item) → List Item → Nat → Option Nat
  | [], _, _ => none
  | s :: rest, x, i => if sEq s x then some i else idxOfState rest x (i + 1)

/-- The symbol set iterated per state: terminals united with non-terminals
(slr1_parser.py, line 132).  Python iterates this set in an unspecified
order; a fixed order is chosen here, and every property proved below is
insensitive to it. -/
def ccSymbols (ag : Grammar) : List Str :=
  ag.non_terminals.foldl addNew (ag.terminals.map (fun c => [c]))

/-- Processing of one symbol of one state (slr1_parser.py, lines 138-145):
a non-empty goto result is either appended as a new state or resolved to the
existing equal state, and the transition is recorded. -/
def ccStep (ag : Grammar) (i : Nat) (st : List Item) (acc : CC) (sym : Str) : Res CC :=
  match slrGoto ag st sym with
  | .err => .err
  | .out => .out
  | .ok gs =>
    if gs = [] then .ok acc
    else
      match idxOfState acc.states gs 0 with
      | none => .ok ⟨acc.states ++ [gs], acc.trans ++ [((i, sym), acc.states.length)]⟩
      | some j => .ok ⟨acc.states, acc.trans ++ [((i, sym), j)]⟩

/-- Fold of ccStep over the symbol list. -/
def ccSyms (ag : Grammar) (i : Nat) (st : List Item) : List Str → CC → Res CC
  | [], acc => .ok acc
  | sym :: rest, acc =>
    match ccStep ag i st acc sym with
    | .err => .err
    | .out => .out
    | .ok acc2 => ccSyms ag i st rest acc2

/-- The worklist loop of _build_canonical_collection (slr1_parser.py, lines
134-147): process states in discovery order until the index catches up with
the list length. -/
def ccLoop (ag : Grammar) : Nat → CC → Nat → Res CC
  | 0, acc, i => if i < acc.states.length then .out else .ok acc
  | fuel + 1, acc, i =>
    match acc.states[i]? with
    | none => .ok acc
    | some st =>
      match ccSyms ag i st (ccSymbols ag) acc with
      | .err => .err
      | .out => .out
      | .ok acc2 => ccLoop ag fuel acc2 (i + 1)

/-- Sufficient fuel for the worklist: the number of distinct item sets is at
most two to the number of items. -/
def Grammar.ccFuel (ag : Grammar) : Nat := 2 ^ ag.itemFuel + 1

/-- SLR1Parser._build_canonical_collection (slr1_parser.py, lines 115-149):
state 0 is the closure of the dot-0 item of the augmented production, built
from the augmented start and the source start symbol. -/
def build_canonical_collection (g ag : Grammar) : Res CC :=
  match closureLoop ag ag.itemFuel [((['S', apos] : Str), g.start_symbol, 0)] with
  | .err => .err
  | .out => .out
  | .ok initial => ccLoop ag ag.ccFuel ⟨[initial], []⟩ 0

/-- A parsing action: shift to a state, accept, or reduce by a production
(Python encodes these as the strings s-number, acc, and
r-nonterminal-arrow-production; the encoding is injective for the
single-character symbol alphabet, so an inductive type is used here). -/
inductive PAction where
  | shift (j : Nat)
  | acc
  | red (nt : Str) (p : Str)
deriving DecidableEq, Repr

/-- One ACTION row: absent key = absent cell, none = conflict marker. -/
abbrev ARow := List (Char × Option PAction)

/-- The ACTION table, keyed by state index. -/
abbrev ATable := List (Nat × ARow)

/-- One GOTO row, keyed by non-terminal. -/
abbrev GRow := List (Str × Nat)

/-- The GOTO table, keyed by state index. -/
abbrev GTable := List (Nat × GRow)

/-- The ACTION cell write (slr1_parser.py, lines 186-190 and 210-214): an
occupied cell becomes the conflict marker only when the stored action
differs from the new one; otherwise the new action is stored. -/
def slrActionInsert (row : ARow) (t : Char) (a : PAction) : ARow :=
  match alLookup row t with
  | some stored => if stored ≠ some a then alSet row t none else alSet row t (some a)
  | none => alSet row t (some a)

/-- Contribution of one LR(0) item to an ACTION row (slr1_parser.py, lines
176-214): a terminal after the dot with a recorded transition yields shift;
a completed item (dot at the end, or the epsilon production with dot 0)
yields accept for the augmented item and reduce otherwise, under every
terminal of the owner's FOLLOW set. -/
def slrItemAction (g : Grammar) (fol : SMap) (trans : List ((Nat × Str) × Nat))
    (i : Nat) (row : ARow) (it : Item) : ARow :=
  let nt := it.1
  let p := it.2.1
  let d := it.2.2
  if d < p.length ∧ p ≠ ['e'] then
    match p[d]? with
    | none => row
    | some c =>
      if ¬ c.isUpper then
        match alLookup trans (i, ([c] : Str)) with
        | some j => slrActionInsert row c (.shift j)
        | none => row
      else row
  else if (d ≥ p.length ∧ p ≠ ['e']) ∨ (p = ['e'] ∧ d = 0) then
    (alGetD fol nt []).foldl (fun r t =>
      if nt = ['S', apos] ∧ p = g.start_symbol then slrActionInsert r t .acc
      else slrActionInsert r t (.red nt p)) row
  else row

/-- SLR1Parser._build_parsing_tables (slr1_parser.py, lines 151-216):
initialise one empty row per state, fill GOTO from the non-terminal
transitions, then fold every item of every state into ACTION. -/
def build_parsing_tables (g ag : Grammar) (fol : SMap) (cc : CC) : ATable × GTable :=
  let aInit : ATable := (List.range cc.states.length).map (fun i => (i, ([] : ARow)))
  let gInit : GTable := (List.range cc.states.length).map (fun i => (i, ([] : GRow)))
  let gT := cc.trans.foldl (fun gt e =>
    if e.1.2 ∈ ag.non_terminals then
      alSet gt e.1.1 (alSet (alGetD gt e.1.1 []) e.1.2 e.2)
    else gt) gInit
  let aT := cc.states.enum.foldl (fun a2 e =>
    alSet a2 e.1 (e.2.foldl (slrItemAction g fol cc.trans e.1) (alGetD a2 e.1 []))) aInit
  (aT, gT)

/-- SLR1Parser._check_if_slr1 (slr1_parser.py, lines 218-229): true iff no
ACTION cell holds the conflict marker. -/
def check_if_slr1 (a : ATable) : Bool :=
  a.all (fun e => e.2.all (fun c => c.2.isSome))

/-- The state of a constructed SLR1Parser instance (slr1_parser.py, lines
8-22). -/
structure SLR1Parser where
  grammar : Grammar
  augmented_grammar : Grammar
  first_sets : SMap
  follow_sets : SMap
  canonical : CC
  action_table : ATable
  goto_table : GTable
  is_slr1 : Bool
deriving DecidableEq, Repr

/-- SLR1Parser.__init__ (slr1_parser.py, lines 8-22): augment, compute
FIRST/FOLLOW of the augmented grammar, build the canonical collection (which
can raise) and the two tables, then run the conflict check. -/
def mkSLR (g : Grammar) : Res SLR1Parser :=
  let ag := augment_grammar g
  let fs := ag.get_first_set
  match ag.get_follow_set fs with
  | none => .err
  | some fol =>
    match build_canonical_collection g ag with
    | .err => .err
    | .out => .out
    | .ok cc =>
      let tabs := build_parsing_tables g ag fol cc
      .ok ⟨g, ag, fs, fol, cc, tabs.1, tabs.2, check_if_slr1 tabs.1⟩

/-- An element of the shift-reduce stack: a state index or a grammar
symbol (the Python stack interleaves ints and strings). -/
inductive StackE where
  | st (n : Nat)
  | sym (s : Str)
deriving DecidableEq, Repr

/-- SLR1Parser.parse, main loop (slr1_parser.py, lines 252-294): read the
action for the state on top of the stack and the current input symbol;
an absent cell or a conflict cell rejects; shift pushes symbol and state and
advances; reduce pops two entries per production symbol, then consults GOTO;
accept succeeds.  Stack underflow or a non-state on top raises. -/
def slrLoop (P : SLR1Parser) (input : Str) : Nat → List StackE → Nat → PRes
  | 0, _, _ => .fuelOut
  | fuel + 1, stack, ptr =>
    match stack with
    | [] => .error
    | .sym _ :: _ => .error
    | .st cs :: _ =>
      let ci := if h : ptr < input.length then input.get ⟨ptr, h⟩ else '$'
      match alLookup P.action_table cs with
      | none => .error
      | some row =>
        match alLookup row ci with
        | none => .ok false
        | some none => .ok false
        | some (some (.shift j)) =>
          slrLoop P input fuel (.st j :: .sym [ci] :: stack) (ptr + 1)
        | some (some .acc) => .ok true
        | some (some (.red nt p)) =>
          let k := if p = ['e'] then 0 else 2 * p.length
          if k > stack.length then .error
          else
            match stack.drop k with
            | [] => .error
            | .sym _ :: _ => .error
            | .st ts :: rest =>
              match alLookup P.goto_table ts with
              | none => .error
              | some grow =>
                match alLookup grow nt with
                | none => .ok false
                | some j => slrLoop P input fuel (.st j :: .sym nt :: .st ts :: rest) ptr

/-- SLR1Parser.parse (slr1_parser.py, lines 231-294): reject at once when the
grammar is not SLR(1), else append the end marker when absent and run the
machine from the stack holding state 0. -/
def SLR1Parser.parse (P : SLR1Parser) (input : Str) (fuel : Nat) : PRes :=
  if P.is_slr1 = false then .ok false
  else slrLoop P (ensureDollar input) fuel [.st 0] 0

/-- Python str.strip: remove leading and trailing whitespace. -/
def stripChars (s : Str) : Str :=
  ((s.dropWhile Char.isWhitespace).reverse.dropWhile Char.isWhitespace).reverse

/-- Split a string at the first arrow separator, returning the parts before
and after it; none when no separator occurs (the Python indexing of
parts[1] raises in that case). -/
def splitArrowOnce : Str → Option (Str × Str)
  | [] => none
  | '-' :: '>' :: rest => some ([], rest)
  | c :: rest => (splitArrowOnce rest).map (fun pr => (c :: pr.1, pr.2))

/-- Python str.split with no argument: whitespace-separated tokens. -/
def pyTokensGo : Str → Str → List Str
  | [], cur => if cur = [] then [] else [cur.reverse]
  | c :: rest, cur =>
    if c.isWhitespace then
      if cur = [] then pyTokensGo rest [] else cur.reverse :: pyTokensGo rest []
    else pyTokensGo rest (c :: cur)

/-- Python str.split with no argument, from the start. -/
def pyTokens (s : Str) : List Str := pyTokensGo s []

/-- Python int() on a line holding a count: a stripped non-empty digit
string; anything else raises. -/
def pyInt (s : Str) : Option Nat :=
  let t := stripChars s
  if t ≠ [] ∧ t.all Char.isDigit then
    some (t.foldl (fun n c => n * 10 + (c.toNat - 48)) 0)
  else none

/-- Grammar.read_grammar (grammar.py, lines 44-62): the first line holds the
count, each following line is split at the arrow into the non-terminal and
the space-separated alternatives; a missing line, a bad count or a missing
separator raises (none). -/
def Grammar.read_grammar (g : Grammar) (lines : List Str) : Option Grammar :=
  match lines.head? with
  | none => none
  | some l0 =>
    match pyInt l0 with
    | none => none
    | some n =>
      (List.range n).foldl (fun acc i =>
        match acc with
        | none => none
        | some g2 =>
          match lines[i + 1]? with
          | none => none
          | some line =>
            match splitArrowOnce (stripChars line) with
            | none => none
            | some (before, afterAll) =>
              let part1 := match splitArrowOnce afterAll with
                           | some pr => pr.1
                           | none => afterAll
              some (g2.add_production (stripChars before) (pyTokens part1))) (some g)

/-- A grammar parsed from an input text, as main.py builds it: a fresh
Grammar followed by read_grammar. -/
def readGrammar (lines : List Str) : Option Grammar :=
  Grammar.init.read_grammar lines

/-- The structural invariants that Grammar.add_production maintains:
distinct dictionary keys, keys belong to the non-terminal set, every
right-hand-side character is classified into the matching set, and the
terminal set holds no uppercase character and not the epsilon sentinel. -/
def Grammar.WF (g : Grammar) : Prop :=
  (g.productions.map Prod.fst).Nodup ∧
  (∀ e ∈ g.productions, e.1 ∈ g.non_terminals) ∧
  (∀ e ∈ g.productions, ∀ p ∈ e.2, ∀ c ∈ p,
      (c.isUpper = true → [c] ∈ g.non_terminals) ∧
      (c.isUpper = false → c ≠ 'e' → c ∈ g.terminals)) ∧
  (∀ c ∈ g.terminals, c.isUpper = false ∧ c ≠ 'e')

/-- The list of terminals under which the LL(1) builder writes a given
production into the row of its owner: the non-epsilon members of the
production's FIRST, then the owner's FOLLOW when that FIRST holds epsilon
(ll1_parser.py, lines 80-94). -/
def ll1Writes (fs fol : SMap) (nt : Str) (p : Str) : List Char :=
  (ll1FirstOfStr fs p).filter (fun t => t ≠ 'e') ++
    (if 'e' ∈ ll1FirstOfStr fs p then alGetD fol nt [] else [])

/-- Extract the value of a successful Res, with a default. -/
def Res.getD : Res α → α → α
  | .ok a, _ => a
  | .err, d => d
  | .out, d => d

/-- A placeholder LL1Parser used as a default when unpacking options. -/
def ll1Default : LL1Parser := ⟨Grammar.init, [], [], [], false⟩

/-- A placeholder SLR1Parser used as a default when unpacking results. -/
def slrDefault : SLR1Parser := ⟨Grammar.init, Grammar.init, [], [], ⟨[], []⟩, [], [], false⟩

/-- The expression grammar of the repository's sample input: S to S+T or T,
T to T*F or F, F to parenthesised S or i. -/
def gExpr : Grammar :=
  ((Grammar.init.add_production ['S'] [['S', '+', 'T'], ['T']]).add_production
    ['T'] [['T', '*', 'F'], ['F']]).add_production ['F'] [['(', 'S', ')'], ['i']]

/-- The second sample grammar: S to AB, A to aA or d, B to bBc or epsilon. -/
def gAB : Grammar :=
  ((Grammar.init.add_production ['S'] [['A', 'B']]).add_production
    ['A'] [['a', 'A'], ['d']]).add_production ['B'] [['b', 'B', 'c'], ['e']]

/-- A grammar with a syntactically duplicated alternative: S to a or a. -/
def gdup : Grammar := Grammar.init.add_production ['S'] [['a'], ['a']]

/-- A grammar whose duplicated alternative writes no table cell: S to a,
A to B twice, B to B; FIRST(B) is empty and FOLLOW(A) is empty. -/
def gq : Grammar :=
  ((Grammar.init.add_production ['S'] [['a']]).add_production
    ['A'] [['B'], ['B']]).add_production ['B'] [['B']]

/-- A grammar deriving the empty string whose duplicated epsilon alternative
makes it non-LL(1): S to e or e. -/
def gee : Grammar := Grammar.init.add_production ['S'] [['e'], ['e']]

/-- A grammar in which the end marker occurs as an ordinary terminal:
S to the dollar character. -/
def gdol : Grammar := Grammar.init.add_production ['S'] [['$']]

/-- A grammar that mentions S in a right-hand side without defining it:
A to Sb. -/
def gmention : Grammar := Grammar.init.add_production ['A'] [['S', 'b']]

/-- A grammar in which the symbol S does not occur at all: A to a. -/
def gnoS : Grammar := Grammar.init.add_production ['A'] [['a']]

/-- The left-recursive sample: S to A, A to A or b. -/
def gLeft : Grammar :=
  (Grammar.init.add_production ['S'] [['A']]).add_production ['A'] [['A'], ['b']]

/-- Pointwise set inclusion between two FIRST/FOLLOW maps: every member of
every entry of the first map is a member of the same entry of the second. -/
def smapLE (m m' : SMap) : Prop :=
  ∀ k x, x ∈ alGetD m k [] → x ∈ alGetD m' k []

/-- The finite universe of LR(0) items of a grammar: every dot position of
every production of every dictionary entry (a verification-side definition
used to bound the automaton constructions). -/
def Grammar.allItems (ag : Grammar) : List Item :=
  ag.productions.flatMap (fun e =>
    e.2.flatMap (fun p => (List.range (p.length + 1)).map (fun d => (e.1, p, d))))

/-- A grammar is complete when every member of its non-terminal set owns a
productions entry; the closure computation can only raise on incomplete
grammars. -/
def Grammar.complete (ag : Grammar) : Prop :=
  ∀ s ∈ ag.non_terminals, (alLookup ag.productions s).isSome

/-- The state-and-transition invariant of the canonical-collection
construction: states hold duplicate-free item lists drawn from the item
universe, no two states are set-equal, every state is non-empty, and every
recorded transition points at a state set-equal to the goto result of a
non-empty goto from the source state. -/
structure CCBase (ag : Grammar) (acc : CC) : Prop where
  nodups : ∀ st ∈ acc.states, st.Nodup
  subs : ∀ st ∈ acc.states, ∀ x ∈ st, x ∈ ag.allItems
  pw : List.Pairwise (fun a b => sEq a b = false) acc.states
  nonnil : ∀ st ∈ acc.states, st ≠ []
  transOk : ∀ i sym j, alLookup acc.trans (i, sym) = some j →
    ∃ sti gs, acc.states[i]? = some sti ∧ slrGoto ag sti sym = .ok gs ∧ gs ≠ [] ∧
      ∃ stj, acc.states[j]? = some stj ∧ sEq stj gs = true

/-- The worklist invariant, indexed by the number of already processed
states: the base invariant, transitions only for processed states, and no
transition for a processed state on a symbol whose goto result is empty. -/
structure CCInv (ag : Grammar) (acc : CC) (iCur : Nat) : Prop where
  base : CCBase ag acc
  transDom : ∀ i sym, (alLookup acc.trans (i, sym)).isSome = true → i < iCur
  transNeg : ∀ i sym sti, i < iCur → sym ∈ ccSymbols ag → acc.states[i]? = some sti →
    slrGoto ag sti sym = .ok [] → alLookup acc.trans (i, sym) = none

/-- A grammar that sends the predictive parser into an infinite loop while
being accepted as LL(1): S to the dollar character followed by S.  Every
expansion of S pushes a dollar terminal that matches the synthetic end
marker substituted beyond the end of the input, so the stack never
empties and the cursor grows without bound. -/
def gloop : Grammar := Grammar.init.add_production ['S'] [['$', 'S']]

/-- The LL(1) parser constructed for gloop. -/
def gloopP : LL1Parser := (mkLL1 gloop).getD ll1Default

/-- The key universe of the FIRST computation: the epsilon entry, the
non-terminals, the terminal singletons and the singletons of every
character occurring in a right-hand side. -/
def fKeyU (g : Grammar) : List Str :=
  ['e'] :: (g.non_terminals ++ g.terminals.map (fun t => ([t] : Str)) ++
    g.symChars.map (fun c => ([c] : Str)))

/-- The member universe of the FIRST computation: epsilon, the terminals
and the right-hand-side characters. -/
def fValU (g : Grammar) : List Char := 'e' :: (g.terminals ++ g.symChars)

/-- The member universe of the FOLLOW computation: the end marker, the
terminals and the right-hand-side characters. -/
def folValU (g : Grammar) : List Char := '$' :: (g.terminals ++ g.symChars)

/-- The key universe of the FOLLOW computation: the start symbol, the
non-terminals and the singletons of right-hand-side characters. -/
def folKeyU (g : Grammar) : List Str :=
  g.start_symbol :: (g.non_terminals ++ g.symChars.map (fun c => ([c] : Str)))

/-- The total membership count of a FIRST/FOLLOW map, the measure that
grows with every flagged update of the fixpoint computations. -/
def smapSize (m : SMap) : Nat := (m.map (fun e => e.2.length)).sum

/-- The structural invariant of every map arising during the FIRST
computation: duplicate-free keys drawn from the key universe,
duplicate-free values drawn from the member universe, and epsilon a member
of the epsilon entry. -/
structure FInv (g : Grammar) (m : SMap) : Prop where
  keysnd : (m.map Prod.fst).Nodup
  keysub : ∀ e ∈ m, e.1 ∈ fKeyU g
  valnd : ∀ e ∈ m, e.2.Nodup
  valsub : ∀ e ∈ m, ∀ x ∈ e.2, x ∈ fValU g
  ekey : 'e' ∈ alGetD m ['e'] []

/-- The structural invariant of every map arising during the FOLLOW
computation. -/
structure FolInv (g : Grammar) (m : SMap) : Prop where
  keysnd : (m.map Prod.fst).Nodup
  keysub : ∀ e ∈ m, e.1 ∈ folKeyU g
  valnd : ∀ e ∈ m, e.2.Nodup
  valsub : ∀ e ∈ m, ∀ x ∈ e.2, x ∈ folValU g

/-- Inductively justified nullability of a grammar key: the epsilon
sentinel is nullable, and a dictionary key owning an alternative all of
whose characters are nullable is nullable.  This is the least relation
closed under the two rules that feed epsilon into a computed FIRST set. -/
inductive NullK (g : Grammar) : Str → Prop where
  | eps : NullK g ['e']
  | allNull (nt : Str) (ps : List Str) (p : Str) :
      (nt, ps) ∈ g.productions → p ∈ ps →
      (∀ c ∈ p, NullK g [c]) → NullK g nt

/-- Exact value preservation between two maps: every present entry keeps
its exact value (the relation that the update-free steps of a fixpoint
pass maintain). -/
def alPres (m m2 : SMap) : Prop :=
  ∀ (k : Str) (v : CSet), alLookup m k = some v → alLookup m2 k = some v

/-- Epsilon reflection: every epsilon membership of the second map already
holds in the first (update-free steps add only epsilon-free entries). -/
def eRefl (m m2 : SMap) : Prop :=
  ∀ k, 'e' ∈ alGetD m2 k [] → 'e' ∈ alGetD m k []

/-- Soundness of a FIRST map: every epsilon membership is justified by an
inductive nullability derivation. -/
def SoundE (g : Grammar) (m : SMap) : Prop :=
  ∀ k, 'e' ∈ alGetD m k [] → NullK g k

/-- Closedness of a FIRST map under one nullability step: an alternative
all of whose characters hold epsilon feeds epsilon into its owner. -/
def ClosedE (g : Grammar) (m : SMap) : Prop :=
  ∀ nt ps p, (nt, ps) ∈ g.productions → p ∈ ps →
    (∀ c ∈ p, 'e' ∈ alGetD m [c] []) → 'e' ∈ alGetD m nt []

/-! ### Dictionary lemmas -/

theorem alLookup_alSet_self [DecidableEq κ] (m : List (κ × α)) (k : κ) (v : α) :
    alLookup (alSet m k v) k = some v := by
  induction m with
  | nil => simp [alSet, alLookup]
  | cons e rest ih =>
    obtain ⟨k1, v1⟩ := e
    by_cases h : k1 = k
    · subst h; simp [alSet, alLookup]
    · simp [alSet, h, alLookup, ih]

theorem alLookup_alSet_ne [DecidableEq κ] (m : List (κ × α)) {k k' : κ} (v : α)
    (h : ¬ k = k') : alLookup (alSet m k v) k' = alLookup m k' := by
  induction m with
  | nil => simp [alSet, alLookup, h]
  | cons e rest ih =>
    obtain ⟨k1, v1⟩ := e
    by_cases h1 : k1 = k
    · subst h1; simp [alSet, alLookup, h]
    · simp [alSet, h1, alLookup, ih]

theorem alLookup_mem [DecidableEq κ] {m : List (κ × α)} {k : κ} {v : α}
    (h : alLookup m k = some v) : (k, v) ∈ m := by
  induction m with
  | nil => simp [alLookup] at h
  | cons e rest ih =>
    obtain ⟨k1, v1⟩ := e
    by_cases h1 : k1 = k
    · subst h1
      simp [alLookup] at h
      simp [h]
    · simp [alLookup, h1] at h
      exact List.mem_cons_of_mem _ (ih h)

/-! ### C2: a non-conformant parser rejects without executing -/

/-- C2: if the LL(1) conformance flag is false then parse returns False for
every input string and every fuel bound, including fuel zero, so the stack
machine is never entered and no input symbol is consumed; the same holds for
the SLR(1) parser and its shift-reduce machine. -/
theorem claim_C2 :
    (∀ (P : LL1Parser) (s : Str) (fuel : Nat),
        P.is_ll1 = false → P.parse s fuel = .ok false) ∧
    (∀ (Q : SLR1Parser) (s : Str) (fuel : Nat),
        Q.is_slr1 = false → Q.parse s fuel = .ok false) := by
  refine ⟨fun P s fuel h => ?_, fun Q s fuel h => ?_⟩
  · simp [LL1Parser.parse, h]
  · simp [SLR1Parser.parse, h]

theorem claim_C2_witness :
    ((mkLL1 gdup).getD ll1Default).parse ['a'] 0 = .ok false ∧
    ((mkSLR gLeft).getD slrDefault).parse ['b'] 0 = .ok false :=
  ⟨claim_C2.1 _ _ _ (by decide), claim_C2.2 _ _ _ (by decide)⟩

/-! ### C4: the SLR(1) cell-write discipline and the conformance check -/

/-- C4: during SLR(1) ACTION construction a cell write behaves as follows —
a fresh cell receives the action; an occupied cell written with the identical
action is left unchanged; an occupied cell written with a different action
becomes the conflict marker; a conflict cell stays a conflict — and the
SLR(1) check returns true exactly when no ACTION cell holds the conflict
marker. -/
theorem claim_C4 :
    (∀ (row : ARow) (t : Char) (a : PAction),
        alLookup row t = none →
        alLookup (slrActionInsert row t a) t = some (some a)) ∧
    (∀ (row : ARow) (t : Char) (a : PAction),
        alLookup row t = some (some a) →
        alLookup (slrActionInsert row t a) t = some (some a)) ∧
    (∀ (row : ARow) (t : Char) (a b : PAction),
        alLookup row t = some (some b) → ¬ b = a →
        alLookup (slrActionInsert row t a) t = some none) ∧
    (∀ (row : ARow) (t : Char) (a : PAction),
        alLookup row t = some none →
        alLookup (slrActionInsert row t a) t = some none) ∧
    (∀ tbl : ATable,
        check_if_slr1 tbl = true ↔ ∀ e ∈ tbl, ∀ c ∈ e.2, ¬ c.2 = none) := by
  refine ⟨fun row t a h => ?_, fun row t a h => ?_, fun row t a b h hne => ?_,
    fun row t a h => ?_, fun tbl => ?_⟩
  · simp [slrActionInsert, h, alLookup_alSet_self]
  · simp [slrActionInsert, h, alLookup_alSet_self]
  · have : ¬ (some b = a) := by simp [hne]
    simp [slrActionInsert, h, this, alLookup_alSet_self]
  · simp [slrActionInsert, h, alLookup_alSet_self]
  · simp [check_if_slr1, List.all_eq_true, Option.isSome_iff_ne_none]

theorem claim_C4_witness :
    alLookup (slrActionInsert [] 'a' (.shift 1)) 'a' = some (some (.shift 1)) ∧
    alLookup (slrActionInsert [('a', some (.shift 1))] 'a' (.shift 1)) 'a'
      = some (some (.shift 1)) ∧
    alLookup (slrActionInsert [('a', some (.shift 1))] 'a' .acc) 'a' = some none ∧
    alLookup (slrActionInsert [('a', none)] 'a' .acc) 'a' = some none ∧
    (check_if_slr1 [(0, [('a', some (.shift 1))])] = true ↔
      ∀ e ∈ [((0 : Nat), [('a', some (PAction.shift 1))])], ∀ c ∈ e.2, ¬ c.2 = none) :=
  ⟨claim_C4.1 [] 'a' (.shift 1) rfl,
   claim_C4.2.1 _ 'a' (.shift 1) rfl,
   claim_C4.2.2.1 _ 'a' .acc (.shift 1) rfl (by decide),
   claim_C4.2.2.2.1 _ 'a' .acc rfl,
   claim_C4.2.2.2.2 _⟩

/-! ### C6: the LL(1) acceptance condition -/

/-- C6: for a parser whose LL(1) flag is true and any input string (with the
end marker appended when absent), parse returns true exactly when the machine
loop exits with an empty stack at a cursor that either consumed the whole
string or sits on the final end marker one position before the end; a normal
exit at any other cursor yields false (as do mid-loop rejections). -/
theorem claim_C6 (P : LL1Parser) (s : Str) (fuel : Nat) (h : P.is_ll1 = true) :
    P.parse s fuel = .ok true ↔
      (∃ ptr,
        ll1Loop P.parse_table (ensureDollar s) fuel [P.grammar.start_symbol, ['$']] 0
          = .finished ptr ∧
        (ptr ≥ (ensureDollar s).length ∨
          (ptr = (ensureDollar s).length - 1 ∧ (ensureDollar s).getLast? = some '$'))) := by
  have hniff : ¬ P.is_ll1 = false := by simp [h]
  unfold LL1Parser.parse
  rcases hres : ll1Loop P.parse_table (ensureDollar s) fuel [P.grammar.start_symbol, ['$']] 0 with
    _ | ptr | _ | _ <;> simp [hniff, hres, ll1Accept]

theorem claim_C6_witness :
    (((mkLL1 gAB).getD ll1Default).parse ['d'] 10 = .ok true ↔
      (∃ ptr,
        ll1Loop ((mkLL1 gAB).getD ll1Default).parse_table (ensureDollar ['d']) 10
            [((mkLL1 gAB).getD ll1Default).grammar.start_symbol, ['$']] 0 = .finished ptr ∧
        (ptr ≥ (ensureDollar ['d']).length ∨
          (ptr = (ensureDollar ['d']).length - 1 ∧
            (ensureDollar ['d']).getLast? = some '$')))) :=
  claim_C6 _ ['d'] 10 (by decide)

/-! ### C8: the end marker in FOLLOW(start) and monotonicity -/

theorem smapLE_refl (m : SMap) : smapLE m m := fun _ _ h => h

theorem smapLE_trans {a b c : SMap} (h1 : smapLE a b) (h2 : smapLE b c) : smapLE a c :=
  fun k x hx => h2 k x (h1 k x hx)

theorem smapLE_alSet_append (m : SMap) (k : Str) (l : CSet) :
    smapLE m (alSet m k (alGetD m k [] ++ l)) := by
  intro k' x hx
  by_cases h : k = k'
  · subst h
    simp only [alGetD, alLookup_alSet_self, Option.getD_some, List.mem_append]
    exact Or.inl (by simpa [alGetD] using hx)
  · simpa [alGetD, alLookup_alSet_ne _ _ h] using hx
theorem mem_addNew_self [DecidableEq α] (l : List α) (x : α) : x ∈ addNew l x := by
  by_cases h : x ∈ l <;> simp [addNew, h]

theorem mem_addNew_of_mem [DecidableEq α] {l : List α} {x : α} (y : α)
    (h : x ∈ l) : x ∈ addNew l y := by
  by_cases hy : y ∈ l <;> simp [addNew, hy, h]

theorem foldl_smapLE {β : Type} {f : SMap × Bool → β → SMap × Bool}
    (hf : ∀ mu b, smapLE mu.1 (f mu b).1) :
    ∀ (l : List β) (mu : SMap × Bool), smapLE mu.1 (List.foldl f mu l).1 := by
  intro l
  induction l with
  | nil => intro mu; exact smapLE_refl _
  | cons b rest ih =>
    intro mu
    exact smapLE_trans (hf mu b) (ih (f mu b))

theorem followAddAll_mono (k : Str) (src : CSet) (m : SMap) :
    smapLE m (followAddAll m k src).1 := by
  unfold followAddAll
  refine foldl_smapLE (fun mu t => ?_) src (m, false)
  dsimp only
  by_cases hm : t ∉ alGetD mu.1 k []
  · rw [if_pos hm]
    exact smapLE_alSet_append mu.1 k [t]
  · rw [if_neg hm]
    exact smapLE_refl _

theorem followStep_mono (nt : Str) (fs : SMap) :
    ∀ (p : Str) (m : SMap) (u : Bool), smapLE m (followStep nt fs (m, u) p).1 := by
  intro p
  induction p with
  | nil =>
    intro m u
    rw [followStep]
    exact smapLE_refl _
  | cons c rest ih =>
    intro m u
    rw [followStep]
    dsimp only
    by_cases hc : c.isUpper
    · rw [if_pos hc]
      by_cases hr : rest ≠ []
      · rw [if_pos hr]
        cases hfr : (followFirstRest fs rest []).2
        · simp only [hfr, Bool.false_eq_true, if_false]
          exact smapLE_trans (followAddAll_mono [c] (followFirstRest fs rest []).1 m)
            (ih (followAddAll m [c] (followFirstRest fs rest []).1).1 _)
        · simp only [hfr, if_true]
          exact smapLE_trans (followAddAll_mono [c] (followFirstRest fs rest []).1 m)
            (smapLE_trans
              (followAddAll_mono [c] _ (followAddAll m [c] (followFirstRest fs rest []).1).1)
              (ih _ _))
      · rw [if_neg hr]
        exact smapLE_trans (followAddAll_mono [c] (alGetD m nt []) m) (ih _ _)
    · rw [if_neg hc]
      exact ih m u

theorem followPass_mono (g : Grammar) (fs m : SMap) :
    smapLE m (followPass g fs m).1 := by
  unfold followPass
  refine foldl_smapLE (fun mu entry => ?_) g.productions (m, false)
  refine foldl_smapLE (fun mu2 p => ?_) entry.2 mu
  dsimp only
  by_cases hp : p = ['e']
  · rw [if_pos hp]
    exact smapLE_refl _
  · rw [if_neg hp]
    obtain ⟨m2, u2⟩ := mu2
    exact followStep_mono entry.1 fs p m2 u2

theorem fixLoop_smapLE {pass : SMap → SMap × Bool} (hp : ∀ m, smapLE m (pass m).1) :
    ∀ (fuel : Nat) (m : SMap), smapLE m (fixLoop pass fuel m) := by
  intro fuel
  induction fuel with
  | zero => intro m; exact smapLE_refl m
  | succ n ih =>
    intro m
    rw [fixLoop]
    rcases hpm : pass m with ⟨y, upd⟩
    have h1 : smapLE m y := by
      have := hp m
      rw [hpm] at this
      exact this
    cases upd
    · simpa [hpm] using h1
    · simp only [hpm]
      exact smapLE_trans h1 (ih y)

/-- C8: whenever the FOLLOW computation returns a result, the end marker is a
member of the FOLLOW set of the start symbol, and every pass of the FOLLOW
fixpoint loop only grows the sets (monotonic, never shrinking), so membership
is preserved throughout the computation. -/
theorem claim_C8 :
    (∀ (g : Grammar) (fs f : SMap), g.get_follow_set fs = some f →
        '$' ∈ alGetD f g.start_symbol []) ∧
    (∀ (g : Grammar) (fs m : SMap) (k : Str) (x : Char),
        x ∈ alGetD m k [] → x ∈ alGetD (followPass g fs m).1 k []) := by
  constructor
  · intro g fs f h
    unfold Grammar.get_follow_set at h
    dsimp only at h
    split at h
    · exact absurd h (by simp)
    · rename_i cur hl
      simp only [Option.some.injEq] at h
      subst h
      refine fixLoop_smapLE (followPass_mono g fs) _ _ g.start_symbol '$' ?_
      simp only [alGetD, alLookup_alSet_self, Option.getD_some]
      exact mem_addNew_self cur '$'
  · intro g fs m k x hx
    exact followPass_mono g fs m k x hx

theorem claim_C8_witness :
    '$' ∈ alGetD ((gAB.get_follow_set gAB.get_first_set).getD []) gAB.start_symbol [] ∧
    'z' ∈ alGetD (followPass gAB gAB.get_first_set [(['A'], ['z'])]).1 ['A'] [] := by
  constructor
  · have h : gAB.get_follow_set gAB.get_first_set
        = some ((gAB.get_follow_set gAB.get_first_set).getD []) := by decide
    exact claim_C8.1 gAB gAB.get_first_set _ h
  · exact claim_C8.2 gAB gAB.get_first_set [(['A'], ['z'])] ['A'] 'z' (by decide)

/-! ### C5: the augmented grammar -/

theorem alLookup_eq_none [DecidableEq κ] {m : List (κ × α)} {k : κ} :
    alLookup m k = none ↔ k ∉ m.map Prod.fst := by
  induction m with
  | nil => simp [alLookup]
  | cons e rest ih =>
    obtain ⟨k1, v1⟩ := e
    by_cases h : k1 = k
    · subst h
      simp [alLookup]
    · simp [alLookup, h, ih, Ne.symm h]

theorem alLookup_append_left_none [DecidableEq κ] {l1 : List (κ × α)} (l2 : List (κ × α))
    (k : κ) (h : alLookup l1 k = none) : alLookup (l1 ++ l2) k = alLookup l2 k := by
  induction l1 with
  | nil => simp
  | cons e rest ih =>
    obtain ⟨k1, v1⟩ := e
    by_cases h1 : k1 = k
    · simp [alLookup, h1] at h
    · simp only [alLookup, h1, if_false] at h
      simp only [List.cons_append, alLookup, h1, if_false]
      exact ih h

theorem alAppendVal_last (l : List (Str × List Str)) (nt : Str) (vs : List Str) (v : Str)
    (h : alLookup l nt = none) :
    alAppendVal (l ++ [(nt, vs)]) nt v = l ++ [(nt, vs ++ [v])] := by
  induction l with
  | nil => simp [alAppendVal]
  | cons e rest ih =>
    obtain ⟨k1, v1⟩ := e
    by_cases h1 : k1 = nt
    · simp [alLookup, h1] at h
    · simp only [alLookup, h1, if_false] at h
      simp only [List.cons_append, alAppendVal, h1, if_false]
      exact congrArg (List.cons (k1, v1)) (ih h)

theorem classify_productions (g : Grammar) (c : Char) :
    (g.classify c).productions = g.productions := by
  unfold Grammar.classify
  split_ifs <;> rfl

theorem classify_start (g : Grammar) (c : Char) :
    (g.classify c).start_symbol = g.start_symbol := by
  unfold Grammar.classify
  split_ifs <;> rfl

theorem foldl_classify_productions (p : Str) :
    ∀ g : Grammar, (p.foldl Grammar.classify g).productions = g.productions := by
  induction p with
  | nil => intro g; rfl
  | cons c rest ih =>
    intro g
    simp only [List.foldl_cons]
    rw [ih, classify_productions]

theorem foldl_classify_start (p : Str) :
    ∀ g : Grammar, (p.foldl Grammar.classify g).start_symbol = g.start_symbol := by
  induction p with
  | nil => intro g; rfl
  | cons c rest ih =>
    intro g
    simp only [List.foldl_cons]
    rw [ih, classify_start]

theorem add_production_start (g : Grammar) (nt : Str) (ps : List Str) :
    (g.add_production nt ps).start_symbol = g.start_symbol := by
  unfold Grammar.add_production
  have hgen : ∀ (l : List Str) (G : Grammar),
      (l.foldl (fun g2 p =>
        p.foldl Grammar.classify
          { g2 with productions := alAppendVal g2.productions nt p }) G).start_symbol
        = G.start_symbol := by
    intro l
    induction l with
    | nil => intro G; rfl
    | cons p rest ih =>
      intro G
      simp only [List.foldl_cons]
      rw [ih, foldl_classify_start]
  split_ifs <;> simpa using hgen ps _

/-- One add_production call on a grammar whose last productions entry is the
non-terminal being extended. -/
theorem add_production_step (G : Grammar) (nt : Str) (p : Str) (base : List (Str × List Str))
    (vs : List Str) (hprod : G.productions = base ++ [(nt, vs)])
    (hfresh : alLookup base nt = none) :
    (G.add_production nt [p]).productions = base ++ [(nt, vs ++ [p])] := by
  unfold Grammar.add_production
  have hlook : alLookup G.productions nt = some vs := by
    rw [hprod, alLookup_append_left_none _ _ hfresh]
    simp [alLookup]
  rw [if_pos (by simp [hlook])]
  simp only [List.foldl_cons, List.foldl_nil]
  rw [foldl_classify_productions]
  simp only [hprod]
  exact alAppendVal_last base nt vs p hfresh

/-- One add_production call with a fresh non-terminal and a single
production. -/
theorem add_production_fresh (G : Grammar) (nt : Str) (p : Str)
    (hfresh : alLookup G.productions nt = none) :
    (G.add_production nt [p]).productions = G.productions ++ [(nt, [p])] := by
  unfold Grammar.add_production
  rw [if_neg (by simp [hfresh])]
  simp only [List.foldl_cons, List.foldl_nil]
  rw [foldl_classify_productions]
  exact alAppendVal_last G.productions nt [] p hfresh

/-- The inner copy loop of the augmenter: adding all productions of one
fresh non-terminal one by one appends exactly its dictionary entry. -/
theorem copy_entry (nt : Str) :
    ∀ (rest : List Str) (A : Grammar) (base : List (Str × List Str)) (vs : List Str),
      A.productions = base ++ [(nt, vs)] → alLookup base nt = none →
      (rest.foldl (fun a2 p => a2.add_production nt [p]) A).productions
        = base ++ [(nt, vs ++ rest)] := by
  intro rest
  induction rest with
  | nil =>
    intro A base vs hA hf
    simpa using hA
  | cons p tl ih =>
    intro A base vs hA hf
    simp only [List.foldl_cons]
    have h1 := add_production_step A nt p base vs hA hf
    have := ih (A.add_production nt [p]) base (vs ++ [p]) h1 hf
    simpa using this

theorem copy_entries :
    ∀ (l : List (Str × List Str)) (A : Grammar),
      (∀ e ∈ l, alLookup A.productions e.1 = none) →
      (l.map Prod.fst).Nodup →
      (∀ e ∈ l, e.2 ≠ []) →
      (l.foldl (fun a e => e.2.foldl (fun a2 p => a2.add_production e.1 [p]) a) A).productions
        = A.productions ++ l := by
  intro l
  induction l with
  | nil => intro A _ _ _; simp
  | cons e rest ih =>
    intro A hfresh hnd hne
    obtain ⟨nt, ps⟩ := e
    simp only [List.foldl_cons]
    have hfe : alLookup A.productions nt = none := hfresh (nt, ps) (by simp)
    have hpe : ps ≠ [] := by simpa using hne (nt, ps) (by simp)
    obtain ⟨p0, ptl, rfl⟩ : ∃ p0 ptl, ps = p0 :: ptl := by
      cases ps with
      | nil => exact absurd rfl hpe
      | cons a b => exact ⟨a, b, rfl⟩
    have hstep : ((p0 :: ptl).foldl (fun a2 p => a2.add_production nt [p]) A).productions
        = A.productions ++ [(nt, p0 :: ptl)] := by
      simp only [List.foldl_cons]
      have h1 := add_production_fresh A nt p0 hfe
      have := copy_entry nt ptl (A.add_production nt [p0]) A.productions [p0] h1 hfe
      simpa using this
    set A1 := (p0 :: ptl).foldl (fun a2 p => a2.add_production nt [p]) A with hA1
    have hrest : ∀ e2 ∈ rest, alLookup A1.productions e2.1 = none := by
      intro e2 he2
      rw [hstep]
      have h1 : alLookup A.productions e2.1 = none :=
        hfresh e2 (List.mem_cons_of_mem _ he2)
      rw [alLookup_append_left_none _ _ h1]
      have : ¬ nt = e2.1 := by
        simp only [List.map_cons, List.nodup_cons] at hnd
        intro hcon
        exact hnd.1 (hcon ▸ List.mem_map_of_mem Prod.fst he2)
      simp [alLookup, this]
    have hnd2 : (rest.map Prod.fst).Nodup := by
      simp only [List.map_cons, List.nodup_cons] at hnd
      exact hnd.2
    have hne2 : ∀ e2 ∈ rest, e2.2 ≠ [] := fun e2 he2 => hne e2 (by simp [he2])
    rw [ih A1 hrest hnd2 hne2, hstep]
    simp

/-- The augmenter's effect on the productions dictionary: the source entries
verbatim, followed by the single entry of the new start non-terminal. -/
theorem augment_productions (g : Grammar)
    (hnd : (g.productions.map Prod.fst).Nodup)
    (hone : ∀ e ∈ g.productions, e.1.length = 1)
    (hne : ∀ e ∈ g.productions, e.2 ≠ []) :
    (augment_grammar g).productions = g.productions ++ [(['S', apos], [g.start_symbol])] := by
  unfold augment_grammar
  have hcopy := copy_entries g.productions Grammar.init
    (fun e _ => by simp [Grammar.init, alLookup]) hnd hne
  set A := g.productions.foldl
    (fun a e => e.2.foldl (fun a2 p => a2.add_production e.1 [p]) a) Grammar.init with hA
  have hAp : A.productions = g.productions := by
    rw [hcopy]
    simp [Grammar.init]
  have hfresh : alLookup A.productions ['S', apos] = none := by
    rw [hAp, alLookup_eq_none]
    intro hmem
    obtain ⟨e, he, heq⟩ := List.mem_map.mp hmem
    have := hone e he
    rw [heq] at this
    simp at this
  have := add_production_fresh A ['S', apos] g.start_symbol hfresh
  simp only [this, hAp]

/-- C5: for a source grammar respecting the data model (distinct dictionary
keys, single-character non-terminal names, no empty alternative lists), the
augmented grammar's dictionary is the source dictionary verbatim followed by
exactly one new entry whose key is not part of the source alphabet and whose
sole production is the source start symbol, and the augmented start symbol is
that new non-terminal. -/
theorem claim_C5 (g : Grammar)
    (hnd : (g.productions.map Prod.fst).Nodup)
    (hone : ∀ e ∈ g.productions, e.1.length = 1)
    (hne : ∀ e ∈ g.productions, e.2 ≠ []) :
    (augment_grammar g).productions = g.productions ++ [(['S', apos], [g.start_symbol])] ∧
    (augment_grammar g).start_symbol = ['S', apos] ∧
    ['S', apos] ∉ g.productions.map Prod.fst := by
  refine ⟨augment_productions g hnd hone hne, rfl, ?_⟩
  intro hmem
  obtain ⟨e, he, heq⟩ := List.mem_map.mp hmem
  have := hone e he
  rw [heq] at this
  simp at this

theorem claim_C5_witness :
    (augment_grammar gAB).productions
      = gAB.productions ++ [(['S', apos], [gAB.start_symbol])] ∧
    (augment_grammar gAB).start_symbol = ['S', apos] ∧
    ['S', apos] ∉ gAB.productions.map Prod.fst :=
  claim_C5 gAB (by decide) (by decide) (by decide)

/-! ### C9: the fixed start symbol and the missing-S failure -/

theorem alAppendVal_keys (m : List (Str × List Str)) (k : Str) (v : Str) :
    (alAppendVal m k v).map Prod.fst = m.map Prod.fst := by
  induction m with
  | nil => rfl
  | cons e rest ih =>
    obtain ⟨k1, v1⟩ := e
    by_cases h : k1 = k
    · subst h
      simp [alAppendVal]
    · simp [alAppendVal, h, ih]

theorem foldl_add_keys (nt : Str) :
    ∀ (l : List Str) (G : Grammar),
      ((l.foldl (fun g2 p =>
        p.foldl Grammar.classify
          { g2 with productions := alAppendVal g2.productions nt p }) G).productions).map
            Prod.fst = G.productions.map Prod.fst := by
  intro l
  induction l with
  | nil => intro G; rfl
  | cons p rest ih =>
    intro G
    simp only [List.foldl_cons]
    rw [ih, foldl_classify_productions]
    exact alAppendVal_keys G.productions nt p

theorem add_production_keys (g : Grammar) (nt : Str) (ps : List Str) (k : Str) :
    k ∈ ((g.add_production nt ps).productions).map Prod.fst ↔
      k ∈ g.productions.map Prod.fst ∨ k = nt := by
  unfold Grammar.add_production
  by_cases h : (alLookup g.productions nt).isSome
  · rw [if_pos h, foldl_add_keys]
    constructor
    · exact Or.inl
    · rintro (hk | rfl)
      · exact hk
      · rw [Option.isSome_iff_exists] at h
        obtain ⟨vs, hvs⟩ := h
        exact List.mem_map_of_mem Prod.fst (alLookup_mem hvs)
  · rw [if_neg h, foldl_add_keys]
    simp

theorem classify_nt_mono (g : Grammar) (c : Char) {x : Str}
    (h : x ∈ g.non_terminals) : x ∈ (g.classify c).non_terminals := by
  unfold Grammar.classify
  split_ifs
  · exact mem_addNew_of_mem _ h
  · exact h
  · exact h

theorem foldl_classify_nt_mono (p : Str) :
    ∀ (G : Grammar) {x : Str}, x ∈ G.non_terminals →
      x ∈ (p.foldl Grammar.classify G).non_terminals := by
  induction p with
  | nil => intro G x h; exact h
  | cons c rest ih =>
    intro G x h
    exact ih _ (classify_nt_mono G c h)

theorem foldl_classify_upper_mem (p : Str) :
    ∀ (G : Grammar) {c : Char}, c ∈ p → c.isUpper = true →
      [c] ∈ (p.foldl Grammar.classify G).non_terminals := by
  induction p with
  | nil => intro G c h; exact absurd h (List.not_mem_nil c)
  | cons c0 rest ih =>
    intro G c hmem hup
    rcases List.mem_cons.mp hmem with rfl | hmem2
    · simp only [List.foldl_cons]
      refine foldl_classify_nt_mono rest _ ?_
      unfold Grammar.classify
      rw [if_pos hup]
      exact mem_addNew_self _ _
    · exact ih _ hmem2 hup

theorem add_production_upper_mem (g : Grammar) (nt : Str) (p : Str) {c : Char}
    (hmem : c ∈ p) (hup : c.isUpper = true) :
    [c] ∈ (g.add_production nt [p]).non_terminals := by
  unfold Grammar.add_production
  split_ifs <;>
    · simp only [List.foldl_cons, List.foldl_nil]
      exact foldl_classify_upper_mem p _ hmem hup

theorem foldl_add_keys_mem (nt : Str) :
    ∀ (ps : List Str) (A : Grammar) (k : Str),
      k ∈ ((ps.foldl (fun a2 p => a2.add_production nt [p]) A).productions).map Prod.fst →
      k ∈ A.productions.map Prod.fst ∨ k = nt := by
  intro ps
  induction ps with
  | nil => intro A k h; exact Or.inl h
  | cons p rest ih =>
    intro A k h
    rcases ih (A.add_production nt [p]) k h with h1 | h1
    · exact (add_production_keys A nt [p] k).mp h1
    · exact Or.inr h1

theorem copy_keys_mem :
    ∀ (l : List (Str × List Str)) (A : Grammar) (k : Str),
      k ∈ ((l.foldl (fun a e => e.2.foldl (fun a2 p => a2.add_production e.1 [p]) a)
        A).productions).map Prod.fst →
      k ∈ A.productions.map Prod.fst ∨ ∃ e ∈ l, e.1 = k := by
  intro l
  induction l with
  | nil => intro A k h; exact Or.inl h
  | cons e rest ih =>
    intro A k h
    rcases ih _ k h with h1 | h1
    · rcases foldl_add_keys_mem e.1 e.2 A k h1 with h2 | h2
      · exact Or.inl h2
      · exact Or.inr ⟨e, by simp, h2.symm⟩
    · obtain ⟨e2, he2, heq⟩ := h1
      exact Or.inr ⟨e2, List.mem_cons_of_mem _ he2, heq⟩

/-- The start symbol occurs in the augmented grammar's non-terminal set. -/
theorem augment_start_mem (g : Grammar) (hstart : g.start_symbol = ['S']) :
    ['S'] ∈ (augment_grammar g).non_terminals := by
  unfold augment_grammar
  rw [hstart]
  exact add_production_upper_mem _ _ _ (by simp) (by decide)

/-- When no production defines the symbol S and no dictionary key escapes the
non-terminal set, the augmented productions dictionary has no entry for S. -/
theorem augment_no_S (g : Grammar) (hS : ['S'] ∉ g.non_terminals)
    (hkeys : ∀ e ∈ g.productions, e.1 ∈ g.non_terminals) :
    alLookup (augment_grammar g).productions ['S'] = none := by
  rw [alLookup_eq_none]
  intro hmem
  unfold augment_grammar at hmem
  rcases foldl_add_keys_mem (['S', apos]) [g.start_symbol] _ ['S']
      (by simpa using hmem) with h1 | h1
  · rcases copy_keys_mem g.productions Grammar.init ['S'] h1 with h2 | h2
    · simp [Grammar.init] at h2
    · obtain ⟨e, he, heq⟩ := h2
      exact hS (heq ▸ hkeys e he)
  · simp at h1

theorem closureLoop_err (ag : Grammar) (n : Nat) (cl : List Item)
    (h : closureScan ag cl = none) : closureLoop ag (n + 1) cl = .err := by
  rw [closureLoop, h]

/-- The first closure of the canonical collection raises at once when the
start symbol S has no productions entry yet sits after the dot of the
augmented item. -/
theorem build_cc_err (g : Grammar) (hstart : g.start_symbol = ['S'])
    (hS : ['S'] ∉ g.non_terminals)
    (hkeys : ∀ e ∈ g.productions, e.1 ∈ g.non_terminals) :
    build_canonical_collection g (augment_grammar g) = .err := by
  unfold build_canonical_collection
  have hscan : closureScan (augment_grammar g) [((['S', apos] : Str), g.start_symbol, 0)]
      = none := by
    unfold closureScan
    simp only [List.foldl_cons, List.foldl_nil]
    unfold closureStepItem
    have had : itemAfterDot ((['S', apos] : Str), g.start_symbol, 0) = some 'S' := by
      rw [hstart]
      rfl
    rw [had]
    dsimp only
    rw [if_pos (augment_start_mem g hstart), augment_no_S g hS hkeys]
  have hfuel : ∃ n, (augment_grammar g).itemFuel = n + 1 := ⟨_, rfl⟩
  obtain ⟨n, hn⟩ := hfuel
  rw [hn, closureLoop_err _ n _ hscan]

theorem foldl_option_pres {β : Type} {P : Option Grammar → Prop}
    (f : Option Grammar → β → Option Grammar)
    (hstep : ∀ acc b, P acc → P (f acc b)) :
    ∀ (l : List β) (acc : Option Grammar), P acc → P (l.foldl f acc) := by
  intro l
  induction l with
  | nil => intro acc h; exact h
  | cons b rest ih =>
    intro acc h
    exact ih _ (hstep acc b h)

/-- C9 (amended): the start symbol is the fixed literal S regardless of the
input text — every grammar produced by read_grammar keeps it — and for every
grammar whose symbol universe does not contain S at all (S is neither defined
by a production nor occurs in any right-hand side, so it is missing from the
non-terminal set), computing FOLLOW raises a missing-key error when seeding
FOLLOW(S), hence the LL(1) constructor raises; the SLR(1) constructor raises
as well (its initial closure looks up the productions of the undefined S). -/
theorem claim_C9_amended :
    (∀ (lines : List Str) (g : Grammar), readGrammar lines = some g →
        g.start_symbol = ['S']) ∧
    (∀ (g : Grammar) (fs : SMap), g.start_symbol = ['S'] → ['S'] ∉ g.non_terminals →
        g.get_follow_set fs = none ∧ mkLL1 g = none) ∧
    (∀ g : Grammar, g.start_symbol = ['S'] → ['S'] ∉ g.non_terminals →
        (∀ e ∈ g.productions, e.1 ∈ g.non_terminals) → mkSLR g = .err) := by
  refine ⟨?_, ?_, ?_⟩
  · intro lines g h
    unfold readGrammar Grammar.read_grammar at h
    rcases lines with _ | ⟨l0, rest⟩
    · simp at h
    · simp only [List.head?] at h
      rcases hint : pyInt l0 with _ | n
      · rw [hint] at h
        simp at h
      · rw [hint] at h
        dsimp only at h
        refine foldl_option_pres
          (P := fun acc => ∀ g2, acc = some g2 → g2.start_symbol = ['S'])
          _ ?_ (List.range n) _ ?_ g h
        · intro acc b hP g3 hres
          rcases acc with _ | g2
          · simp at hres
          · dsimp only at hres
            rcases hline : (l0 :: rest)[b + 1]? with _ | line
            · rw [hline] at hres
              simp at hres
            · rw [hline] at hres
              dsimp only at hres
              rcases harr : splitArrowOnce (stripChars line) with _ | pr
              · rw [harr] at hres
                simp at hres
              · rw [harr] at hres
                obtain ⟨before, afterAll⟩ := pr
                dsimp only at hres
                injection hres with h2
                rw [← h2, add_production_start]
                exact hP g2 rfl
        · intro g2 hg2
          injection hg2 with h2
          rw [← h2]
          rfl
  · intro g fs hstart hS
    have hfolAny : ∀ fs' : SMap, g.get_follow_set fs' = none := by
      intro fs'
      unfold Grammar.get_follow_set
      dsimp only
      have : alLookup (g.non_terminals.map (fun nt => (nt, ([] : CSet)))) g.start_symbol
          = none := by
        rw [alLookup_eq_none]
        intro hmem
        rw [hstart] at hmem
        apply hS
        simpa using hmem
      rw [this]
    refine ⟨hfolAny fs, ?_⟩
    unfold mkLL1
    dsimp only
    rw [hfolAny _]
  · intro g hstart hS hkeys
    unfold mkSLR
    dsimp only
    rcases hf : (augment_grammar g).get_follow_set (augment_grammar g).get_first_set with
      _ | fol
    · rfl
    · dsimp only
      rw [build_cc_err g hstart hS hkeys]

/-! ### C1: the LL(1) write-twice conflict rule and duplicated alternatives -/

theorem ll1Insert_occupied {row : LL1Row} {t : Char} {v : Option Str} (p : Str)
    (h : alLookup row t = some v) : alLookup (ll1Insert row t p) t = some none := by
  unfold ll1Insert
  rw [if_pos (by simp [h])]
  exact alLookup_alSet_self row t none

theorem ll1Insert_fresh {row : LL1Row} {t : Char} (p : Str)
    (h : alLookup row t = none) : alLookup (ll1Insert row t p) t = some (some p) := by
  unfold ll1Insert
  rw [if_neg (by simp [h])]
  exact alLookup_alSet_self row t (some p)

theorem ll1Insert_other {row : LL1Row} {t t' : Char} {p : Str} (h : ¬ t = t') :
    alLookup (ll1Insert row t p) t' = alLookup row t' := by
  unfold ll1Insert
  split_ifs <;> exact alLookup_alSet_ne row _ h

theorem wfold_present (q : Str) :
    ∀ (ws : List Char) (row : LL1Row) (t : Char) (v : Option Str),
      alLookup row t = some v →
      ∃ w, alLookup (ws.foldl (fun r u => ll1Insert r u q) row) t = some w ∧
        (t ∈ ws → w = none) ∧ (t ∉ ws → w = v) := by
  intro ws
  induction ws with
  | nil =>
    intro row t v h
    exact ⟨v, h, by simp, fun _ => rfl⟩
  | cons u rest ih =>
    intro row t v h
    simp only [List.foldl_cons]
    by_cases hu : u = t
    · subst hu
      obtain ⟨w, hw, hin, hout⟩ := ih _ u none (ll1Insert_occupied q h)
      refine ⟨w, hw, fun _ => ?_, fun hni => ?_⟩
      · by_cases ht : u ∈ rest
        · exact hin ht
        · exact hout ht
      · exact absurd (List.mem_cons_self u rest) hni
    · have h2 : alLookup (ll1Insert row u q) t = some v := by
        rw [ll1Insert_other hu]
        exact h
      obtain ⟨w, hw, hin, hout⟩ := ih _ t v h2
      refine ⟨w, hw, fun hmem => ?_, fun hni => ?_⟩
      · rcases List.mem_cons.mp hmem with h' | h'
        · exact absurd h'.symm hu
        · exact hin h'
      · exact hout (fun h' => hni (List.mem_cons_of_mem _ h'))

theorem wfold_create (q : Str) :
    ∀ (ws : List Char) (row : LL1Row) (t : Char),
      alLookup row t = none → t ∈ ws →
      ∃ w, alLookup (ws.foldl (fun r u => ll1Insert r u q) row) t = some w := by
  intro ws
  induction ws with
  | nil =>
    intro row t _ h
    exact absurd h (List.not_mem_nil t)
  | cons u rest ih =>
    intro row t hn hmem
    simp only [List.foldl_cons]
    by_cases hu : u = t
    · subst hu
      obtain ⟨w, hw, _, _⟩ := wfold_present q rest _ u (some q) (ll1Insert_fresh q hn)
      exact ⟨w, hw⟩
    · rcases List.mem_cons.mp hmem with h' | h'
      · exact absurd h'.symm hu
      · have h2 : alLookup (ll1Insert row u q) t = none := by
          rw [ll1Insert_other hu]
          exact hn
        exact ih _ t h2 h'

/-- Folding the writes of a list of productions preserves presence of a
cell. -/
theorem prods_present (fs fol : SMap) (A : Str) :
    ∀ (qs : List Str) (row : LL1Row) (t : Char) (v : Option Str),
      alLookup row t = some v →
      ∃ w, alLookup (qs.foldl (fun r q =>
        (ll1Writes fs fol A q).foldl (fun r2 u => ll1Insert r2 u q) r) row) t = some w := by
  intro qs
  induction qs with
  | nil =>
    intro row t v h
    exact ⟨v, h⟩
  | cons q rest ih =>
    intro row t v h
    simp only [List.foldl_cons]
    obtain ⟨w, hw, _, _⟩ := wfold_present q (ll1Writes fs fol A q) row t v h
    exact ih _ t w hw

/-- Folding the writes of a list of productions preserves a conflict cell. -/
theorem prods_conflict (fs fol : SMap) (A : Str) :
    ∀ (qs : List Str) (row : LL1Row) (t : Char),
      alLookup row t = some none →
      alLookup (qs.foldl (fun r q =>
        (ll1Writes fs fol A q).foldl (fun r2 u => ll1Insert r2 u q) r) row) t = some none := by
  intro qs
  induction qs with
  | nil =>
    intro row t h
    exact h
  | cons q rest ih =>
    intro row t h
    simp only [List.foldl_cons]
    obtain ⟨w, hw, hin, hout⟩ := wfold_present q (ll1Writes fs fol A q) row t none h
    have hwn : w = none := by
      by_cases hm : t ∈ ll1Writes fs fol A q
      · exact hin hm
      · exact hout hm
    exact ih _ t (hwn ▸ hw)

theorem tblfold_row_self (nt : Str) (p : Str) :
    ∀ (ws : List Char) (tbl : LL1Table),
      alGetD ((ws.foldl (fun t0 t => ll1TblInsert t0 nt t p) tbl)) nt []
        = ws.foldl (fun r t => ll1Insert r t p) (alGetD tbl nt []) := by
  intro ws
  induction ws with
  | nil => intro tbl; rfl
  | cons u rest ih =>
    intro tbl
    simp only [List.foldl_cons]
    rw [ih]
    unfold ll1TblInsert alGetD
    rw [alLookup_alSet_self]
    rfl

theorem tblfold_row_other (nt : Str) (p : Str) {nt' : Str} (h : ¬ nt = nt') :
    ∀ (ws : List Char) (tbl : LL1Table),
      alGetD ((ws.foldl (fun t0 t => ll1TblInsert t0 nt t p) tbl)) nt' []
        = alGetD tbl nt' [] := by
  intro ws
  induction ws with
  | nil => intro tbl; rfl
  | cons u rest ih =>
    intro tbl
    simp only [List.foldl_cons]
    rw [ih]
    unfold ll1TblInsert alGetD
    rw [alLookup_alSet_ne _ _ h]

theorem tblfold_guard_row_self (nt : Str) (p : Str) :
    ∀ (ws : List Char) (tbl : LL1Table),
      alGetD ((ws.foldl (fun t0 t => if t ≠ 'e' then ll1TblInsert t0 nt t p else t0) tbl)) nt []
        = (ws.filter (fun t => t ≠ 'e')).foldl (fun r t => ll1Insert r t p) (alGetD tbl nt []) := by
  intro ws
  induction ws with
  | nil => intro tbl; rfl
  | cons u rest ih =>
    intro tbl
    simp only [List.foldl_cons]
    by_cases hu : u ≠ 'e'
    · rw [if_pos hu, List.filter_cons_of_pos (by simpa using hu), List.foldl_cons, ih]
      unfold ll1TblInsert alGetD
      rw [alLookup_alSet_self]
      rfl
    · rw [if_neg hu, List.filter_cons_of_neg (by simpa using hu)]
      exact ih tbl

theorem tblfold_guard_row_other (nt : Str) (p : Str) {nt' : Str} (h : ¬ nt = nt') :
    ∀ (ws : List Char) (tbl : LL1Table),
      alGetD ((ws.foldl (fun t0 t => if t ≠ 'e' then ll1TblInsert t0 nt t p else t0) tbl)) nt' []
        = alGetD tbl nt' [] := by
  intro ws
  induction ws with
  | nil => intro tbl; rfl
  | cons u rest ih =>
    intro tbl
    simp only [List.foldl_cons]
    by_cases hu : u ≠ 'e'
    · rw [if_pos hu, ih]
      unfold ll1TblInsert alGetD
      rw [alLookup_alSet_ne _ _ h]
    · rw [if_neg hu, ih]

theorem ll1ProdWrites_row_self (fs fol : SMap) (nt : Str) (tbl : LL1Table) (p : Str) :
    alGetD (ll1ProdWrites fs fol nt tbl p) nt []
      = (ll1Writes fs fol nt p).foldl (fun r t => ll1Insert r t p) (alGetD tbl nt []) := by
  unfold ll1ProdWrites ll1Writes
  dsimp only
  by_cases he : 'e' ∈ ll1FirstOfStr fs p
  · rw [if_pos he, if_pos he, List.foldl_append, tblfold_row_self, tblfold_guard_row_self]
  · rw [if_neg he, if_neg he, List.append_nil, tblfold_guard_row_self]

theorem ll1ProdWrites_row_other (fs fol : SMap) (nt : Str) (tbl : LL1Table) (p : Str)
    {nt' : Str} (h : ¬ nt = nt') :
    alGetD (ll1ProdWrites fs fol nt tbl p) nt' [] = alGetD tbl nt' [] := by
  unfold ll1ProdWrites
  dsimp only
  by_cases he : 'e' ∈ ll1FirstOfStr fs p
  · rw [if_pos he, tblfold_row_other _ _ h, tblfold_guard_row_other _ _ h]
  · rw [if_neg he, tblfold_guard_row_other _ _ h]

theorem entry_row_other (fs fol : SMap) {nt nt' : Str} (h : ¬ nt = nt') :
    ∀ (ps : List Str) (tbl : LL1Table),
      alGetD (ps.foldl (ll1ProdWrites fs fol nt) tbl) nt' [] = alGetD tbl nt' [] := by
  intro ps
  induction ps with
  | nil => intro tbl; rfl
  | cons p rest ih =>
    intro tbl
    simp only [List.foldl_cons]
    rw [ih, ll1ProdWrites_row_other fs fol nt tbl p h]

theorem entry_row_self (fs fol : SMap) (nt : Str) :
    ∀ (ps : List Str) (tbl : LL1Table),
      alGetD (ps.foldl (ll1ProdWrites fs fol nt) tbl) nt []
        = ps.foldl (fun row q =>
            (ll1Writes fs fol nt q).foldl (fun r2 u => ll1Insert r2 u q) row)
          (alGetD tbl nt []) := by
  intro ps
  induction ps with
  | nil => intro tbl; rfl
  | cons p rest ih =>
    intro tbl
    simp only [List.foldl_cons]
    rw [ih, ll1ProdWrites_row_self]

theorem alGetD_map_nil (l : List Str) (A : Str) :
    alGetD (l.map (fun nt => (nt, ([] : LL1Row)))) A [] = [] := by
  induction l with
  | nil => rfl
  | cons x rest ih =>
    by_cases h : x = A
    · subst h
      simp [alGetD, alLookup]
    · simp only [List.map_cons]
      unfold alGetD alLookup
      rw [if_neg h]
      exact ih

/-- The final row of a non-terminal in the LL(1) table is the fold of its own
productions' writes over the empty row. -/
theorem build_row (g : Grammar) (fs fol : SMap) (A : Str) (psA : List Str)
    (hnd : (g.productions.map Prod.fst).Nodup)
    (hmem : alLookup g.productions A = some psA) :
    alGetD (build_parse_table g fs fol) A []
      = psA.foldl (fun row q =>
          (ll1Writes fs fol A q).foldl (fun r2 u => ll1Insert r2 u q) row) [] := by
  unfold build_parse_table
  dsimp only
  obtain ⟨L1, L2, hsplit⟩ := List.append_of_mem (alLookup_mem hmem)
  rw [hsplit]
  rw [hsplit, List.map_append, List.map_cons] at hnd
  have hA1 : ∀ e ∈ L1, ¬ e.1 = A := by
    intro e he hcon
    have hdis := (List.nodup_append.mp hnd).2.2
    have hmm : e.1 ∈ List.map Prod.fst L1 := List.mem_map_of_mem Prod.fst he
    refine hdis hmm ?_
    rw [hcon]
    exact List.mem_cons_self _ _
  have hA2 : ∀ e ∈ L2, ¬ A = e.1 := by
    intro e he hcon
    have h2 := (List.nodup_append.mp hnd).2.1
    rw [List.nodup_cons] at h2
    have hmm : e.1 ∈ List.map Prod.fst L2 := List.mem_map_of_mem Prod.fst he
    rw [← hcon] at hmm
    exact h2.1 hmm
  rw [List.foldl_append, List.foldl_cons]
  have hrow1 : ∀ (l : List (Str × List Str)) (tbl : LL1Table),
      (∀ e ∈ l, ¬ e.1 = A) →
      alGetD (l.foldl (fun tb entry => entry.2.foldl (ll1ProdWrites fs fol entry.1) tb) tbl)
        A [] = alGetD tbl A [] := by
    intro l
    induction l with
    | nil => intro tbl _; rfl
    | cons e rest ih =>
      intro tbl hl
      simp only [List.foldl_cons]
      rw [ih _ (fun e2 he2 => hl e2 (List.mem_cons_of_mem _ he2)),
        entry_row_other fs fol (hl e (by simp))]
  have hrow2 : ∀ (l : List (Str × List Str)) (tbl : LL1Table),
      (∀ e ∈ l, ¬ A = e.1) →
      alGetD (l.foldl (fun tb entry => entry.2.foldl (ll1ProdWrites fs fol entry.1) tb) tbl)
        A [] = alGetD tbl A [] := by
    intro l htbl hl
    exact hrow1 l htbl (fun e he hc => (hl e he) hc.symm)
  rw [hrow2 L2 _ hA2, entry_row_self, hrow1 L1 _ hA1, alGetD_map_nil]

/-- A conflict cell anywhere makes the LL(1) check false. -/
theorem check_if_ll1_false {tbl : LL1Table} {A : Str} {row : LL1Row} {t : Char}
    (hrow : alLookup tbl A = some row) (hcell : alLookup row t = some none) :
    check_if_ll1 tbl = false := by
  unfold check_if_ll1
  rw [List.all_eq_false]
  refine ⟨(A, row), alLookup_mem hrow, ?_⟩
  rw [Bool.not_eq_true, List.all_eq_false]
  exact ⟨(t, none), alLookup_mem hcell, by simp⟩

/-- A syntactically duplicated alternative whose write list is non-empty
leaves a conflict marker in the duplicated cell. -/
theorem dup_alternative_conflict (g : Grammar) (fs fol : SMap) (A p : Str)
    (l1 l2 l3 : List Str) (t : Char)
    (hnd : (g.productions.map Prod.fst).Nodup)
    (hmem : alLookup g.productions A = some (l1 ++ p :: l2 ++ p :: l3))
    (ht : t ∈ ll1Writes fs fol A p) :
    alLookup (alGetD (build_parse_table g fs fol) A []) t = some none := by
  rw [build_row g fs fol A _ hnd hmem, List.foldl_append, List.foldl_cons,
    List.foldl_append, List.foldl_cons]
  generalize List.foldl (fun row q =>
    (ll1Writes fs fol A q).foldl (fun r2 u => ll1Insert r2 u q) row) [] l1 = r1
  have hpres : ∃ w,
      alLookup ((ll1Writes fs fol A p).foldl (fun r2 u => ll1Insert r2 u p) r1) t
        = some w := by
    rcases hc : alLookup r1 t with _ | v
    · exact wfold_create p (ll1Writes fs fol A p) r1 t hc ht
    · obtain ⟨w, hw, _, _⟩ := wfold_present p (ll1Writes fs fol A p) r1 t v hc
      exact ⟨w, hw⟩
  obtain ⟨w1, hw1⟩ := hpres
  obtain ⟨w2, hw2⟩ := prods_present fs fol A l2 _ t w1 hw1
  obtain ⟨w3, hw3, hin, _⟩ := wfold_present p (ll1Writes fs fol A p) _ t w2 hw2
  rw [hin ht] at hw3
  exact prods_conflict fs fol A l3 _ t hw3

/-- C1 (amended): during LL(1) table construction, writing into an occupied
cell stores the conflict marker regardless of the value being written; and a
grammar with a syntactically duplicated alternative yields a conflict cell
and a false LL(1) flag, provided the duplicated production writes at least
one cell (its FIRST holds a terminal, or it is nullable and the owner's
FOLLOW set is non-empty — captured by membership in the write list). -/
theorem claim_C1_amended :
    (∀ (row : LL1Row) (t : Char) (p : Str) (v : Option Str),
        alLookup row t = some v → alLookup (ll1Insert row t p) t = some none) ∧
    (∀ (g : Grammar) (P : LL1Parser) (A p : Str) (l1 l2 l3 : List Str) (t : Char),
        mkLL1 g = some P →
        (g.productions.map Prod.fst).Nodup →
        alLookup g.productions A = some (l1 ++ p :: l2 ++ p :: l3) →
        t ∈ ll1Writes P.first_sets P.follow_sets A p →
        alLookup (alGetD P.parse_table A []) t = some none ∧ P.is_ll1 = false) := by
  constructor
  · intro row t p v h
    exact ll1Insert_occupied p h
  · intro g P A p l1 l2 l3 t hmk hnd hmem ht
    unfold mkLL1 at hmk
    dsimp only at hmk
    rcases hf : g.get_follow_set g.get_first_set with _ | fol
    · rw [hf] at hmk
      exact absurd hmk (by simp)
    · rw [hf] at hmk
      dsimp only at hmk
      injection hmk with h2
      subst h2
      have hc := dup_alternative_conflict g g.get_first_set fol A p l1 l2 l3 t hnd hmem ht
      refine ⟨hc, ?_⟩
      rcases hrow : alLookup (build_parse_table g g.get_first_set fol) A with _ | row
      · have hnil : alGetD (build_parse_table g g.get_first_set fol) A [] = [] := by
          rw [alGetD, hrow]
          rfl
        rw [hnil] at hc
        exact absurd hc (by simp [alLookup])
      · have hr : alGetD (build_parse_table g g.get_first_set fol) A [] = row := by
          rw [alGetD, hrow]
          rfl
        rw [hr] at hc
        exact check_if_ll1_false hrow hc

theorem claim_C1_witness :
    alLookup (alGetD ((mkLL1 gdup).getD ll1Default).parse_table ['S'] []) 'a' = some none ∧
    ((mkLL1 gdup).getD ll1Default).is_ll1 = false :=
  claim_C1_amended.2 gdup ((mkLL1 gdup).getD ll1Default) ['S'] ['a'] [] [] [] 'a'
    (by decide) (by decide) (by decide) (by decide)

/-- C1 counterexample: the grammar with productions S to a, A to B and again
B, B to B contains a syntactically duplicated alternative, yet its LL(1)
construction yields no conflict cell and the LL(1) flag stays true, because
the duplicated alternative's FIRST set is empty and FOLLOW(A) is empty, so
the duplicate writes no cell at all. -/
theorem claim_C1_counterexample :
    alLookup gq.productions ['A'] = some [['B'], ['B']] ∧
    (mkLL1 gq).map (fun P => P.is_ll1) = some true := by
  exact ⟨by decide, by decide⟩

/-- C9 counterexample: the grammar A to Sb does not define the non-terminal
S in its productions dictionary, yet the LL(1) constructor completes without
raising, because the occurrence of S inside the right-hand side placed S in
the non-terminal set and so FOLLOW seeding finds its key. -/
theorem claim_C9_counterexample :
    alLookup gmention.productions ['S'] = none ∧ (mkLL1 gmention).isSome = true := by
  exact ⟨by decide, by decide⟩

theorem claim_C9_witness :
    gnoS.get_follow_set [] = none ∧ mkLL1 gnoS = none ∧ mkSLR gnoS = .err ∧
    ((readGrammar [['1'], ['S', '-', '>', ' ', 'a']]).getD Grammar.init).start_symbol
      = ['S'] :=
  ⟨(claim_C9_amended.2.1 gnoS [] rfl (by decide)).1,
   (claim_C9_amended.2.1 gnoS [] rfl (by decide)).2,
   claim_C9_amended.2.2 gnoS rfl (by decide) (by decide),
   claim_C9_amended.1 [['1'], ['S', '-', '>', ' ', 'a']] _ (by decide)⟩

/-! ### C7: the canonical collection -/

theorem sEq_refl (s : List Item) : sEq s s = true := by
  unfold sEq
  simp only [Bool.and_eq_true, List.all_eq_true]
  exact ⟨fun x hx => by simpa using hx, fun x hx => by simpa using hx⟩

theorem sEq_true_iff {a b : List Item} : sEq a b = true ↔ (∀ x, x ∈ a ↔ x ∈ b) := by
  unfold sEq
  simp only [Bool.and_eq_true, List.all_eq_true]
  constructor
  · intro ⟨h1, h2⟩ x
    exact ⟨fun hx => by simpa using h1 x hx, fun hx => by simpa using h2 x hx⟩
  · intro h
    exact ⟨fun x hx => by simpa using (h x).mp hx, fun x hx => by simpa using (h x).mpr hx⟩

theorem alLookup_append_left_some [DecidableEq κ] {l1 : List (κ × α)} (l2 : List (κ × α))
    {k : κ} {v : α} (h : alLookup l1 k = some v) : alLookup (l1 ++ l2) k = some v := by
  induction l1 with
  | nil => simp [alLookup] at h
  | cons e rest ih =>
    obtain ⟨k1, v1⟩ := e
    by_cases h1 : k1 = k
    · simp only [alLookup, h1, if_true] at h
      simp only [List.cons_append, alLookup, h1, if_true]
      exact h
    · simp only [alLookup, h1, if_false] at h
      simp only [List.cons_append, alLookup, h1, if_false]
      exact ih h

theorem sAdd_nodup {s : List Item} (x : Item) (h : s.Nodup) : (sAdd s x).Nodup := by
  unfold sAdd
  split_ifs with hm
  · exact h
  · simpa [List.nodup_append, h] using hm

theorem mem_sAdd {s : List Item} {x y : Item} :
    y ∈ sAdd s x ↔ y ∈ s ∨ y = x := by
  unfold sAdd
  split_ifs with hm
  · constructor
    · exact Or.inl
    · rintro (h | rfl)
      · exact h
      · exact hm
  · simp

theorem mem_allItems {ag : Grammar} {nt p : Str} {d : Nat} :
    (nt, p, d) ∈ ag.allItems ↔
      ∃ ps, (nt, ps) ∈ ag.productions ∧ p ∈ ps ∧ d ≤ p.length := by
  unfold Grammar.allItems
  simp only [List.mem_flatMap, List.mem_map, List.mem_range]
  constructor
  · rintro ⟨e, he, p2, hp2, d2, hd2, heq⟩
    simp only [Prod.mk.injEq] at heq
    obtain ⟨h1, h2, h3⟩ := heq
    subst h1
    subst h2
    subst h3
    exact ⟨e.2, by rw [Prod.mk.eta]; exact he, hp2, by omega⟩
  · rintro ⟨ps, hps, hp, hd⟩
    exact ⟨(nt, ps), hps, p, hp, d, by omega, rfl⟩

theorem nodup_sub_length_le {l U : List Item} (hnd : l.Nodup) (hsub : ∀ x ∈ l, x ∈ U) :
    l.length ≤ U.length := by
  have h1 : l.toFinset.card = l.length := List.toFinset_card_of_nodup hnd
  have h2 : l.toFinset ⊆ U.toFinset := by
    intro x hx
    rw [List.mem_toFinset] at hx ⊢
    exact hsub x hx
  calc l.length = l.toFinset.card := h1.symm
    _ ≤ U.toFinset.card := Finset.card_le_card h2
    _ ≤ U.length := U.toFinset_card_le

theorem closureAddProds_spec (c : Char) :
    ∀ (prods : List Str) (s0 : List Item) (ch0 : Bool),
      ∃ extra ch1, closureAddProds c prods (s0, ch0) = (s0 ++ extra, ch1) ∧
        (∀ x ∈ extra, (∃ p ∈ prods, x = (([c] : Str), p, 0)) ∧ x ∉ s0) ∧
        (s0.Nodup → (s0 ++ extra).Nodup) ∧
        (ch1 = true ↔ (ch0 = true ∨ extra ≠ [])) := by
  intro prods
  induction prods with
  | nil =>
    intro s0 ch0
    exact ⟨[], ch0, by simp [closureAddProds], by simp, by simp, by simp⟩
  | cons p rest ih =>
    intro s0 ch0
    rw [closureAddProds]
    by_cases hm : (([c] : Str), p, 0) ∈ s0
    · rw [if_pos hm]
      obtain ⟨extra, ch1, heq, hprop, hnd, hch⟩ := ih s0 ch0
      refine ⟨extra, ch1, heq, fun x hx => ?_, hnd, hch⟩
      obtain ⟨⟨p2, hp2, hx2⟩, hns⟩ := hprop x hx
      exact ⟨⟨p2, List.mem_cons_of_mem _ hp2, hx2⟩, hns⟩
    · rw [if_neg hm]
      obtain ⟨extra, ch1, heq, hprop, hnd, hch⟩ := ih (s0 ++ [(([c] : Str), p, 0)]) true
      refine ⟨(([c] : Str), p, 0) :: extra, ch1, ?_, ?_, ?_, ?_⟩
      · rw [heq, List.append_assoc]
        rfl
      · intro x hx
        rcases List.mem_cons.mp hx with rfl | hx2
        · exact ⟨⟨p, by simp, rfl⟩, hm⟩
        · obtain ⟨⟨p2, hp2, hx3⟩, hns⟩ := hprop x hx2
          refine ⟨⟨p2, List.mem_cons_of_mem _ hp2, hx3⟩, fun hcon => hns ?_⟩
          exact List.mem_append_left _ hcon
      · intro hs0
        have h1 : (s0 ++ [(([c] : Str), p, 0)]).Nodup := by
          rw [List.nodup_append]
          exact ⟨hs0, List.nodup_singleton _, by
            intro a ha hb
            rw [List.mem_singleton] at hb
            subst hb
            exact hm ha⟩
        have := hnd h1
        rwa [List.append_assoc] at this
      · rw [hch]
        simp
    
theorem closureStepItem_spec (ag : Grammar) (hcompl : ag.complete) (it : Item)
    (s0 : List Item) (ch0 : Bool) :
    ∃ extra ch1, closureStepItem ag (some (s0, ch0)) it = some (s0 ++ extra, ch1) ∧
      (∀ x ∈ extra, x ∈ ag.allItems ∧ x ∉ s0) ∧
      (s0.Nodup → (s0 ++ extra).Nodup) ∧
      (ch1 = true ↔ (ch0 = true ∨ extra ≠ [])) := by
  unfold closureStepItem
  rcases had : itemAfterDot it with _ | c
  · exact ⟨[], ch0, by simp, by simp, by simp, by simp⟩
  · dsimp only
    by_cases hnt : [c] ∈ ag.non_terminals
    · rw [if_pos hnt]
      rcases hlk : alLookup ag.productions [c] with _ | prods
      · exact absurd hlk (by simpa [Option.isSome_iff_ne_none] using hcompl [c] hnt)
      · obtain ⟨extra, ch1, heq, hprop, hnd, hch⟩ := closureAddProds_spec c prods s0 ch0
        refine ⟨extra, ch1, by dsimp only; rw [heq], fun x hx => ?_, hnd, hch⟩
        obtain ⟨⟨p, hp, rfl⟩, hns⟩ := hprop x hx
        refine ⟨mem_allItems.mpr ⟨prods, alLookup_mem hlk, hp, by simp⟩, hns⟩
    · rw [if_neg hnt]
      exact ⟨[], ch0, by simp, by simp, by simp, by simp⟩

theorem closureScan_fold_spec (ag : Grammar) (hcompl : ag.complete) :
    ∀ (l : List Item) (s0 : List Item) (ch0 : Bool),
      ∃ extra ch1, l.foldl (closureStepItem ag) (some (s0, ch0)) = some (s0 ++ extra, ch1) ∧
        (∀ x ∈ extra, x ∈ ag.allItems ∧ x ∉ s0) ∧
        (s0.Nodup → (s0 ++ extra).Nodup) ∧
        (ch1 = true ↔ (ch0 = true ∨ extra ≠ [])) := by
  intro l
  induction l with
  | nil =>
    intro s0 ch0
    exact ⟨[], ch0, by simp, by simp, by simp, by simp⟩
  | cons it rest ih =>
    intro s0 ch0
    simp only [List.foldl_cons]
    obtain ⟨e1, c1, heq1, hprop1, hnd1, hch1⟩ := closureStepItem_spec ag hcompl it s0 ch0
    rw [heq1]
    obtain ⟨e2, c2, heq2, hprop2, hnd2, hch2⟩ := ih (s0 ++ e1) c1
    refine ⟨e1 ++ e2, c2, ?_, ?_, ?_, ?_⟩
    · rw [heq2, List.append_assoc]
    · intro x hx
      rcases List.mem_append.mp hx with hx1 | hx2
      · exact hprop1 x hx1
      · obtain ⟨ha, hb⟩ := hprop2 x hx2
        exact ⟨ha, fun hcon => hb (List.mem_append_left _ hcon)⟩
    · intro hs0
      have := hnd2 (hnd1 hs0)
      rwa [List.append_assoc] at this
    · rw [hch2, hch1]
      constructor
      · rintro ((h | h) | h)
        · exact Or.inl h
        · exact Or.inr (by simp [h])
        · exact Or.inr (by intro hcon; rw [List.append_eq_nil] at hcon; exact h hcon.2)
      · rintro (h | h)
        · exact Or.inl (Or.inl h)
        · by_cases he1 : e1 = []
          · subst he1
            exact Or.inr (by simpa using h)
          · exact Or.inl (Or.inr he1)

theorem closureScan_spec (ag : Grammar) (hcompl : ag.complete) (cl : List Item) :
    ∃ extra ch, closureScan ag cl = some (cl ++ extra, ch) ∧
      (∀ x ∈ extra, x ∈ ag.allItems ∧ x ∉ cl) ∧
      (cl.Nodup → (cl ++ extra).Nodup) ∧
      (ch = true ↔ extra ≠ []) := by
  obtain ⟨extra, ch, heq, hprop, hnd, hch⟩ := closureScan_fold_spec ag hcompl cl cl false
  exact ⟨extra, ch, heq, hprop, hnd, by simpa using hch⟩

theorem closureLoop_ok (ag : Grammar) (hcompl : ag.complete) :
    ∀ (fuel : Nat) (cl : List Item), cl.Nodup → (∀ x ∈ cl, x ∈ ag.allItems) →
      ag.allItems.length + 1 ≤ fuel + cl.length →
      ∃ s, closureLoop ag fuel cl = .ok s ∧ s.Nodup ∧ (∀ x ∈ s, x ∈ ag.allItems) ∧
        (∀ x ∈ cl, x ∈ s) := by
  intro fuel
  induction fuel with
  | zero =>
    intro cl hnd hsub hf
    have := nodup_sub_length_le hnd hsub
    omega
  | succ n ih =>
    intro cl hnd hsub hf
    obtain ⟨extra, ch, hscan, hprop, hndp, hchiff⟩ := closureScan_spec ag hcompl cl
    rw [closureLoop, hscan]
    cases ch with
    | false =>
      have hex : extra = [] := by
        by_cases h : extra = []
        · exact h
        · exact absurd (hchiff.mpr h) (by simp)
      subst hex
      refine ⟨cl ++ [], by simp, by simpa using hnd, ?_, ?_⟩
      · intro x hx
        rw [List.append_nil] at hx
        exact hsub x hx
      · intro x hx
        simpa using hx
    | true =>
      have hex : extra ≠ [] := hchiff.mp rfl
      have hsub2 : ∀ x ∈ cl ++ extra, x ∈ ag.allItems := by
        intro x hx
        rcases List.mem_append.mp hx with h | h
        · exact hsub x h
        · exact (hprop x h).1
      have hlen : 1 ≤ extra.length := by
        rcases extra with _ | _
        · exact absurd rfl hex
        · simp
      obtain ⟨s, hs, hnds, hsubs, hcls⟩ := ih (cl ++ extra) (hndp hnd) hsub2
        (by simp only [List.length_append]; omega)
      refine ⟨s, ?_, hnds, hsubs, ?_⟩
      · simpa using hs
      · intro x hx
        exact hcls x (List.mem_append_left _ hx)

theorem itemFuel_eq (ag : Grammar) : ag.itemFuel = ag.allItems.length + 1 := by
  unfold Grammar.itemFuel Grammar.allItems
  suffices h : ∀ (l : List (Str × List Str)) (n : Nat),
      l.foldl (fun acc e => e.2.foldl (fun a p => a + p.length + 1) acc) n
        = n + (l.flatMap (fun e => e.2.flatMap (fun p =>
            (List.range (p.length + 1)).map (fun d => (e.1, p, d))))).length by
    rw [h]
    omega
  intro l
  induction l with
  | nil => intro n; simp
  | cons e rest ihl =>
    intro n
    simp only [List.foldl_cons, List.flatMap_cons, List.length_append]
    rw [ihl]
    have hinner : ∀ (ps : List Str) (m : Nat),
        ps.foldl (fun a p => a + p.length + 1) m
          = m + (ps.flatMap (fun p => (List.range (p.length + 1)).map
              (fun d => ((e.1 : Str), p, d)))).length := by
      intro ps
      induction ps with
      | nil => intro m; simp
      | cons p pr ihp =>
        intro m
        simp only [List.foldl_cons, List.flatMap_cons, List.length_append,
          List.length_map, List.length_range]
        rw [ihp]
        omega
    rw [hinner]
    omega

theorem slrGotoGo_spec (sym : Str) :
    ∀ (l : List Item) (acc : List Item),
      (∀ x ∈ slrGotoGo sym l acc,
        x ∈ acc ∨ ∃ it ∈ l, it.2.2 < it.2.1.length ∧ x = (it.1, it.2.1, it.2.2 + 1)) ∧
      (acc.Nodup → (slrGotoGo sym l acc).Nodup) := by
  intro l
  induction l with
  | nil =>
    intro acc
    rw [slrGotoGo]
    exact ⟨fun x hx => Or.inl hx, fun h => h⟩
  | cons it rest ih =>
    intro acc
    rw [slrGotoGo]
    have hskip : (∀ x ∈ slrGotoGo sym rest acc,
        x ∈ acc ∨ ∃ it2 ∈ it :: rest, it2.2.2 < it2.2.1.length ∧
          x = (it2.1, it2.2.1, it2.2.2 + 1)) ∧
        (acc.Nodup → (slrGotoGo sym rest acc).Nodup) := by
      refine ⟨fun x hx => ?_, (ih acc).2⟩
      rcases (ih acc).1 x hx with h | ⟨it2, hit2, hlt, hx2⟩
      · exact Or.inl h
      · exact Or.inr ⟨it2, List.mem_cons_of_mem _ hit2, hlt, hx2⟩
    by_cases h1 : it.2.2 ≥ it.2.1.length ∨ it.2.1 = ['e']
    · rw [if_pos h1]
      exact hskip
    · rw [if_neg h1]
      rcases hg : it.2.1[it.2.2]? with _ | c
      · exact hskip
      · dsimp only
        by_cases h2 : [c] = sym
        · rw [if_pos h2]
          constructor
          · intro x hx
            rcases (ih _).1 x hx with h | ⟨it2, hit2, hlt, hx2⟩
            · rcases mem_sAdd.mp h with h3 | h3
              · exact Or.inl h3
              · refine Or.inr ⟨it, by simp, ?_, h3⟩
                push_neg at h1
                omega
            · exact Or.inr ⟨it2, List.mem_cons_of_mem _ hit2, hlt, hx2⟩
          · intro hnd
            exact (ih _).2 (sAdd_nodup _ hnd)
        · rw [if_neg h2]
          exact hskip

theorem slrGotoCore_nodup (items : List Item) (sym : Str) :
    (slrGotoCore items sym).Nodup := by
  unfold slrGotoCore
  exact (slrGotoGo_spec sym items []).2 List.nodup_nil

theorem slrGotoCore_sub {ag : Grammar} {items : List Item} (sym : Str)
    (hsub : ∀ x ∈ items, x ∈ ag.allItems) :
    ∀ x ∈ slrGotoCore items sym, x ∈ ag.allItems := by
  intro x hx
  rcases (slrGotoGo_spec sym items []).1 x hx with h | ⟨it, hit, hlt, rfl⟩
  · exact absurd h (List.not_mem_nil x)
  · obtain ⟨nt, p, d⟩ := it
    obtain ⟨ps, hps, hp, _⟩ := mem_allItems.mp (hsub _ hit)
    exact mem_allItems.mpr ⟨ps, hps, hp, by simpa using hlt⟩

theorem slrGoto_ok {ag : Grammar} (hcompl : ag.complete) {items : List Item} (sym : Str)
    (hsub : ∀ x ∈ items, x ∈ ag.allItems) :
    ∃ gs, slrGoto ag items sym = .ok gs ∧ gs.Nodup ∧ (∀ x ∈ gs, x ∈ ag.allItems) := by
  unfold slrGoto
  obtain ⟨s, hs, h1, h2, _⟩ := closureLoop_ok ag hcompl ag.itemFuel (slrGotoCore items sym)
    (slrGotoCore_nodup items sym) (slrGotoCore_sub sym hsub) (by rw [itemFuel_eq]; omega)
  exact ⟨s, hs, h1, h2⟩

theorem idxOfState_some :
    ∀ (states : List (List Item)) (x : List Item) (base j : Nat),
      idxOfState states x base = some j →
      ∃ k stk, j = base + k ∧ states[k]? = some stk ∧ sEq stk x = true := by
  intro states
  induction states with
  | nil =>
    intro x base j h
    simp [idxOfState] at h
  | cons s rest ih =>
    intro x base j h
    rw [idxOfState] at h
    by_cases hs : sEq s x = true
    · rw [if_pos hs] at h
      injection h with h2
      exact ⟨0, s, by omega, by simp, hs⟩
    · rw [if_neg hs] at h
      obtain ⟨k, stk, hj, hget, hseq⟩ := ih x (base + 1) j h
      exact ⟨k + 1, stk, by omega, by simpa using hget, hseq⟩

theorem idxOfState_none :
    ∀ (states : List (List Item)) (x : List Item) (base : Nat),
      idxOfState states x base = none → ∀ st ∈ states, sEq st x = false := by
  intro states
  induction states with
  | nil =>
    intro x base _ st hst
    exact absurd hst (List.not_mem_nil st)
  | cons s rest ih =>
    intro x base h st hst
    rw [idxOfState] at h
    by_cases hs : sEq s x = true
    · rw [if_pos hs] at h
      exact absurd h (by simp)
    · rw [if_neg hs] at h
      rcases List.mem_cons.mp hst with rfl | hst2
      · simpa using hs
      · exact ih x (base + 1) h st hst2

theorem states_bound (ag : Grammar) (states : List (List Item))
    (hpw : List.Pairwise (fun a b => sEq a b = false) states)
    (hsub : ∀ st ∈ states, ∀ x ∈ st, x ∈ ag.allItems) :
    states.length ≤ 2 ^ ag.allItems.length := by
  have hmapnd : (states.map List.toFinset).Nodup := by
    refine List.Pairwise.map List.toFinset ?_ hpw
    intro a b hab hcon
    have hseq : sEq a b = true := by
      refine sEq_true_iff.mpr ?_
      intro x
      constructor
      · intro hx
        have hx2 : x ∈ a.toFinset := List.mem_toFinset.mpr hx
        rw [hcon] at hx2
        exact List.mem_toFinset.mp hx2
      · intro hx
        have hx2 : x ∈ b.toFinset := List.mem_toFinset.mpr hx
        rw [← hcon] at hx2
        exact List.mem_toFinset.mp hx2
    rw [hseq] at hab
    simp at hab
  have hsubf : ∀ f ∈ states.map List.toFinset, f ∈ ag.allItems.toFinset.powerset := by
    intro f hf
    obtain ⟨st, hst, rfl⟩ := List.mem_map.mp hf
    rw [Finset.mem_powerset]
    intro x hx
    rw [List.mem_toFinset] at hx ⊢
    exact hsub st hst x hx
  calc states.length = (states.map List.toFinset).length := by rw [List.length_map]
    _ = (states.map List.toFinset).toFinset.card :=
        (List.toFinset_card_of_nodup hmapnd).symm
    _ ≤ (ag.allItems.toFinset.powerset).card := Finset.card_le_card (by
        intro f hf
        rw [List.mem_toFinset] at hf
        exact hsubf f hf)
    _ = 2 ^ ag.allItems.toFinset.card := Finset.card_powerset _
    _ ≤ 2 ^ ag.allItems.length :=
        Nat.pow_le_pow_right (by omega) ag.allItems.toFinset_card_le

theorem mem_of_getElem? {α : Type} : ∀ {l : List α} {i : Nat} {a : α},
    l[i]? = some a → a ∈ l := by
  intro l
  induction l with
  | nil => intro i a h; simp at h
  | cons x rest ih =>
    intro i a h
    cases i with
    | zero =>
      simp only [List.getElem?_cons_zero, Option.some.injEq] at h
      exact h ▸ List.mem_cons_self x rest
    | succ n =>
      simp only [List.getElem?_cons_succ] at h
      exact List.mem_cons_of_mem _ (ih h)

theorem getElem?_lt {α : Type} {l : List α} {i : Nat} {a : α}
    (h : l[i]? = some a) : i < l.length := by
  by_cases hi : i < l.length
  · exact hi
  · rw [List.getElem?_eq_none (by omega)] at h
    simp at h

theorem getElem?_append_some {α : Type} {l1 : List α} (l2 : List α) {i : Nat} {a : α}
    (h : l1[i]? = some a) : (l1 ++ l2)[i]? = some a := by
  rw [List.getElem?_append, if_pos (getElem?_lt h)]
  exact h

theorem getElem?_append_length {α : Type} : ∀ (l : List α) (a : α),
    (l ++ [a])[l.length]? = some a := by
  intro l
  induction l with
  | nil => intro a; rfl
  | cons x rest ih =>
    intro a
    simp only [List.cons_append, List.length_cons, List.getElem?_cons_succ]
    exact ih a

theorem alLookup_append_none_keys [DecidableEq κ] {l1 l2 : List (κ × α)} {k : κ}
    (h1 : alLookup l1 k = none) (h2 : ∀ e ∈ l2, ¬ e.1 = k) :
    alLookup (l1 ++ l2) k = none := by
  rw [alLookup_append_left_none _ _ h1, alLookup_eq_none]
  intro hmem
  obtain ⟨e, he, heq⟩ := List.mem_map.mp hmem
  exact h2 e he heq

theorem addNew_nodup [DecidableEq α] {l : List α} (x : α) (h : l.Nodup) :
    (addNew l x).Nodup := by
  unfold addNew
  split_ifs with hm
  · exact h
  · simpa [List.nodup_append, h] using hm

theorem foldl_addNew_nodup [DecidableEq α] :
    ∀ (l : List α) (s : List α), s.Nodup → (l.foldl addNew s).Nodup := by
  intro l
  induction l with
  | nil => intro s h; exact h
  | cons x rest ih =>
    intro s h
    exact ih _ (addNew_nodup x h)

theorem classify_terminals_nodup (g : Grammar) (c : Char) (h : g.terminals.Nodup) :
    (g.classify c).terminals.Nodup := by
  unfold Grammar.classify
  split_ifs
  · exact h
  · exact h
  · exact addNew_nodup c h

theorem foldl_classify_terminals_nodup (p : Str) :
    ∀ (G : Grammar), G.terminals.Nodup → (p.foldl Grammar.classify G).terminals.Nodup := by
  induction p with
  | nil => intro G h; exact h
  | cons c rest ih =>
    intro G h
    exact ih _ (classify_terminals_nodup G c h)

theorem add_production_terminals_nodup (g : Grammar) (nt : Str) (ps : List Str)
    (h : g.terminals.Nodup) : (g.add_production nt ps).terminals.Nodup := by
  unfold Grammar.add_production
  have hgen : ∀ (l : List Str) (G : Grammar), G.terminals.Nodup →
      ((l.foldl (fun g2 p =>
        p.foldl Grammar.classify
          { g2 with productions := alAppendVal g2.productions nt p }) G).terminals).Nodup := by
    intro l
    induction l with
    | nil => intro G hG; exact hG
    | cons p rest ih =>
      intro G hG
      simp only [List.foldl_cons]
      exact ih _ (foldl_classify_terminals_nodup p _ hG)
  split_ifs <;> exact hgen ps _ h

theorem augment_terminals_nodup (g : Grammar) :
    (augment_grammar g).terminals.Nodup := by
  unfold augment_grammar
  refine add_production_terminals_nodup _ _ _ ?_
  have hgen : ∀ (l : List (Str × List Str)) (A : Grammar), A.terminals.Nodup →
      ((l.foldl (fun a e => e.2.foldl (fun a2 p => a2.add_production e.1 [p]) a)
        A).terminals).Nodup := by
    intro l
    induction l with
    | nil => intro A hA; exact hA
    | cons e rest ih =>
      intro A hA
      simp only [List.foldl_cons]
      refine ih _ ?_
      have hinner : ∀ (ps : List Str) (B : Grammar), B.terminals.Nodup →
          ((ps.foldl (fun a2 p => a2.add_production e.1 [p]) B).terminals).Nodup := by
        intro ps
        induction ps with
        | nil => intro B hB; exact hB
        | cons p pr ihp =>
          intro B hB
          exact ihp _ (add_production_terminals_nodup B e.1 [p] hB)
      exact hinner e.2 A hA
  exact hgen g.productions Grammar.init (by simp [Grammar.init])

theorem ccSymbols_nodup (ag : Grammar) (h : ag.terminals.Nodup) :
    (ccSymbols ag).Nodup := by
  unfold ccSymbols
  refine foldl_addNew_nodup _ _ ?_
  exact h.map (fun a b hab => by simpa using hab)

theorem ccStep_spec (ag : Grammar) (hcompl : ag.complete) (acc : CC) (i : Nat)
    (sti : List Item) (sym : Str)
    (hget : acc.states[i]? = some sti)
    (hbase : CCBase ag acc)
    (habsent : alLookup acc.trans (i, sym) = none) :
    ∃ acc2 newSts newTr,
      ccStep ag i sti acc sym = .ok acc2 ∧
      acc2.states = acc.states ++ newSts ∧
      acc2.trans = acc.trans ++ newTr ∧
      (∀ e ∈ newTr, e.1 = (i, sym)) ∧
      CCBase ag acc2 ∧
      (slrGoto ag sti sym = .ok [] → alLookup acc2.trans (i, sym) = none) := by
  have hstimem : sti ∈ acc.states := mem_of_getElem? hget
  obtain ⟨gs, hgoto, hgnd, hgsub⟩ := slrGoto_ok hcompl sym (hbase.subs sti hstimem)
  unfold ccStep
  rw [hgoto]
  dsimp only
  by_cases hnil : gs = []
  · rw [if_pos hnil]
    exact ⟨acc, [], [], rfl, by simp, by simp, by simp, hbase, fun _ => habsent⟩
  · rw [if_neg hnil]
    have hgempty : slrGoto ag sti sym = .ok [] → False := by
      intro hcon
      rw [hgoto] at hcon
      injection hcon with h2
      exact hnil h2
    rcases hidx : idxOfState acc.states gs 0 with _ | j
    · dsimp only
      refine ⟨⟨acc.states ++ [gs], acc.trans ++ [((i, sym), acc.states.length)]⟩, [gs],
        [((i, sym), acc.states.length)], rfl, rfl, rfl, by simp, ?_,
        fun hcon => absurd (Res.ok.inj hcon) hnil⟩
      constructor
      · intro st hst
        rcases List.mem_append.mp hst with h | h
        · exact hbase.nodups st h
        · rw [List.mem_singleton] at h
          exact h ▸ hgnd
      · intro st hst x hx
        rcases List.mem_append.mp hst with h | h
        · exact hbase.subs st h x hx
        · rw [List.mem_singleton] at h
          subst h
          exact hgsub x hx
      · rw [List.pairwise_append]
        refine ⟨hbase.pw, List.pairwise_singleton _ _, ?_⟩
        intro a ha b hb
        rw [List.mem_singleton] at hb
        rw [hb]
        exact idxOfState_none acc.states gs 0 hidx a ha
      · intro st hst
        rcases List.mem_append.mp hst with h | h
        · exact hbase.nonnil st h
        · rw [List.mem_singleton] at h
          exact h ▸ hnil
      · intro i2 sym2 j2 hlook
        dsimp only at hlook
        rcases hold : alLookup acc.trans (i2, sym2) with _ | j0
        · rw [alLookup_append_left_none _ _ hold, alLookup] at hlook
          by_cases hk : ((i : Nat), sym) = (i2, sym2)
          · rw [if_pos hk] at hlook
            injection hlook with hj
            injection hk with hi hs
            subst hi
            subst hs
            subst hj
            exact ⟨sti, gs, getElem?_append_some _ hget, hgoto, hnil, gs,
              getElem?_append_length _ _, sEq_refl gs⟩
          · rw [if_neg hk] at hlook
            simp [alLookup] at hlook
        · rw [alLookup_append_left_some _ hold] at hlook
          injection hlook with hj
          subst hj
          obtain ⟨sti2, gs2, hg1, hg2, hg3, stj2, hg4, hg5⟩ := hbase.transOk i2 sym2 j0 hold
          exact ⟨sti2, gs2, getElem?_append_some _ hg1, hg2, hg3, stj2,
            getElem?_append_some _ hg4, hg5⟩
    · dsimp only
      obtain ⟨k, stk, hjk, hgetk, hseqk⟩ := idxOfState_some acc.states gs 0 j hidx
      refine ⟨⟨acc.states, acc.trans ++ [((i, sym), j)]⟩, [], [((i, sym), j)],
        rfl, by simp, rfl, by simp, ?_,
        fun hcon => absurd (Res.ok.inj hcon) hnil⟩
      constructor
      · exact hbase.nodups
      · exact hbase.subs
      · exact hbase.pw
      · exact hbase.nonnil
      · intro i2 sym2 j2 hlook
        dsimp only at hlook
        rcases hold : alLookup acc.trans (i2, sym2) with _ | j0
        · rw [alLookup_append_left_none _ _ hold, alLookup] at hlook
          by_cases hk : ((i : Nat), sym) = (i2, sym2)
          · rw [if_pos hk] at hlook
            injection hlook with hj
            injection hk with hi hs
            subst hi
            subst hs
            subst hj
            refine ⟨sti, gs, hget, hgoto, hnil, stk, ?_, hseqk⟩
            have hj2 : j = k := by omega
            rw [hj2]
            exact hgetk
          · rw [if_neg hk] at hlook
            simp [alLookup] at hlook
        · rw [alLookup_append_left_some _ hold] at hlook
          injection hlook with hj
          subst hj
          exact hbase.transOk i2 sym2 j0 hold

theorem ccSyms_spec (ag : Grammar) (hcompl : ag.complete) :
    ∀ (syms : List Str) (acc : CC) (i : Nat) (sti : List Item),
      syms.Nodup →
      acc.states[i]? = some sti →
      CCBase ag acc →
      (∀ sym ∈ syms, alLookup acc.trans (i, sym) = none) →
      ∃ acc2 newSts newTr,
        ccSyms ag i sti syms acc = .ok acc2 ∧
        acc2.states = acc.states ++ newSts ∧
        acc2.trans = acc.trans ++ newTr ∧
        (∀ e ∈ newTr, e.1.1 = i ∧ e.1.2 ∈ syms) ∧
        CCBase ag acc2 ∧
        (∀ sym ∈ syms, slrGoto ag sti sym = .ok [] →
          alLookup acc2.trans (i, sym) = none) := by
  intro syms
  induction syms with
  | nil =>
    intro acc i sti _ hget hbase habs
    rw [ccSyms]
    exact ⟨acc, [], [], rfl, by simp, by simp, by simp, hbase, by simp⟩
  | cons sym rest ih =>
    intro acc i sti hnd hget hbase habs
    rw [ccSyms]
    obtain ⟨acc1, ns1, nt1, hstep, hsts1, htr1, hkeys1, hbase1, hempty1⟩ :=
      ccStep_spec ag hcompl acc i sti sym hget hbase (habs sym (by simp))
    rw [hstep]
    have hget1 : acc1.states[i]? = some sti := by
      rw [hsts1]
      exact getElem?_append_some _ hget
    have hndr : rest.Nodup := (List.nodup_cons.mp hnd).2
    have hsymnot : sym ∉ rest := (List.nodup_cons.mp hnd).1
    have habs1 : ∀ s2 ∈ rest, alLookup acc1.trans (i, s2) = none := by
      intro s2 hs2
      rw [htr1]
      refine alLookup_append_none_keys (habs s2 (List.mem_cons_of_mem _ hs2)) ?_
      intro e he hcon
      rw [hkeys1 e he] at hcon
      injection hcon with h1 h2
      exact hsymnot (h2 ▸ hs2)
    obtain ⟨acc2, ns2, nt2, hrun, hsts2, htr2, hkeys2, hbase2, hempty2⟩ :=
      ih acc1 i sti hndr hget1 hbase1 habs1
    refine ⟨acc2, ns1 ++ ns2, nt1 ++ nt2, hrun, ?_, ?_, ?_, hbase2, ?_⟩
    · rw [hsts2, hsts1, List.append_assoc]
    · rw [htr2, htr1, List.append_assoc]
    · intro e he
      rcases List.mem_append.mp he with h | h
      · rw [hkeys1 e h]
        exact ⟨rfl, by simp⟩
      · obtain ⟨h1, h2⟩ := hkeys2 e h
        exact ⟨h1, List.mem_cons_of_mem _ h2⟩
    · intro s2 hs2 hgot
      rcases List.mem_cons.mp hs2 with rfl | hs2r
      · have hn1 : alLookup acc1.trans (i, s2) = none := hempty1 hgot
        rw [htr2]
        refine alLookup_append_none_keys hn1 ?_
        intro e he hcon
        obtain ⟨h1, h2⟩ := hkeys2 e he
        rw [hcon] at h2
        exact hsymnot h2
      · exact hempty2 s2 hs2r hgot

theorem ccLoop_ok (ag : Grammar) (hcompl : ag.complete)
    (hsymnd : (ccSymbols ag).Nodup) :
    ∀ (fuel : Nat) (acc : CC) (i : Nat),
      CCInv ag acc i →
      i ≤ acc.states.length →
      2 ^ ag.allItems.length + 1 ≤ fuel + i →
      ∃ cc, ccLoop ag fuel acc i = .ok cc ∧ CCBase ag cc ∧
        (∀ i2 sym sti, i2 < cc.states.length → sym ∈ ccSymbols ag →
          cc.states[i2]? = some sti → slrGoto ag sti sym = .ok [] →
          alLookup cc.trans (i2, sym) = none) := by
  intro fuel
  induction fuel with
  | zero =>
    intro acc i hinv hile hf
    exfalso
    have hb := states_bound ag acc.states hinv.base.pw hinv.base.subs
    omega
  | succ n ih =>
    intro acc i hinv hile hf
    rw [ccLoop]
    rcases hgi : acc.states[i]? with _ | sti
    · dsimp only
      refine ⟨acc, rfl, hinv.base, ?_⟩
      have hlen : acc.states.length ≤ i := by
        by_cases h : i < acc.states.length
        · rw [List.getElem?_eq_getElem h] at hgi
          exact absurd hgi (by simp)
        · omega
      intro i2 sym sti2 hi2 hsym hget2 hgot
      exact hinv.transNeg i2 sym sti2 (by omega) hsym hget2 hgot
    · dsimp only
      have hilen : i < acc.states.length := getElem?_lt hgi
      have habs : ∀ sym ∈ ccSymbols ag, alLookup acc.trans (i, sym) = none := by
        intro sym _
        rcases hl : alLookup acc.trans (i, sym) with _ | j
        · rfl
        · exfalso
          have := hinv.transDom i sym (by rw [hl]; rfl)
          omega
      obtain ⟨acc2, ns, nt, hrun, hsts, htr, hkeys, hbase2, hempty⟩ :=
        ccSyms_spec ag hcompl (ccSymbols ag) acc i sti hsymnd hgi hinv.base habs
      rw [hrun]
      dsimp only
      refine ih acc2 (i + 1) ?_ ?_ ?_
      · refine ⟨hbase2, ?_, ?_⟩
        · intro i2 sym h2
          rw [htr] at h2
          rcases hold : alLookup acc.trans (i2, sym) with _ | j0
          · rw [alLookup_append_left_none _ _ hold] at h2
            rcases hnt : alLookup nt (i2, sym) with _ | j1
            · rw [hnt] at h2
              simp at h2
            · have hm := (hkeys _ (alLookup_mem hnt)).1
              dsimp at hm
              omega
          · have := hinv.transDom i2 sym (by rw [hold]; rfl)
            omega
        · intro i2 sym sti2 hi2 hsym hget2 hgot
          by_cases hieq : i2 = i
          · subst hieq
            have hpre : acc2.states[i2]? = some sti := by
              rw [hsts]
              exact getElem?_append_some _ hgi
            rw [hpre] at hget2
            injection hget2 with h3
            subst h3
            exact hempty sym hsym hgot
          · have hi2lt : i2 < i := by omega
            have hgetold : acc.states[i2]? = some sti2 := by
              rw [hsts] at hget2
              rwa [List.getElem?_append, if_pos (by omega)] at hget2
            have holdn := hinv.transNeg i2 sym sti2 hi2lt hsym hgetold hgot
            rw [htr]
            refine alLookup_append_none_keys holdn ?_
            intro e he hcon
            have hm := (hkeys e he).1
            rw [hcon] at hm
            dsimp at hm
            omega
      · rw [hsts, List.length_append]
        omega
      · omega

theorem build_cc_ok (g : Grammar)
    (hcompl : (augment_grammar g).complete)
    (hinit : ∃ ps, ((['S', apos] : Str), ps) ∈ (augment_grammar g).productions ∧
      g.start_symbol ∈ ps) :
    ∃ cc, build_canonical_collection g (augment_grammar g) = .ok cc ∧
      CCBase (augment_grammar g) cc ∧
      (∀ i2 sym sti, i2 < cc.states.length → sym ∈ ccSymbols (augment_grammar g) →
        cc.states[i2]? = some sti → slrGoto (augment_grammar g) sti sym = .ok [] →
        alLookup cc.trans (i2, sym) = none) := by
  unfold build_canonical_collection
  have hinitmem : ((['S', apos] : Str), g.start_symbol, 0) ∈ (augment_grammar g).allItems := by
    obtain ⟨ps, hps, hp⟩ := hinit
    exact mem_allItems.mpr ⟨ps, hps, hp, by omega⟩
  obtain ⟨s0, hs0, hnd0, hsub0, hcl0⟩ := closureLoop_ok (augment_grammar g) hcompl
    (augment_grammar g).itemFuel [((['S', apos] : Str), g.start_symbol, 0)]
    (List.nodup_singleton _)
    (by
      intro x hx
      rw [List.mem_singleton] at hx
      exact hx ▸ hinitmem)
    (by
      rw [itemFuel_eq]
      simp)
  rw [hs0]
  dsimp only
  have hinv : CCInv (augment_grammar g) ⟨[s0], []⟩ 0 := by
    refine ⟨⟨?_, ?_, ?_, ?_, ?_⟩, ?_, ?_⟩
    · intro st hst
      rw [List.mem_singleton] at hst
      exact hst ▸ hnd0
    · intro st hst x hx
      rw [List.mem_singleton] at hst
      exact hsub0 x (hst ▸ hx)
    · exact List.pairwise_singleton _ _
    · intro st hst
      rw [List.mem_singleton] at hst
      rw [hst]
      have hin : ((['S', apos] : Str), g.start_symbol, 0) ∈ s0 := hcl0 _ (by simp)
      intro hcon
      rw [hcon] at hin
      exact absurd hin (List.not_mem_nil _)
    · intro i sym j h
      simp [alLookup] at h
    · intro i sym h
      simp [alLookup] at h
    · intro i sym sti h
      exact absurd h (Nat.not_lt_zero i)
  have hfuel : 2 ^ (augment_grammar g).allItems.length + 1
      ≤ (augment_grammar g).ccFuel + 0 := by
    unfold Grammar.ccFuel
    rw [itemFuel_eq]
    have hpow : 2 ^ (augment_grammar g).allItems.length
        ≤ 2 ^ ((augment_grammar g).allItems.length + 1) :=
      Nat.pow_le_pow_right (by omega) (by omega)
    omega
  obtain ⟨cc, hcc, hbase, hneg⟩ := ccLoop_ok (augment_grammar g) hcompl
    (ccSymbols_nodup _ (augment_terminals_nodup g)) ((augment_grammar g).ccFuel)
    ⟨[s0], []⟩ 0 hinv (by simp) hfuel
  exact ⟨cc, hcc, hbase, hneg⟩

/-- C7: for every grammar whose augmented grammar is complete (every
mentioned non-terminal owns a productions entry, which is exactly the
condition under which the construction raises no missing-key error) and
whose augmented start production exists, the canonical-collection worklist
terminates with a result — the fuel, exponential in the number of LR(0)
items, is provably sufficient; the resulting states are pairwise distinct
under set equality of items; every state is non-empty (so an empty goto
result never created a state); every recorded transition (i, sym) points at
an existing state whose item set equals the goto result of state i on sym,
that goto being non-empty; and a processed state has no recorded transition
on a symbol whose goto result is empty. -/
theorem claim_C7 (g : Grammar)
    (hcompl : (augment_grammar g).complete)
    (hinit : ∃ ps, ((['S', apos] : Str), ps) ∈ (augment_grammar g).productions ∧
      g.start_symbol ∈ ps) :
    ∃ cc, build_canonical_collection g (augment_grammar g) = .ok cc ∧
      List.Pairwise (fun a b => sEq a b = false) cc.states ∧
      (∀ st ∈ cc.states, st ≠ []) ∧
      (∀ i sym j, alLookup cc.trans (i, sym) = some j →
        ∃ sti gs, cc.states[i]? = some sti ∧
          slrGoto (augment_grammar g) sti sym = .ok gs ∧ gs ≠ [] ∧
          ∃ stj, cc.states[j]? = some stj ∧ sEq stj gs = true) ∧
      (∀ i sym sti, i < cc.states.length → sym ∈ ccSymbols (augment_grammar g) →
        cc.states[i]? = some sti → slrGoto (augment_grammar g) sti sym = .ok [] →
        alLookup cc.trans (i, sym) = none) := by
  obtain ⟨cc, hcc, hbase, hneg⟩ := build_cc_ok g hcompl hinit
  exact ⟨cc, hcc, hbase.pw, hbase.nonnil, hbase.transOk, hneg⟩

theorem claim_C7_witness :
    ∃ cc, build_canonical_collection gAB (augment_grammar gAB) = .ok cc ∧
      List.Pairwise (fun a b => sEq a b = false) cc.states ∧
      (∀ st ∈ cc.states, st ≠ []) ∧
      (∀ i sym j, alLookup cc.trans (i, sym) = some j →
        ∃ sti gs, cc.states[i]? = some sti ∧
          slrGoto (augment_grammar gAB) sti sym = .ok gs ∧ gs ≠ [] ∧
          ∃ stj, cc.states[j]? = some stj ∧ sEq stj gs = true) ∧
      (∀ i sym sti, i < cc.states.length → sym ∈ ccSymbols (augment_grammar gAB) →
        cc.states[i]? = some sti → slrGoto (augment_grammar gAB) sti sym = .ok [] →
        alLookup cc.trans (i, sym) = none) :=
  claim_C7 gAB (by unfold Grammar.complete; decide) ⟨[['S']], by decide, by decide⟩

/-! ### Association-list and measure lemmas for the fixpoint computations -/

theorem alSet_fst_present [DecidableEq κ] :
    ∀ (m : List (κ × α)) (k : κ) (v : α), (alLookup m k).isSome →
      (alSet m k v).map Prod.fst = m.map Prod.fst := by
  intro m
  induction m with
  | nil => intro k v h; simp [alLookup] at h
  | cons e rest ih =>
    intro k v h
    obtain ⟨k1, v1⟩ := e
    by_cases h1 : k1 = k
    · subst h1
      simp [alSet]
    · simp only [alLookup, h1, if_false] at h
      simp only [alSet, h1, if_false, List.map_cons]
      rw [ih k v h]

theorem alSet_fst_new [DecidableEq κ] :
    ∀ (m : List (κ × α)) (k : κ) (v : α), alLookup m k = none →
      (alSet m k v).map Prod.fst = m.map Prod.fst ++ [k] := by
  intro m
  induction m with
  | nil => intro k v _; rfl
  | cons e rest ih =>
    intro k v h
    obtain ⟨k1, v1⟩ := e
    by_cases h1 : k1 = k
    · simp [alLookup, h1] at h
    · simp only [alLookup, h1, if_false] at h
      simp only [alSet, h1, if_false, List.map_cons, List.cons_append]
      rw [ih k v h]

theorem alSet_keys_nodup [DecidableEq κ] (m : List (κ × α)) (k : κ) (v : α)
    (h : (m.map Prod.fst).Nodup) : ((alSet m k v).map Prod.fst).Nodup := by
  rcases hk : alLookup m k with _ | w
  · rw [alSet_fst_new m k v hk]
    have hnk : k ∉ m.map Prod.fst := alLookup_eq_none.mp hk
    simp [List.nodup_append, h, hnk]
  · rw [alSet_fst_present m k v (by simp [hk])]
    exact h

theorem mem_alSet [DecidableEq κ] :
    ∀ (m : List (κ × α)) (k : κ) (v : α), ∀ e ∈ alSet m k v, e = (k, v) ∨ e ∈ m := by
  intro m
  induction m with
  | nil =>
    intro k v e he
    unfold alSet at he
    rw [List.mem_singleton] at he
    exact Or.inl he
  | cons a rest ih =>
    intro k v e he
    obtain ⟨k1, v1⟩ := a
    unfold alSet at he
    by_cases h1 : k1 = k
    · rw [if_pos h1] at he
      rcases List.mem_cons.mp he with h2 | h2
      · exact Or.inl h2
      · exact Or.inr (List.mem_cons_of_mem _ h2)
    · rw [if_neg h1] at he
      rcases List.mem_cons.mp he with h2 | h2
      · exact Or.inr (h2 ▸ List.mem_cons_self _ _)
      · rcases ih k v e h2 with h3 | h3
        · exact Or.inl h3
        · exact Or.inr (List.mem_cons_of_mem _ h3)

theorem alLookup_alSet_isSome [DecidableEq κ] (m : List (κ × α)) (k k' : κ) (v : α)
    (h : (alLookup m k').isSome) : (alLookup (alSet m k v) k').isSome := by
  by_cases hk : k = k'
  · subst hk
    rw [alLookup_alSet_self]
    rfl
  · rw [alLookup_alSet_ne m v hk]
    exact h

theorem smapSize_cons (e : Str × CSet) (m : SMap) :
    smapSize (e :: m) = e.2.length + smapSize m := rfl

theorem smapSize_alSet_append (m : SMap) (k : Str) (t : Char) :
    smapSize (alSet m k (alGetD m k [] ++ [t])) = smapSize m + 1 := by
  induction m with
  | nil => rfl
  | cons e rest ih =>
    obtain ⟨k1, v1⟩ := e
    by_cases h1 : k1 = k
    · subst h1
      simp [alGetD, alLookup, alSet, smapSize]
      omega
    · have hget : alGetD ((k1, v1) :: rest) k [] = alGetD rest k [] := by
        simp [alGetD, alLookup, h1]
      rw [hget]
      have hset : alSet ((k1, v1) :: rest) k (alGetD rest k [] ++ [t])
          = (k1, v1) :: alSet rest k (alGetD rest k [] ++ [t]) := by
        simp [alSet, h1]
      rw [hset, smapSize_cons, smapSize_cons, ih]
      omega

theorem smapSize_alSet_new (m : SMap) (k : Str) (v : CSet)
    (h : alLookup m k = none) :
    smapSize (alSet m k v) = smapSize m + v.length := by
  induction m with
  | nil =>
    show v.length + 0 = 0 + v.length
    omega
  | cons e rest ih =>
    obtain ⟨k1, v1⟩ := e
    by_cases h1 : k1 = k
    · simp [alLookup, h1] at h
    · simp only [alLookup, h1, if_false] at h
      have hset : alSet ((k1, v1) :: rest) k v = (k1, v1) :: alSet rest k v := by
        simp [alSet, h1]
      rw [hset, smapSize_cons, smapSize_cons, ih h]
      omega

theorem nodup_sub_len [DecidableEq α] {l U : List α}
    (hnd : l.Nodup) (hsub : ∀ x ∈ l, x ∈ U) : l.length ≤ U.length := by
  calc l.length = l.toFinset.card := (List.toFinset_card_of_nodup hnd).symm
    _ ≤ U.toFinset.card := Finset.card_le_card (by
        intro x hx
        rw [List.mem_toFinset] at hx ⊢
        exact hsub x hx)
    _ ≤ U.length := U.toFinset_card_le

theorem smapSize_le (m : SMap) (KU : List Str) (VB : Nat)
    (hknd : (m.map Prod.fst).Nodup) (hksub : ∀ e ∈ m, e.1 ∈ KU)
    (hvlen : ∀ e ∈ m, e.2.length ≤ VB) :
    smapSize m ≤ KU.length * VB := by
  have hlen : m.length ≤ KU.length := by
    have h2 : (m.map Prod.fst).length ≤ KU.length := by
      refine nodup_sub_len hknd ?_
      intro x hx
      obtain ⟨e, he, hex⟩ := List.mem_map.mp hx
      exact hex ▸ hksub e he
    simpa using h2
  have hsum : smapSize m ≤ m.length * VB := by
    unfold smapSize
    have h3 := List.sum_le_card_nsmul (m.map (fun e => e.2.length)) VB (by
      intro x hx
      obtain ⟨e, he, hex⟩ := List.mem_map.mp hx
      exact hex ▸ hvlen e he)
    simpa [smul_eq_mul] using h3
  calc smapSize m ≤ m.length * VB := hsum
    _ ≤ KU.length * VB := Nat.mul_le_mul_right VB hlen

theorem fixLoop_false {Inv : SMap → Prop} {pass : SMap → SMap × Bool} {B : Nat}
    (hstep : ∀ x, Inv x → Inv (pass x).1 ∧ smapSize x ≤ smapSize (pass x).1 ∧
      ((pass x).2 = true → smapSize x + 1 ≤ smapSize (pass x).1) ∧ smapSize x ≤ B) :
    ∀ (fuel : Nat) (x : SMap), Inv x → B + 1 ≤ fuel + smapSize x →
      ∃ x2, Inv x2 ∧ pass x2 = (fixLoop pass fuel x, false) := by
  intro fuel
  induction fuel with
  | zero =>
    intro x hx hf
    have h4 := (hstep x hx).2.2.2
    omega
  | succ n ih =>
    intro x hx hf
    obtain ⟨h1, h2, h3, h4⟩ := hstep x hx
    have hfx : fixLoop pass (n + 1) x
        = if (pass x).2 = true then fixLoop pass n (pass x).1 else (pass x).1 := rfl
    rw [hfx]
    by_cases hu : (pass x).2 = true
    · rw [if_pos hu]
      exact ih (pass x).1 h1 (by have h5 := h3 hu; omega)
    · rw [if_neg hu]
      refine ⟨x, hx, ?_⟩
      have h5 : (pass x).2 = false := by
        revert hu
        cases (pass x).2 <;> simp
      rw [← h5]

theorem alGetD_alSet_self (m : SMap) (k : Str) (v : CSet) :
    alGetD (alSet m k v) k [] = v := by
  unfold alGetD
  rw [alLookup_alSet_self]
  rfl

theorem alGetD_alSet_ne (m : SMap) {k k' : Str} (v : CSet) (h : ¬ k = k') :
    alGetD (alSet m k v) k' [] = alGetD m k' [] := by
  unfold alGetD
  rw [alLookup_alSet_ne m v h]

theorem mem_alGetD_isSome {m : SMap} {k : Str} {x : Char}
    (h : x ∈ alGetD m k []) : (alLookup m k).isSome := by
  unfold alGetD at h
  rcases hl : alLookup m k with _ | v
  · rw [hl] at h
    exact absurd h (List.not_mem_nil x)
  · rfl

theorem alGetD_of_lookup {m : SMap} {k : Str} {v : CSet}
    (h : alLookup m k = some v) : alGetD m k [] = v := by
  unfold alGetD
  rw [h]
  rfl

theorem FInv_getnd {g : Grammar} {m : SMap} (hm : FInv g m) (k : Str) :
    (alGetD m k []).Nodup := by
  rcases hl : alLookup m k with _ | v
  · unfold alGetD
    rw [hl]
    exact List.nodup_nil
  · rw [alGetD_of_lookup hl]
    exact hm.valnd (k, v) (alLookup_mem hl)

theorem FInv_getsub {g : Grammar} {m : SMap} (hm : FInv g m) (k : Str) :
    ∀ x ∈ alGetD m k [], x ∈ fValU g := by
  rcases hl : alLookup m k with _ | v
  · unfold alGetD
    rw [hl]
    intro x hx
    exact absurd hx (List.not_mem_nil x)
  · rw [alGetD_of_lookup hl]
    exact hm.valsub (k, v) (alLookup_mem hl)

theorem alPres_refl (m : SMap) : alPres m m := fun _ _ h => h

theorem alPres_trans {a b c : SMap} (h1 : alPres a b) (h2 : alPres b c) :
    alPres a c := fun k v h => h2 k v (h1 k v h)

theorem eRefl_refl (m : SMap) : eRefl m m := fun _ h => h

theorem eRefl_trans {a b c : SMap} (h1 : eRefl a b) (h2 : eRefl b c) :
    eRefl a c := fun k h => h1 k (h2 k h)

theorem alPres_e {m m2 : SMap} (h : alPres m m2) {k : Str}
    (he : 'e' ∈ alGetD m k []) : 'e' ∈ alGetD m2 k [] := by
  rcases hl : alLookup m k with _ | v
  · unfold alGetD at he
    rw [hl] at he
    exact absurd he (List.not_mem_nil _)
  · rw [alGetD_of_lookup hl] at he
    rw [alGetD_of_lookup (h k v hl)]
    exact he

theorem symfold_acc_sub {x : Char} :
    ∀ (ps : List Str) (acc : List Char), x ∈ acc →
      x ∈ ps.foldl (fun a p => a ++ p) acc := by
  intro ps
  induction ps with
  | nil => intro acc h; exact h
  | cons p rest ih =>
    intro acc h
    exact ih (acc ++ p) (List.mem_append_left p h)

theorem symfold_entry_sub {x : Char} :
    ∀ (entries : List (Str × List Str)) (acc : List Char), x ∈ acc →
      x ∈ entries.foldl (fun acc e => e.2.foldl (fun a p => a ++ p) acc) acc := by
  intro entries
  induction entries with
  | nil => intro acc h; exact h
  | cons e rest ih =>
    intro acc h
    exact ih _ (symfold_acc_sub e.2 acc h)

theorem symfold_mem {c : Char} {p : Str} (hc : c ∈ p) :
    ∀ (ps : List Str) (acc : List Char), p ∈ ps →
      c ∈ ps.foldl (fun a p => a ++ p) acc := by
  intro ps
  induction ps with
  | nil => intro acc h; exact absurd h (List.not_mem_nil p)
  | cons q rest ih =>
    intro acc h
    rcases List.mem_cons.mp h with h1 | h1
    · subst h1
      exact symfold_acc_sub rest (acc ++ p) (List.mem_append_right acc hc)
    · exact ih _ h1

theorem mem_symChars {g : Grammar} {nt : Str} {ps : List Str} {p : Str} {c : Char}
    (h1 : (nt, ps) ∈ g.productions) (h2 : p ∈ ps) (h3 : c ∈ p) :
    c ∈ g.symChars := by
  unfold Grammar.symChars
  obtain ⟨L1, L2, hsplit⟩ := List.append_of_mem h1
  rw [hsplit, List.foldl_append, List.foldl_cons]
  exact symfold_entry_sub L2 _ (symfold_mem h3 ps _ h2)

theorem mem_termfold :
    ∀ (ts : List Char) (m0 : SMap), ∀ e ∈ ts.foldl (fun m t => alSet m [t] [t]) m0,
      e ∈ m0 ∨ ∃ t ∈ ts, e = (([t] : Str), ([t] : CSet)) := by
  intro ts
  induction ts with
  | nil => intro m0 e he; exact Or.inl he
  | cons t rest ih =>
    intro m0 e he
    simp only [List.foldl_cons] at he
    rcases ih _ e he with h1 | ⟨t2, ht2, he2⟩
    · rcases mem_alSet m0 [t] [t] e h1 with h2 | h2
      · exact Or.inr ⟨t, List.mem_cons_self t rest, h2⟩
      · exact Or.inl h2
    · exact Or.inr ⟨t2, List.mem_cons_of_mem t ht2, he2⟩

theorem termfold_keys_nodup :
    ∀ (ts : List Char) (m0 : SMap), (m0.map Prod.fst).Nodup →
      ((ts.foldl (fun m t => alSet m [t] [t]) m0).map Prod.fst).Nodup := by
  intro ts
  induction ts with
  | nil => intro m0 h; exact h
  | cons t rest ih =>
    intro m0 h
    simp only [List.foldl_cons]
    exact ih _ (alSet_keys_nodup m0 [t] [t] h)

theorem firstInit_inv (g : Grammar) (hntnd : g.non_terminals.Nodup) :
    FInv g (firstInit g) := by
  have hco : (g.non_terminals.map (fun nt => (nt, ([] : CSet)))).map Prod.fst
      = g.non_terminals := by
    induction g.non_terminals with
    | nil => rfl
    | cons a l ih => simp only [List.map_cons, ih]
  have hbase : ((g.non_terminals.map (fun nt => (nt, ([] : CSet)))).map Prod.fst).Nodup := by
    rw [hco]
    exact hntnd
  have hmem : ∀ e ∈ firstInit g,
      (e = ((['e'] : Str), (['e'] : CSet))) ∨
      (∃ t ∈ g.terminals, e = (([t] : Str), ([t] : CSet))) ∨
      (e.1 ∈ g.non_terminals ∧ e.2 = []) := by
    intro e he
    unfold firstInit at he
    rcases mem_alSet _ ['e'] ['e'] e he with h1 | h1
    · exact Or.inl h1
    · rcases mem_termfold g.terminals _ e h1 with h2 | h2
      · obtain ⟨nt, hnt, hent⟩ := List.mem_map.mp h2
        refine Or.inr (Or.inr ?_)
        rw [← hent]
        exact ⟨hnt, rfl⟩
      · exact Or.inr (Or.inl h2)
  refine ⟨?_, ?_, ?_, ?_, ?_⟩
  · unfold firstInit
    exact alSet_keys_nodup _ ['e'] ['e'] (termfold_keys_nodup g.terminals _ hbase)
  · intro e he
    rcases hmem e he with h1 | ⟨t, ht, h1⟩ | ⟨h1, _⟩
    · rw [h1]
      exact List.mem_cons_self _ _
    · rw [h1]
      refine List.mem_cons_of_mem _ ?_
      refine List.mem_append_left _ (List.mem_append_right _ ?_)
      exact List.mem_map_of_mem _ ht
    · exact List.mem_cons_of_mem _
        (List.mem_append_left _ (List.mem_append_left _ h1))
  · intro e he
    rcases hmem e he with h1 | ⟨t, _, h1⟩ | ⟨_, h1⟩ <;> rw [h1] <;> simp
  · intro e he x hx
    rcases hmem e he with h1 | ⟨t, ht, h1⟩ | ⟨_, h1⟩
    · rw [h1] at hx
      rw [List.mem_singleton] at hx
      rw [hx]
      exact List.mem_cons_self _ _
    · rw [h1] at hx
      rw [List.mem_singleton] at hx
      rw [hx]
      exact List.mem_cons_of_mem _ (List.mem_append_left _ ht)
    · rw [h1] at hx
      exact absurd hx (List.not_mem_nil x)
  · unfold firstInit
    rw [alGetD_alSet_self]
    exact List.mem_singleton.mpr rfl

theorem firstInit_sound (g : Grammar) : SoundE g (firstInit g) := by
  intro k he
  have hl : (alLookup (firstInit g) k).isSome := mem_alGetD_isSome he
  rcases hlk : alLookup (firstInit g) k with _ | v
  · rw [hlk] at hl
    exact absurd hl (by simp)
  · rw [alGetD_of_lookup hlk] at he
    have hmem := alLookup_mem hlk
    unfold firstInit at hmem
    rcases mem_alSet _ ['e'] ['e'] (k, v) hmem with h1 | h1
    · have hk : k = ['e'] := congrArg Prod.fst h1
      rw [hk]
      exact NullK.eps
    · rcases mem_termfold g.terminals _ (k, v) h1 with h2 | ⟨t, _, h2⟩
      · obtain ⟨nt, _, hent⟩ := List.mem_map.mp h2
        have hv : v = [] := (congrArg Prod.snd hent).symm
        rw [hv] at he
        exact absurd he (List.not_mem_nil _)
      · have hv : v = [t] := congrArg Prod.snd h2
        have hk : k = [t] := congrArg Prod.fst h2
        rw [hv, List.mem_singleton] at he
        rw [hk, ← he]
        exact NullK.eps

theorem alPres_alSet_of_none {m : SMap} {k : Str} (v : CSet)
    (h : alLookup m k = none) : alPres m (alSet m k v) := by
  intro k2 v2 h2
  by_cases hk : k = k2
  · subst hk
    rw [h] at h2
    exact Option.noConfusion h2
  · rw [alLookup_alSet_ne m v hk]
    exact h2

theorem addTermsFold_spec (g : Grammar) {nt : Str} (hnt : nt ∈ fKeyU g) :
    ∀ (src : CSet) (m : SMap) (u : Bool),
      (∀ x ∈ src, x ∈ fValU g) → FInv g m → SoundE g m →
      FInv g (src.foldl (fun acc t =>
          if t ≠ 'e' ∧ t ∉ alGetD acc.1 nt [] then
            (alSet acc.1 nt (alGetD acc.1 nt [] ++ [t]), true)
          else acc) (m, u)).1 ∧
      SoundE g (src.foldl (fun acc t =>
          if t ≠ 'e' ∧ t ∉ alGetD acc.1 nt [] then
            (alSet acc.1 nt (alGetD acc.1 nt [] ++ [t]), true)
          else acc) (m, u)).1 ∧
      smapSize m ≤ smapSize (src.foldl (fun acc t =>
          if t ≠ 'e' ∧ t ∉ alGetD acc.1 nt [] then
            (alSet acc.1 nt (alGetD acc.1 nt [] ++ [t]), true)
          else acc) (m, u)).1 ∧
      ((src.foldl (fun acc t =>
          if t ≠ 'e' ∧ t ∉ alGetD acc.1 nt [] then
            (alSet acc.1 nt (alGetD acc.1 nt [] ++ [t]), true)
          else acc) (m, u)).2 = true → u = true ∨
        smapSize m + 1 ≤ smapSize (src.foldl (fun acc t =>
          if t ≠ 'e' ∧ t ∉ alGetD acc.1 nt [] then
            (alSet acc.1 nt (alGetD acc.1 nt [] ++ [t]), true)
          else acc) (m, u)).1) := by
  intro src
  induction src with
  | nil =>
    intro m u _ hm hs
    exact ⟨hm, hs, le_refl _, fun h => Or.inl h⟩
  | cons t rest ih =>
    intro m u hsrc hm hs
    simp only [List.foldl_cons]
    by_cases hc : t ≠ 'e' ∧ t ∉ alGetD m nt []
    · rw [if_pos hc]
      have hnew : FInv g (alSet m nt (alGetD m nt [] ++ [t])) := by
        refine ⟨?_, ?_, ?_, ?_, ?_⟩
        · exact alSet_keys_nodup m nt _ hm.keysnd
        · intro e he
          rcases mem_alSet m nt _ e he with h1 | h1
          · rw [h1]
            exact hnt
          · exact hm.keysub e h1
        · intro e he
          rcases mem_alSet m nt _ e he with h1 | h1
          · rw [h1]
            refine List.Nodup.append (FInv_getnd hm nt) (List.nodup_singleton t) ?_
            intro a ha hat
            rw [List.mem_singleton] at hat
            exact hc.2 (hat ▸ ha)
          · exact hm.valnd e h1
        · intro e he x hx
          rcases mem_alSet m nt _ e he with h1 | h1
          · rw [h1] at hx
            rcases List.mem_append.mp hx with h2 | h2
            · exact FInv_getsub hm nt x h2
            · rw [List.mem_singleton] at h2
              exact h2 ▸ hsrc t (List.mem_cons_self t rest)
          · exact hm.valsub e h1 x hx
        · by_cases hne : nt = ['e']
          · subst hne
            rw [alGetD_alSet_self]
            exact List.mem_append_left _ hm.ekey
          · rw [alGetD_alSet_ne m _ hne]
            exact hm.ekey
      have hsnew : SoundE g (alSet m nt (alGetD m nt [] ++ [t])) := by
        intro k he
        by_cases hk : nt = k
        · subst hk
          rw [alGetD_alSet_self] at he
          rcases List.mem_append.mp he with h2 | h2
          · exact hs nt h2
          · rw [List.mem_singleton] at h2
            exact absurd h2.symm hc.1
        · rw [alGetD_alSet_ne m _ hk] at he
          exact hs k he
      have hsz : smapSize (alSet m nt (alGetD m nt [] ++ [t])) = smapSize m + 1 :=
        smapSize_alSet_append m nt t
      obtain ⟨hA, hB, hC, hD⟩ := ih (alSet m nt (alGetD m nt [] ++ [t])) true
        (fun x hx => hsrc x (List.mem_cons_of_mem t hx)) hnew hsnew
      exact ⟨hA, hB, by omega, fun _ => Or.inr (by omega)⟩
    · rw [if_neg hc]
      exact ih m u (fun x hx => hsrc x (List.mem_cons_of_mem t hx)) hm hs

theorem firstAddTerms_spec (g : Grammar) {nt : Str} (hnt : nt ∈ fKeyU g)
    (src : CSet) (m : SMap) (hsrc : ∀ x ∈ src, x ∈ fValU g)
    (hm : FInv g m) (hs : SoundE g m) :
    FInv g (firstAddTerms m nt src).1 ∧ SoundE g (firstAddTerms m nt src).1 ∧
    smapSize m ≤ smapSize (firstAddTerms m nt src).1 ∧
    ((firstAddTerms m nt src).2 = true →
      smapSize m + 1 ≤ smapSize (firstAddTerms m nt src).1) := by
  unfold firstAddTerms
  obtain ⟨hA, hB, hC, hD⟩ := addTermsFold_spec g hnt src m false hsrc hm hs
  refine ⟨hA, hB, hC, fun h => ?_⟩
  rcases hD h with h1 | h1
  · exact absurd h1 (by simp)
  · exact h1

theorem firstEnsure_all (g : Grammar) (m : SMap) (c : Char)
    (hkey : ([c] : Str) ∈ fKeyU g) (hval : c ∈ fValU g)
    (hm : FInv g m) (hs : SoundE g m) :
    FInv g (firstEnsure m c) ∧ SoundE g (firstEnsure m c) ∧
    smapSize m ≤ smapSize (firstEnsure m c) ∧
    alPres m (firstEnsure m c) ∧ eRefl m (firstEnsure m c) := by
  unfold firstEnsure
  rcases hl : alLookup m [c] with _ | v
  · have hce : c ≠ 'e' := by
      intro hcon
      subst hcon
      have h2 := mem_alGetD_isSome hm.ekey
      rw [hl] at h2
      exact absurd h2 (by simp)
    have hke : ¬ ([c] : Str) = ['e'] := by
      intro hcon
      exact hce (List.head_eq_of_cons_eq hcon)
    by_cases hu : c.isUpper
    · rw [if_pos hu]
      refine ⟨⟨alSet_keys_nodup m [c] [] hm.keysnd, ?_, ?_, ?_, ?_⟩, ?_, ?_, ?_, ?_⟩
      · intro e he
        rcases mem_alSet m [c] [] e he with h1 | h1
        · rw [h1]
          exact hkey
        · exact hm.keysub e h1
      · intro e he
        rcases mem_alSet m [c] [] e he with h1 | h1
        · rw [h1]
          exact List.nodup_nil
        · exact hm.valnd e h1
      · intro e he x hx
        rcases mem_alSet m [c] [] e he with h1 | h1
        · rw [h1] at hx
          exact absurd hx (List.not_mem_nil x)
        · exact hm.valsub e h1 x hx
      · rw [alGetD_alSet_ne m _ hke]
        exact hm.ekey
      · intro k he
        by_cases hk : ([c] : Str) = k
        · subst hk
          rw [alGetD_alSet_self] at he
          exact absurd he (List.not_mem_nil _)
        · rw [alGetD_alSet_ne m _ hk] at he
          exact hs k he
      · rw [smapSize_alSet_new m [c] [] hl]
        omega
      · exact alPres_alSet_of_none [] hl
      · intro k he
        by_cases hk : ([c] : Str) = k
        · subst hk
          rw [alGetD_alSet_self] at he
          exact absurd he (List.not_mem_nil _)
        · rw [alGetD_alSet_ne m _ hk] at he
          exact he
    · rw [if_neg hu]
      refine ⟨⟨alSet_keys_nodup m [c] [c] hm.keysnd, ?_, ?_, ?_, ?_⟩, ?_, ?_, ?_, ?_⟩
      · intro e he
        rcases mem_alSet m [c] [c] e he with h1 | h1
        · rw [h1]
          exact hkey
        · exact hm.keysub e h1
      · intro e he
        rcases mem_alSet m [c] [c] e he with h1 | h1
        · rw [h1]
          exact List.nodup_singleton c
        · exact hm.valnd e h1
      · intro e he x hx
        rcases mem_alSet m [c] [c] e he with h1 | h1
        · rw [h1] at hx
          rw [List.mem_singleton] at hx
          exact hx ▸ hval
        · exact hm.valsub e h1 x hx
      · rw [alGetD_alSet_ne m _ hke]
        exact hm.ekey
      · intro k he
        by_cases hk : ([c] : Str) = k
        · subst hk
          rw [alGetD_alSet_self] at he
          rw [List.mem_singleton] at he
          exact absurd he.symm hce
        · rw [alGetD_alSet_ne m _ hk] at he
          exact hs k he
      · rw [smapSize_alSet_new m [c] [c] hl]
        omega
      · exact alPres_alSet_of_none [c] hl
      · intro k he
        by_cases hk : ([c] : Str) = k
        · subst hk
          rw [alGetD_alSet_self] at he
          rw [List.mem_singleton] at he
          exact absurd he.symm hce
        · rw [alGetD_alSet_ne m _ hk] at he
          exact he
  · exact ⟨hm, hs, le_refl _, alPres_refl m, eRefl_refl m⟩

theorem bor_elim {a b : Bool} (h : (a || b) = true) : a = true ∨ b = true := by
  simpa using h

theorem firstWalk_spec (g : Grammar) {nt : Str} (hnt : nt ∈ fKeyU g) :
    ∀ (p : Str) (m : SMap) (upd : Bool),
      (∀ c ∈ p, ([c] : Str) ∈ fKeyU g ∧ c ∈ fValU g) →
      FInv g m → SoundE g m →
      FInv g (firstWalk nt m upd p).1 ∧ SoundE g (firstWalk nt m upd p).1 ∧
      smapSize m ≤ smapSize (firstWalk nt m upd p).1 ∧
      ((firstWalk nt m upd p).2.1 = true → upd = true ∨
        smapSize m + 1 ≤ smapSize (firstWalk nt m upd p).1) ∧
      ((firstWalk nt m upd p).2.2 = true → ∀ c ∈ p, NullK g [c]) := by
  intro p
  induction p with
  | nil =>
    intro m upd _ hm hs
    exact ⟨hm, hs, le_refl _, fun h => Or.inl h,
      fun _ c hc => absurd hc (List.not_mem_nil c)⟩
  | cons c rest ih =>
    intro m upd hchars hm hs
    obtain ⟨hck, hcv⟩ := hchars c (List.mem_cons_self c rest)
    obtain ⟨hm1, hs1, hsz1, _, _⟩ := firstEnsure_all g m c hck hcv hm hs
    obtain ⟨hmr, hsr, hszr, hstr⟩ := firstAddTerms_spec g hnt
      (alGetD (firstEnsure m c) [c] []) (firstEnsure m c)
      (FInv_getsub hm1 [c]) hm1 hs1
    unfold firstWalk
    dsimp only
    by_cases hcond : 'e' ∈ alGetD (firstAddTerms (firstEnsure m c) nt
        (alGetD (firstEnsure m c) [c] [])).1 [c] []
    · rw [if_pos hcond]
      obtain ⟨hA, hB, hC, hD, hE⟩ := ih (firstAddTerms (firstEnsure m c) nt
          (alGetD (firstEnsure m c) [c] [])).1
        (upd || (firstAddTerms (firstEnsure m c) nt
          (alGetD (firstEnsure m c) [c] [])).2)
        (fun d hd => hchars d (List.mem_cons_of_mem c hd)) hmr hsr
      refine ⟨hA, hB, by omega, fun h => ?_, fun h d hd => ?_⟩
      · rcases hD h with h1 | h1
        · rcases bor_elim h1 with h2 | h2
          · exact Or.inl h2
          · have h3 := hstr h2
            exact Or.inr (by omega)
        · exact Or.inr (by omega)
      · rcases List.mem_cons.mp hd with h1 | h1
        · subst h1
          exact hsr [d] hcond
        · exact hE h d h1
    · rw [if_neg hcond]
      refine ⟨hmr, hsr, by dsimp only; omega, fun h => ?_, fun h => ?_⟩
      · rcases bor_elim (by simpa using h) with h1 | h1
        · exact Or.inl h1
        · have h3 := hstr h1
          exact Or.inr (by dsimp only; omega)
      · dsimp only at h
        exact absurd h Bool.false_ne_true

theorem firstProd_spec (g : Grammar) {nt : Str} {ps : List Str} {p : Str}
    (hj : (nt, ps) ∈ g.productions) (hp : p ∈ ps)
    (hnt : nt ∈ fKeyU g)
    (hchars : ∀ c ∈ p, ([c] : Str) ∈ fKeyU g ∧ c ∈ fValU g)
    (m : SMap) (u : Bool) (hm : FInv g m) (hs : SoundE g m) :
    FInv g (firstProd nt (m, u) p).1 ∧ SoundE g (firstProd nt (m, u) p).1 ∧
    smapSize m ≤ smapSize (firstProd nt (m, u) p).1 ∧
    ((firstProd nt (m, u) p).2 = true → u = true ∨
      smapSize m + 1 ≤ smapSize (firstProd nt (m, u) p).1) := by
  have haddE : ∀ (m2 : SMap), FInv g m2 → SoundE g m2 → NullK g nt →
      'e' ∉ alGetD m2 nt [] →
      FInv g (alSet m2 nt (alGetD m2 nt [] ++ ['e'])) ∧
      SoundE g (alSet m2 nt (alGetD m2 nt [] ++ ['e'])) ∧
      smapSize (alSet m2 nt (alGetD m2 nt [] ++ ['e'])) = smapSize m2 + 1 := by
    intro m2 hm2 hs2 hnull hne
    refine ⟨⟨alSet_keys_nodup m2 nt _ hm2.keysnd, ?_, ?_, ?_, ?_⟩, ?_,
      smapSize_alSet_append m2 nt 'e'⟩
    · intro e he
      rcases mem_alSet m2 nt _ e he with h1 | h1
      · rw [h1]
        exact hnt
      · exact hm2.keysub e h1
    · intro e he
      rcases mem_alSet m2 nt _ e he with h1 | h1
      · rw [h1]
        refine List.Nodup.append (FInv_getnd hm2 nt) (List.nodup_singleton 'e') ?_
        intro a ha hat
        rw [List.mem_singleton] at hat
        exact hne (hat ▸ ha)
      · exact hm2.valnd e h1
    · intro e he x hx
      rcases mem_alSet m2 nt _ e he with h1 | h1
      · rw [h1] at hx
        rcases List.mem_append.mp hx with h2 | h2
        · exact FInv_getsub hm2 nt x h2
        · rw [List.mem_singleton] at h2
          rw [h2]
          exact List.mem_cons_self _ _
      · exact hm2.valsub e h1 x hx
    · by_cases hke : nt = ['e']
      · subst hke
        rw [alGetD_alSet_self]
        exact List.mem_append_left _ hm2.ekey
      · rw [alGetD_alSet_ne m2 _ hke]
        exact hm2.ekey
    · intro k he
      by_cases hk : nt = k
      · subst hk
        exact hnull
      · rw [alGetD_alSet_ne m2 _ hk] at he
        exact hs2 k he
  unfold firstProd
  by_cases hpe : p = ['e']
  · rw [if_pos hpe]
    dsimp only
    by_cases he : 'e' ∈ alGetD m nt []
    · rw [if_pos he]
      exact ⟨hm, hs, le_refl _, fun h => Or.inl h⟩
    · rw [if_neg he]
      have hnull : NullK g nt := by
        refine NullK.allNull nt ps ['e'] hj (hpe ▸ hp) ?_
        intro c hc
        rw [List.mem_singleton] at hc
        rw [hc]
        exact NullK.eps
      obtain ⟨hA, hB, hC⟩ := haddE m hm hs hnull he
      refine ⟨hA, hB, ?_, fun _ => Or.inr ?_⟩ <;> dsimp only <;> omega
  · rw [if_neg hpe]
    obtain ⟨hmw, hsw, hszw, hflw, hepsw⟩ := firstWalk_spec g hnt p m u hchars hm hs
    rcases hW : firstWalk nt m u p with ⟨m1, u1, epsAll⟩
    rw [hW] at hmw hsw hszw hflw hepsw
    dsimp only at hmw hsw hszw hflw hepsw ⊢
    by_cases hcond : epsAll = true ∧ 'e' ∉ alGetD m1 nt []
    · rw [if_pos hcond]
      have hnull : NullK g nt := by
        refine NullK.allNull nt ps p hj hp ?_
        exact hepsw hcond.1
      obtain ⟨hA, hB, hC⟩ := haddE m1 hmw hsw hnull hcond.2
      refine ⟨hA, hB, ?_, fun _ => Or.inr ?_⟩ <;> dsimp only <;> omega
    · rw [if_neg hcond]
      exact ⟨hmw, hsw, hszw, hflw⟩

theorem prodFoldA_spec (g : Grammar) {nt : Str} {ps : List Str}
    (hj : (nt, ps) ∈ g.productions) (hnt : nt ∈ fKeyU g)
    (hchars : ∀ p ∈ ps, ∀ c ∈ p, ([c] : Str) ∈ fKeyU g ∧ c ∈ fValU g) :
    ∀ (l : List Str), (∀ p ∈ l, p ∈ ps) →
      ∀ (m : SMap) (u : Bool), FInv g m → SoundE g m →
      FInv g (l.foldl (firstProd nt) (m, u)).1 ∧
      SoundE g (l.foldl (firstProd nt) (m, u)).1 ∧
      smapSize m ≤ smapSize (l.foldl (firstProd nt) (m, u)).1 ∧
      ((l.foldl (firstProd nt) (m, u)).2 = true → u = true ∨
        smapSize m + 1 ≤ smapSize (l.foldl (firstProd nt) (m, u)).1) := by
  intro l
  induction l with
  | nil =>
    intro _ m u hm hs
    exact ⟨hm, hs, le_refl _, fun h => Or.inl h⟩
  | cons p rest ih =>
    intro hl m u hm hs
    simp only [List.foldl_cons]
    have hpm : p ∈ ps := hl p (List.mem_cons_self p rest)
    obtain ⟨hA, hB, hC, hD⟩ := firstProd_spec g hj hpm hnt
      (hchars p hpm) m u hm hs
    rcases hP : firstProd nt (m, u) p with ⟨mA, uA⟩
    rw [hP] at hA hB hC hD
    dsimp only at hA hB hC hD
    obtain ⟨hA2, hB2, hC2, hD2⟩ := ih (fun q hq => hl q (List.mem_cons_of_mem p hq))
      mA uA hA hB
    refine ⟨hA2, hB2, by omega, fun h => ?_⟩
    rcases hD2 h with h1 | h1
    · rcases hD h1 with h2 | h2
      · exact Or.inl h2
      · exact Or.inr (by omega)
    · exact Or.inr (by omega)

theorem passFoldA_spec (g : Grammar) (hwf : g.WF) :
    ∀ (entries : List (Str × List Str)), (∀ e ∈ entries, e ∈ g.productions) →
      ∀ (m : SMap) (u : Bool), FInv g m → SoundE g m →
      FInv g (entries.foldl (fun mu entry => entry.2.foldl (firstProd entry.1) mu) (m, u)).1 ∧
      SoundE g (entries.foldl (fun mu entry => entry.2.foldl (firstProd entry.1) mu) (m, u)).1 ∧
      smapSize m ≤ smapSize
        (entries.foldl (fun mu entry => entry.2.foldl (firstProd entry.1) mu) (m, u)).1 ∧
      ((entries.foldl (fun mu entry => entry.2.foldl (firstProd entry.1) mu) (m, u)).2 = true →
        u = true ∨ smapSize m + 1 ≤ smapSize
          (entries.foldl (fun mu entry => entry.2.foldl (firstProd entry.1) mu) (m, u)).1) := by
  intro entries
  induction entries with
  | nil =>
    intro _ m u hm hs
    exact ⟨hm, hs, le_refl _, fun h => Or.inl h⟩
  | cons e rest ih =>
    intro hent m u hm hs
    simp only [List.foldl_cons]
    have hej : (e.1, e.2) ∈ g.productions := hent e (List.mem_cons_self e rest)
    have hnt : e.1 ∈ fKeyU g := by
      unfold fKeyU
      exact List.mem_cons_of_mem _
        (List.mem_append_left _ (List.mem_append_left _ (hwf.2.1 e
          (hent e (List.mem_cons_self e rest)))))
    have hchars : ∀ p ∈ e.2, ∀ c ∈ p, ([c] : Str) ∈ fKeyU g ∧ c ∈ fValU g := by
      intro p hp c hc
      have hsc : c ∈ g.symChars := mem_symChars hej hp hc
      constructor
      · unfold fKeyU
        exact List.mem_cons_of_mem _
          (List.mem_append_right _ (List.mem_map_of_mem _ hsc))
      · unfold fValU
        exact List.mem_cons_of_mem _ (List.mem_append_right _ hsc)
    obtain ⟨hA, hB, hC, hD⟩ := prodFoldA_spec g hej hnt hchars e.2
      (fun p hp => hp) m u hm hs
    rcases hP : e.2.foldl (firstProd e.1) (m, u) with ⟨mA, uA⟩
    rw [hP] at hA hB hC hD
    dsimp only at hA hB hC hD
    obtain ⟨hA2, hB2, hC2, hD2⟩ := ih (fun e2 he2 => hent e2 (List.mem_cons_of_mem e he2))
      mA uA hA hB
    refine ⟨hA2, hB2, by omega, fun h => ?_⟩
    rcases hD2 h with h1 | h1
    · rcases hD h1 with h2 | h2
      · exact Or.inl h2
      · exact Or.inr (by omega)
    · exact Or.inr (by omega)

theorem firstPass_spec (g : Grammar) (hwf : g.WF) (m : SMap)
    (hm : FInv g m) (hs : SoundE g m) :
    FInv g (firstPass g m).1 ∧ SoundE g (firstPass g m).1 ∧
    smapSize m ≤ smapSize (firstPass g m).1 ∧
    ((firstPass g m).2 = true → smapSize m + 1 ≤ smapSize (firstPass g m).1) := by
  unfold firstPass
  obtain ⟨hA, hB, hC, hD⟩ := passFoldA_spec g hwf g.productions
    (fun e he => he) m false hm hs
  refine ⟨hA, hB, hC, fun h => ?_⟩
  rcases hD h with h1 | h1
  · exact absurd h1 (by simp)
  · exact h1

theorem get_first_set_spec (g : Grammar) (hwf : g.WF) (hntnd : g.non_terminals.Nodup) :
    ∃ x, FInv g x ∧ SoundE g x ∧ firstPass g x = (g.get_first_set, false) ∧
      FInv g g.get_first_set ∧ SoundE g g.get_first_set := by
  have hstep : ∀ x, (FInv g x ∧ SoundE g x) →
      (FInv g (firstPass g x).1 ∧ SoundE g (firstPass g x).1) ∧
      smapSize x ≤ smapSize (firstPass g x).1 ∧
      ((firstPass g x).2 = true → smapSize x + 1 ≤ smapSize (firstPass g x).1) ∧
      smapSize x ≤ (fKeyU g).length * (fValU g).length := by
    intro x hx
    obtain ⟨hx1, hx2⟩ := hx
    obtain ⟨hA, hB, hC, hD⟩ := firstPass_spec g hwf x hx1 hx2
    refine ⟨⟨hA, hB⟩, hC, hD, ?_⟩
    exact smapSize_le x (fKeyU g) (fValU g).length hx1.keysnd hx1.keysub
      (fun e he => nodup_sub_len (hx1.valnd e he) (fun y hy => hx1.valsub e he y hy))
  have hk : (fKeyU g).length
      = g.non_terminals.length + g.terminals.length + g.symChars.length + 1 := by
    unfold fKeyU
    simp only [List.length_cons, List.length_append, List.length_map]
  have hv : (fValU g).length = g.terminals.length + g.symChars.length + 1 := by
    unfold fValU
    simp only [List.length_cons, List.length_append]
  have hfuel : (fKeyU g).length * (fValU g).length + 1
      ≤ g.firstFuel + smapSize (firstInit g) := by
    unfold Grammar.firstFuel
    rw [hk, hv]
    have hmul : (g.non_terminals.length + g.terminals.length + g.symChars.length + 1) *
        (g.terminals.length + g.symChars.length + 1) ≤
        (g.non_terminals.length + g.terminals.length + g.symChars.length + 2) *
        (g.terminals.length + g.symChars.length + 2) :=
      Nat.mul_le_mul (by omega) (by omega)
    omega
  obtain ⟨x2, hx2inv, hpass⟩ := fixLoop_false hstep g.firstFuel (firstInit g)
    ⟨firstInit_inv g hntnd, firstInit_sound g⟩ hfuel
  obtain ⟨hx1, hx2⟩ := hx2inv
  have hgfs : firstPass g x2 = (g.get_first_set, false) := by
    unfold Grammar.get_first_set
    exact hpass
  have h2 := (hstep x2 ⟨hx1, hx2⟩).1
  rw [hgfs] at h2
  exact ⟨x2, hx1, hx2, hgfs, h2.1, h2.2⟩

theorem addTermsFold_flag {nt : Str} :
    ∀ (src : CSet) (m : SMap),
      (src.foldl (fun acc t =>
        if t ≠ 'e' ∧ t ∉ alGetD acc.1 nt [] then
          (alSet acc.1 nt (alGetD acc.1 nt [] ++ [t]), true)
        else acc) (m, true)).2 = true := by
  intro src
  induction src with
  | nil => intro m; rfl
  | cons t rest ih =>
    intro m
    simp only [List.foldl_cons]
    by_cases hc : t ≠ 'e' ∧ t ∉ alGetD m nt []
    · rw [if_pos hc]
      exact ih _
    · rw [if_neg hc]
      exact ih m

theorem addTermsFold_false {nt : Str} :
    ∀ (src : CSet) (m : SMap),
      (src.foldl (fun acc t =>
        if t ≠ 'e' ∧ t ∉ alGetD acc.1 nt [] then
          (alSet acc.1 nt (alGetD acc.1 nt [] ++ [t]), true)
        else acc) (m, false)).2 = false →
      (src.foldl (fun acc t =>
        if t ≠ 'e' ∧ t ∉ alGetD acc.1 nt [] then
          (alSet acc.1 nt (alGetD acc.1 nt [] ++ [t]), true)
        else acc) (m, false)).1 = m := by
  intro src
  induction src with
  | nil => intro m _; rfl
  | cons t rest ih =>
    intro m h
    simp only [List.foldl_cons] at h ⊢
    by_cases hc : t ≠ 'e' ∧ t ∉ alGetD m nt []
    · rw [if_pos hc] at h
      exact absurd (addTermsFold_flag rest _) (by rw [h]; simp)
    · rw [if_neg hc] at h ⊢
      exact ih m h

theorem firstAddTerms_false {nt : Str} {src : CSet} {m : SMap}
    (h : (firstAddTerms m nt src).2 = false) : (firstAddTerms m nt src).1 = m := by
  unfold firstAddTerms at h ⊢
  exact addTermsFold_false src m h

theorem firstEnsure_pres (m : SMap) (c : Char) (hek : 'e' ∈ alGetD m ['e'] []) :
    alPres m (firstEnsure m c) ∧ eRefl m (firstEnsure m c) ∧
    'e' ∈ alGetD (firstEnsure m c) ['e'] [] := by
  unfold firstEnsure
  rcases hl : alLookup m [c] with _ | v
  · have hce : c ≠ 'e' := by
      intro hcon
      subst hcon
      have h2 := mem_alGetD_isSome hek
      rw [hl] at h2
      exact absurd h2 (by simp)
    have hke : ¬ ([c] : Str) = ['e'] := by
      intro hcon
      exact hce (List.head_eq_of_cons_eq hcon)
    by_cases hu : c.isUpper
    · rw [if_pos hu]
      refine ⟨alPres_alSet_of_none [] hl, ?_, ?_⟩
      · intro k he
        by_cases hk : ([c] : Str) = k
        · subst hk
          rw [alGetD_alSet_self] at he
          exact absurd he (List.not_mem_nil _)
        · rw [alGetD_alSet_ne m _ hk] at he
          exact he
      · rw [alGetD_alSet_ne m _ hke]
        exact hek
    · rw [if_neg hu]
      refine ⟨alPres_alSet_of_none [c] hl, ?_, ?_⟩
      · intro k he
        by_cases hk : ([c] : Str) = k
        · subst hk
          rw [alGetD_alSet_self] at he
          rw [List.mem_singleton] at he
          exact absurd he.symm hce
        · rw [alGetD_alSet_ne m _ hk] at he
          exact he
      · rw [alGetD_alSet_ne m _ hke]
        exact hek
  · exact ⟨alPres_refl m, eRefl_refl m, hek⟩

theorem firstWalk_flag (nt : Str) :
    ∀ (p : Str) (m : SMap), (firstWalk nt m true p).2.1 = true := by
  intro p
  induction p with
  | nil => intro m; rfl
  | cons c rest ih =>
    intro m
    unfold firstWalk
    dsimp only
    by_cases hcond : 'e' ∈ alGetD (firstAddTerms (firstEnsure m c) nt
        (alGetD (firstEnsure m c) [c] [])).1 [c] []
    · rw [if_pos hcond]
      rw [Bool.true_or]
      exact ih _
    · rw [if_neg hcond]
      rfl

theorem firstWalk_false_spec (nt : Str) :
    ∀ (p : Str) (m : SMap), 'e' ∈ alGetD m ['e'] [] →
      (firstWalk nt m false p).2.1 = false →
      alPres m (firstWalk nt m false p).1 ∧ eRefl m (firstWalk nt m false p).1 ∧
      'e' ∈ alGetD (firstWalk nt m false p).1 ['e'] [] ∧
      ((∀ c ∈ p, 'e' ∈ alGetD m [c] []) → (firstWalk nt m false p).2.2 = true) := by
  intro p
  induction p with
  | nil =>
    intro m hek _
    exact ⟨alPres_refl m, eRefl_refl m, hek, fun _ => rfl⟩
  | cons c rest ih =>
    intro m hek hflag
    obtain ⟨hpres1, hrefl1, hek1⟩ := firstEnsure_pres m c hek
    unfold firstWalk at hflag ⊢
    dsimp only at hflag ⊢
    by_cases hcond : 'e' ∈ alGetD (firstAddTerms (firstEnsure m c) nt
        (alGetD (firstEnsure m c) [c] [])).1 [c] []
    · rw [if_pos hcond] at hflag ⊢
      have hr2 : (firstAddTerms (firstEnsure m c) nt
          (alGetD (firstEnsure m c) [c] [])).2 = false := by
        by_contra hcon
        have htrue : (firstAddTerms (firstEnsure m c) nt
            (alGetD (firstEnsure m c) [c] [])).2 = true := Bool.ne_false_iff.mp hcon
        rw [htrue, Bool.or_true] at hflag
        rw [firstWalk_flag nt rest _] at hflag
        exact absurd hflag (by simp)
      have hr1 : (firstAddTerms (firstEnsure m c) nt
          (alGetD (firstEnsure m c) [c] [])).1 = firstEnsure m c :=
        firstAddTerms_false hr2
      rw [hr2, hr1, Bool.or_false] at hflag ⊢
      obtain ⟨hA, hB, hC, hD⟩ := ih (firstEnsure m c) hek1 hflag
      refine ⟨alPres_trans hpres1 hA, eRefl_trans hrefl1 hB, hC, fun hall => ?_⟩
      refine hD ?_
      intro d hd
      exact alPres_e hpres1 (hall d (List.mem_cons_of_mem c hd))
    · rw [if_neg hcond] at hflag ⊢
      dsimp only at hflag ⊢
      have hr2 : (firstAddTerms (firstEnsure m c) nt
          (alGetD (firstEnsure m c) [c] [])).2 = false := by
        simpa using hflag
      have hr1 : (firstAddTerms (firstEnsure m c) nt
          (alGetD (firstEnsure m c) [c] [])).1 = firstEnsure m c :=
        firstAddTerms_false hr2
      rw [hr1]
      refine ⟨hpres1, hrefl1, hek1, fun hall => ?_⟩
      exfalso
      rw [hr1] at hcond
      exact hcond (alPres_e hpres1 (hall c (List.mem_cons_self c rest)))

theorem firstProd_flag (nt : Str) (p : Str) (m : SMap) :
    (firstProd nt (m, true) p).2 = true := by
  unfold firstProd
  by_cases hpe : p = ['e']
  · rw [if_pos hpe]
    dsimp only
    by_cases he : 'e' ∈ alGetD m nt []
    · rw [if_pos he]
    · rw [if_neg he]
  · rw [if_neg hpe]
    have hw := firstWalk_flag nt p m
    rcases hW : firstWalk nt m true p with ⟨m1, u1, epsAll⟩
    rw [hW] at hw
    dsimp only at hw ⊢
    by_cases hcond : epsAll = true ∧ 'e' ∉ alGetD m1 nt []
    · rw [if_pos hcond]
    · rw [if_neg hcond]
      exact hw

theorem prodFold_flag (nt : Str) :
    ∀ (l : List Str) (m : SMap), (l.foldl (firstProd nt) (m, true)).2 = true := by
  intro l
  induction l with
  | nil => intro m; rfl
  | cons p rest ih =>
    intro m
    simp only [List.foldl_cons]
    have h1 := firstProd_flag nt p m
    rcases hP : firstProd nt (m, true) p with ⟨mA, uA⟩
    rw [hP] at h1
    dsimp only at h1
    rw [h1]
    exact ih mA

theorem passFold_flag :
    ∀ (entries : List (Str × List Str)) (m : SMap),
      (entries.foldl (fun mu entry => entry.2.foldl (firstProd entry.1) mu) (m, true)).2
        = true := by
  intro entries
  induction entries with
  | nil => intro m; rfl
  | cons e rest ih =>
    intro m
    simp only [List.foldl_cons]
    have h1 := prodFold_flag e.1 e.2 m
    rcases hP : e.2.foldl (firstProd e.1) (m, true) with ⟨mA, uA⟩
    rw [hP] at h1
    dsimp only at h1
    rw [h1]
    exact ih mA

theorem firstProd_false (nt : Str) (p : Str) (m : SMap)
    (hek : 'e' ∈ alGetD m ['e'] [])
    (hres : (firstProd nt (m, false) p).2 = false) :
    alPres m (firstProd nt (m, false) p).1 ∧ eRefl m (firstProd nt (m, false) p).1 ∧
    'e' ∈ alGetD (firstProd nt (m, false) p).1 ['e'] [] ∧
    ((∀ c ∈ p, 'e' ∈ alGetD m [c] []) → 'e' ∈ alGetD (firstProd nt (m, false) p).1 nt []) := by
  unfold firstProd at hres ⊢
  by_cases hpe : p = ['e']
  · rw [if_pos hpe] at hres ⊢
    dsimp only at hres ⊢
    by_cases he : 'e' ∈ alGetD m nt []
    · rw [if_pos he] at hres ⊢
      exact ⟨alPres_refl m, eRefl_refl m, hek, fun _ => he⟩
    · rw [if_neg he] at hres
      exact absurd hres (by simp)
  · rw [if_neg hpe] at hres ⊢
    rcases hW : firstWalk nt m false p with ⟨m1, u1, epsAll⟩
    have hwps := firstWalk_false_spec nt p m hek
    rw [hW] at hwps hres
    dsimp only at hwps hres ⊢
    by_cases hcond : epsAll = true ∧ 'e' ∉ alGetD m1 nt []
    · rw [if_pos hcond] at hres
      exact absurd hres (by simp)
    · rw [if_neg hcond] at hres ⊢
      dsimp only at hres ⊢
      obtain ⟨hA, hB, hC, hD⟩ := hwps hres
      refine ⟨hA, hB, hC, fun hall => ?_⟩
      have heps : epsAll = true := hD hall
      by_contra hcon
      exact hcond ⟨heps, hcon⟩

theorem prodFold_false (nt : Str) :
    ∀ (l : List Str) (m : SMap), 'e' ∈ alGetD m ['e'] [] →
      (l.foldl (firstProd nt) (m, false)).2 = false →
      alPres m (l.foldl (firstProd nt) (m, false)).1 ∧
      eRefl m (l.foldl (firstProd nt) (m, false)).1 ∧
      'e' ∈ alGetD (l.foldl (firstProd nt) (m, false)).1 ['e'] [] ∧
      (∀ p ∈ l, (∀ c ∈ p, 'e' ∈ alGetD m [c] []) →
        'e' ∈ alGetD (l.foldl (firstProd nt) (m, false)).1 nt []) := by
  intro l
  induction l with
  | nil =>
    intro m hek _
    exact ⟨alPres_refl m, eRefl_refl m, hek,
      fun p hp => absurd hp (List.not_mem_nil p)⟩
  | cons p rest ih =>
    intro m hek hres
    simp only [List.foldl_cons] at hres ⊢
    rcases hP : firstProd nt (m, false) p with ⟨mA, uA⟩
    rw [hP] at hres
    have huA : uA = false := by
      by_contra hcon
      have htrue : uA = true := Bool.ne_false_iff.mp hcon
      rw [htrue] at hres
      rw [prodFold_flag nt rest mA] at hres
      exact absurd hres (by simp)
    rw [huA] at hres ⊢
    have hps := firstProd_false nt p m hek (by rw [hP, huA])
    rw [hP] at hps
    dsimp only at hps
    obtain ⟨hpresP, hreflP, hekP, hclosedP⟩ := hps
    obtain ⟨hpresR, hreflR, hekR, hclosedR⟩ := ih mA hekP hres
    refine ⟨alPres_trans hpresP hpresR, eRefl_trans hreflP hreflR, hekR, ?_⟩
    intro q hq hall
    rcases List.mem_cons.mp hq with h1 | h1
    · subst h1
      exact alPres_e hpresR (hclosedP hall)
    · refine hclosedR q h1 ?_
      intro c hc
      exact alPres_e hpresP (hall c hc)

theorem passFold_false :
    ∀ (entries : List (Str × List Str)) (m : SMap), 'e' ∈ alGetD m ['e'] [] →
      (entries.foldl (fun mu entry => entry.2.foldl (firstProd entry.1) mu) (m, false)).2
        = false →
      alPres m (entries.foldl (fun mu entry =>
        entry.2.foldl (firstProd entry.1) mu) (m, false)).1 ∧
      eRefl m (entries.foldl (fun mu entry =>
        entry.2.foldl (firstProd entry.1) mu) (m, false)).1 ∧
      'e' ∈ alGetD (entries.foldl (fun mu entry =>
        entry.2.foldl (firstProd entry.1) mu) (m, false)).1 ['e'] [] ∧
      (∀ e ∈ entries, ∀ p ∈ e.2, (∀ c ∈ p, 'e' ∈ alGetD m [c] []) →
        'e' ∈ alGetD (entries.foldl (fun mu entry =>
          entry.2.foldl (firstProd entry.1) mu) (m, false)).1 e.1 []) := by
  intro entries
  induction entries with
  | nil =>
    intro m hek _
    exact ⟨alPres_refl m, eRefl_refl m, hek,
      fun e he => absurd he (List.not_mem_nil e)⟩
  | cons en rest ih =>
    intro m hek hres
    simp only [List.foldl_cons] at hres ⊢
    rcases hP : en.2.foldl (firstProd en.1) (m, false) with ⟨mA, uA⟩
    rw [hP] at hres
    have huA : uA = false := by
      by_contra hcon
      have htrue : uA = true := Bool.ne_false_iff.mp hcon
      rw [htrue] at hres
      rw [passFold_flag rest mA] at hres
      exact absurd hres (by simp)
    rw [huA] at hres ⊢
    have hps := prodFold_false en.1 en.2 m hek (by rw [hP, huA])
    rw [hP] at hps
    dsimp only at hps
    obtain ⟨hpresP, hreflP, hekP, hclosedP⟩ := hps
    obtain ⟨hpresR, hreflR, hekR, hclosedR⟩ := ih mA hekP hres
    refine ⟨alPres_trans hpresP hpresR, eRefl_trans hreflP hreflR, hekR, ?_⟩
    intro e he p hp hall
    rcases List.mem_cons.mp he with h1 | h1
    · subst h1
      exact alPres_e hpresR (hclosedP p hp hall)
    · refine hclosedR e h1 p hp ?_
      intro c hc
      exact alPres_e hpresP (hall c hc)

theorem get_first_set_closed (g : Grammar) (hwf : g.WF) (hntnd : g.non_terminals.Nodup) :
    ClosedE g g.get_first_set ∧ FInv g g.get_first_set ∧ SoundE g g.get_first_set := by
  obtain ⟨x, hx1, hx2, hpass, hfs1, hfs2⟩ := get_first_set_spec g hwf hntnd
  have hres : (g.productions.foldl (fun mu entry =>
      entry.2.foldl (firstProd entry.1) mu) (x, false)) = (g.get_first_set, false) := by
    unfold firstPass at hpass
    exact hpass
  obtain ⟨hpres, hrefl, hekf, hclosed⟩ := passFold_false g.productions x hx1.ekey
    (by rw [hres])
  rw [hres] at hpres hrefl hekf hclosed
  dsimp only at hpres hrefl hekf hclosed
  refine ⟨?_, hfs1, hfs2⟩
  intro nt ps p hmem hp hall
  have hall2 : ∀ c ∈ p, 'e' ∈ alGetD x [c] [] := by
    intro c hc
    exact hrefl [c] (hall c hc)
  exact hclosed (nt, ps) hmem p hp hall2

theorem NullK_first {g : Grammar} {fs : SMap} (hc : ClosedE g fs)
    (hek : 'e' ∈ alGetD fs ['e'] []) :
    ∀ {k : Str}, NullK g k → 'e' ∈ alGetD fs k [] := by
  intro k h
  induction h with
  | eps => exact hek
  | allNull nt ps p h1 h2 h3 ih => exact hc nt ps p h1 h2 (fun c hcp => ih c hcp)

theorem mem_addNew_elim [DecidableEq α] {l : List α} {t x : α}
    (h : x ∈ addNew l t) : x ∈ l ∨ x = t := by
  unfold addNew at h
  by_cases hm : t ∈ l
  · rw [if_pos hm] at h
    exact Or.inl h
  · rw [if_neg hm] at h
    rcases List.mem_append.mp h with h1 | h1
    · exact Or.inl h1
    · rw [List.mem_singleton] at h1
      exact Or.inr h1

theorem FolInv_getnd {g : Grammar} {m : SMap} (hm : FolInv g m) (k : Str) :
    (alGetD m k []).Nodup := by
  rcases hl : alLookup m k with _ | v
  · unfold alGetD
    rw [hl]
    exact List.nodup_nil
  · rw [alGetD_of_lookup hl]
    exact hm.valnd (k, v) (alLookup_mem hl)

theorem FolInv_getsub {g : Grammar} {m : SMap} (hm : FolInv g m) (k : Str) :
    ∀ x ∈ alGetD m k [], x ∈ folValU g := by
  rcases hl : alLookup m k with _ | v
  · unfold alGetD
    rw [hl]
    intro x hx
    exact absurd hx (List.not_mem_nil x)
  · rw [alGetD_of_lookup hl]
    exact hm.valsub (k, v) (alLookup_mem hl)

theorem folAddFold_spec (g : Grammar) {k : Str} (hk : k ∈ folKeyU g) :
    ∀ (src : CSet) (m : SMap) (u : Bool),
      (∀ x ∈ src, x ∈ folValU g) → FolInv g m →
      FolInv g (src.foldl (fun acc t =>
          if t ∉ alGetD acc.1 k [] then (alSet acc.1 k (alGetD acc.1 k [] ++ [t]), true)
          else acc) (m, u)).1 ∧
      smapSize m ≤ smapSize (src.foldl (fun acc t =>
          if t ∉ alGetD acc.1 k [] then (alSet acc.1 k (alGetD acc.1 k [] ++ [t]), true)
          else acc) (m, u)).1 ∧
      ((src.foldl (fun acc t =>
          if t ∉ alGetD acc.1 k [] then (alSet acc.1 k (alGetD acc.1 k [] ++ [t]), true)
          else acc) (m, u)).2 = true → u = true ∨
        smapSize m + 1 ≤ smapSize (src.foldl (fun acc t =>
          if t ∉ alGetD acc.1 k [] then (alSet acc.1 k (alGetD acc.1 k [] ++ [t]), true)
          else acc) (m, u)).1) := by
  intro src
  induction src with
  | nil =>
    intro m u _ hm
    exact ⟨hm, le_refl _, fun h => Or.inl h⟩
  | cons t rest ih =>
    intro m u hsrc hm
    simp only [List.foldl_cons]
    by_cases hc : t ∉ alGetD m k []
    · rw [if_pos hc]
      have hnew : FolInv g (alSet m k (alGetD m k [] ++ [t])) := by
        refine ⟨alSet_keys_nodup m k _ hm.keysnd, ?_, ?_, ?_⟩
        · intro e he
          rcases mem_alSet m k _ e he with h1 | h1
          · rw [h1]
            exact hk
          · exact hm.keysub e h1
        · intro e he
          rcases mem_alSet m k _ e he with h1 | h1
          · rw [h1]
            refine List.Nodup.append (FolInv_getnd hm k) (List.nodup_singleton t) ?_
            intro a ha hat
            rw [List.mem_singleton] at hat
            exact hc (hat ▸ ha)
          · exact hm.valnd e h1
        · intro e he x hx
          rcases mem_alSet m k _ e he with h1 | h1
          · rw [h1] at hx
            rcases List.mem_append.mp hx with h2 | h2
            · exact FolInv_getsub hm k x h2
            · rw [List.mem_singleton] at h2
              exact h2 ▸ hsrc t (List.mem_cons_self t rest)
          · exact hm.valsub e h1 x hx
      have hsz : smapSize (alSet m k (alGetD m k [] ++ [t])) = smapSize m + 1 :=
        smapSize_alSet_append m k t
      obtain ⟨hA, hC, hD⟩ := ih (alSet m k (alGetD m k [] ++ [t])) true
        (fun x hx => hsrc x (List.mem_cons_of_mem t hx)) hnew
      exact ⟨hA, by omega, fun _ => Or.inr (by omega)⟩
    · rw [if_neg hc]
      exact ih m u (fun x hx => hsrc x (List.mem_cons_of_mem t hx)) hm

theorem followAddAll_spec (g : Grammar) {k : Str} (hk : k ∈ folKeyU g)
    (m : SMap) (src : CSet) (hsrc : ∀ x ∈ src, x ∈ folValU g) (hm : FolInv g m) :
    FolInv g (followAddAll m k src).1 ∧
    smapSize m ≤ smapSize (followAddAll m k src).1 ∧
    ((followAddAll m k src).2 = true →
      smapSize m + 1 ≤ smapSize (followAddAll m k src).1) := by
  unfold followAddAll
  obtain ⟨hA, hC, hD⟩ := folAddFold_spec g hk src m false hsrc hm
  refine ⟨hA, hC, fun h => ?_⟩
  rcases hD h with h1 | h1
  · exact absurd h1 (by simp)
  · exact h1

theorem folAddFold_flag {k : Str} :
    ∀ (src : CSet) (m : SMap),
      (src.foldl (fun acc t =>
        if t ∉ alGetD acc.1 k [] then (alSet acc.1 k (alGetD acc.1 k [] ++ [t]), true)
        else acc) (m, true)).2 = true := by
  intro src
  induction src with
  | nil => intro m; rfl
  | cons t rest ih =>
    intro m
    simp only [List.foldl_cons]
    by_cases hc : t ∉ alGetD m k []
    · rw [if_pos hc]
      exact ih _
    · rw [if_neg hc]
      exact ih m

theorem folAddFold_false {k : Str} :
    ∀ (src : CSet) (m : SMap),
      (src.foldl (fun acc t =>
        if t ∉ alGetD acc.1 k [] then (alSet acc.1 k (alGetD acc.1 k [] ++ [t]), true)
        else acc) (m, false)).2 = false →
      (src.foldl (fun acc t =>
        if t ∉ alGetD acc.1 k [] then (alSet acc.1 k (alGetD acc.1 k [] ++ [t]), true)
        else acc) (m, false)).1 = m ∧ ∀ t ∈ src, t ∈ alGetD m k [] := by
  intro src
  induction src with
  | nil =>
    intro m _
    exact ⟨rfl, fun t ht => absurd ht (List.not_mem_nil t)⟩
  | cons t rest ih =>
    intro m h
    simp only [List.foldl_cons] at h ⊢
    by_cases hc : t ∉ alGetD m k []
    · rw [if_pos hc] at h
      exact absurd (folAddFold_flag rest _) (by rw [h]; simp)
    · rw [if_neg hc] at h ⊢
      obtain ⟨h1, h2⟩ := ih m h
      refine ⟨h1, ?_⟩
      intro t2 ht2
      rcases List.mem_cons.mp ht2 with h3 | h3
      · rw [h3]
        by_contra hcon
        exact hc hcon
      · exact h2 t2 h3

theorem followAddAll_false {m : SMap} {k : Str} {src : CSet}
    (h : (followAddAll m k src).2 = false) :
    (followAddAll m k src).1 = m ∧ ∀ t ∈ src, t ∈ alGetD m k [] := by
  unfold followAddAll at h ⊢
  exact folAddFold_false src m h

theorem nefold_sub {P : Char → Prop} :
    ∀ (s : CSet) (acc : CSet), (∀ x ∈ acc, P x) → (∀ t ∈ s, t ≠ 'e' → P t) →
      ∀ x ∈ s.foldl (fun a t => if t ≠ 'e' then addNew a t else a) acc, P x := by
  intro s
  induction s with
  | nil => intro acc hacc _ x hx; exact hacc x hx
  | cons t rest ih =>
    intro acc hacc hs x hx
    simp only [List.foldl_cons] at hx
    by_cases ht : t ≠ 'e'
    · rw [if_pos ht] at hx
      refine ih (addNew acc t) ?_ (fun t2 ht2 => hs t2 (List.mem_cons_of_mem t ht2)) x hx
      intro y hy
      rcases mem_addNew_elim hy with h1 | h1
      · exact hacc y h1
      · exact h1 ▸ hs t (List.mem_cons_self t rest) ht
    · rw [if_neg ht] at hx
      exact ih acc hacc (fun t2 ht2 => hs t2 (List.mem_cons_of_mem t ht2)) x hx

theorem followFirstRest_sub (g : Grammar) (fs : SMap)
    (hfs : ∀ k x, x ∈ alGetD fs k [] → x ∈ fValU g) :
    ∀ (p : Str) (acc : CSet), (∀ c ∈ p, c ∈ g.symChars) →
      (∀ x ∈ acc, x ∈ folValU g) →
      ∀ x ∈ (followFirstRest fs p acc).1, x ∈ folValU g := by
  intro p
  induction p with
  | nil => intro acc _ hacc x hx; exact hacc x hx
  | cons c rest ih =>
    intro acc hchars hacc x hx
    unfold followFirstRest at hx
    have hval : ∀ t ∈ alGetD fs [c] [], t ≠ 'e' → t ∈ folValU g := by
      intro t ht hte
      have h2 := hfs [c] t ht
      unfold fValU at h2
      rcases List.mem_cons.mp h2 with h3 | h3
      · exact absurd h3 hte
      · unfold folValU
        exact List.mem_cons_of_mem _ h3
    rcases hl : alLookup fs [c] with _ | s
    · rw [hl] at hx
      by_cases hu : c.isUpper
      · rw [if_pos hu] at hx
        exact ih acc (fun d hd => hchars d (List.mem_cons_of_mem c hd)) hacc x hx
      · rw [if_neg hu] at hx
        dsimp only at hx
        rcases mem_addNew_elim hx with h1 | h1
        · exact hacc x h1
        · unfold folValU
          refine List.mem_cons_of_mem _ (List.mem_append_right _ ?_)
          exact h1 ▸ hchars c (List.mem_cons_self c rest)
    · rw [hl] at hx
      dsimp only at hx
      have hv2 : ∀ t ∈ s, t ≠ 'e' → t ∈ folValU g := by
        intro t ht hte
        refine hval t ?_ hte
        rw [alGetD_of_lookup hl]
        exact ht
      have hacc1 : ∀ y ∈ s.foldl (fun a t => if t ≠ 'e' then addNew a t else a) acc,
          y ∈ folValU g := nefold_sub s acc hacc hv2
      by_cases he : 'e' ∈ s
      · rw [if_pos he] at hx
        exact ih _ (fun d hd => hchars d (List.mem_cons_of_mem c hd)) hacc1 x hx
      · rw [if_neg he] at hx
        exact hacc1 x hx

theorem followFirstRest_e (fs : SMap) :
    ∀ (p : Str), (∀ d ∈ p, 'e' ∈ alGetD fs [d] []) →
      ∀ (acc : CSet), (followFirstRest fs p acc).2 = true := by
  intro p
  induction p with
  | nil => intro _ acc; rfl
  | cons d rest ih =>
    intro hall acc
    have hd := hall d (List.mem_cons_self d rest)
    have hls : (alLookup fs [d]).isSome := mem_alGetD_isSome hd
    rcases hl : alLookup fs [d] with _ | s
    · rw [hl] at hls
      exact absurd hls (by simp)
    · unfold followFirstRest
      rw [hl]
      dsimp only
      have hes : 'e' ∈ s := by
        rw [alGetD_of_lookup hl] at hd
        exact hd
      rw [if_pos hes]
      exact ih (fun d2 hd2 => hall d2 (List.mem_cons_of_mem d hd2)) _

theorem followStep_flag {nt : Str} (fs : SMap) :
    ∀ (p : Str) (m : SMap), (followStep nt fs (m, true) p).2 = true := by
  intro p
  induction p with
  | nil => intro m; rfl
  | cons d rest ih =>
    intro m
    unfold followStep
    dsimp only
    by_cases hu : d.isUpper = true
    · rw [if_pos hu]
      by_cases hrest : rest ≠ []
      · rw [if_pos hrest]
        simp only [Bool.true_or]
        exact ih _
      · rw [if_neg hrest]
        simp only [Bool.true_or]
        exact ih _
    · rw [if_neg hu]
      exact ih m

theorem followStep_specA (g : Grammar) {nt : Str} (fs : SMap)
    (hfs : ∀ k x, x ∈ alGetD fs k [] → x ∈ fValU g) :
    ∀ (p : Str) (m : SMap) (u : Bool),
      (∀ c ∈ p, c ∈ g.symChars) → FolInv g m →
      FolInv g (followStep nt fs (m, u) p).1 ∧
      smapSize m ≤ smapSize (followStep nt fs (m, u) p).1 ∧
      ((followStep nt fs (m, u) p).2 = true → u = true ∨
        smapSize m + 1 ≤ smapSize (followStep nt fs (m, u) p).1) := by
  intro p
  induction p with
  | nil =>
    intro m u _ hm
    exact ⟨hm, le_refl _, fun h => Or.inl h⟩
  | cons d rest ih =>
    intro m u hchars hm
    have hrestchars : ∀ c ∈ rest, c ∈ g.symChars :=
      fun c hc => hchars c (List.mem_cons_of_mem d hc)
    unfold followStep
    dsimp only
    by_cases hu : d.isUpper = true
    · rw [if_pos hu]
      have hdk : ([d] : Str) ∈ folKeyU g := by
        unfold folKeyU
        exact List.mem_cons_of_mem _ (List.mem_append_right _
          (List.mem_map_of_mem _ (hchars d (List.mem_cons_self d rest))))
      by_cases hrest : rest ≠ []
      · rw [if_pos hrest]
        have hfrsub : ∀ x ∈ (followFirstRest fs rest []).1, x ∈ folValU g :=
          followFirstRest_sub g fs hfs rest [] hrestchars
            (fun x hx => absurd hx (List.not_mem_nil x))
        obtain ⟨hA1, hC1, hD1⟩ := followAddAll_spec g hdk m
          (followFirstRest fs rest []).1 hfrsub hm
        by_cases hfr2 : (followFirstRest fs rest []).2 = true
        · rw [if_pos hfr2]
          obtain ⟨hA2, hC2, hD2⟩ := followAddAll_spec g hdk
            (followAddAll m [d] (followFirstRest fs rest []).1).1
            (alGetD (followAddAll m [d] (followFirstRest fs rest []).1).1 nt [])
            (FolInv_getsub hA1 nt) hA1
          obtain ⟨hA3, hC3, hD3⟩ := ih _ _ hrestchars hA2
          refine ⟨hA3, by omega, fun h => ?_⟩
          rcases hD3 h with h1 | h1
          · rcases bor_elim h1 with h2 | h2
            · rcases bor_elim h2 with h3 | h3
              · exact Or.inl h3
              · have h4 := hD1 h3
                exact Or.inr (by omega)
            · have h4 := hD2 h2
              exact Or.inr (by omega)
          · exact Or.inr (by omega)
        · rw [if_neg hfr2]
          dsimp only
          obtain ⟨hA3, hC3, hD3⟩ := ih _ _ hrestchars hA1
          refine ⟨hA3, by omega, fun h => ?_⟩
          rcases hD3 h with h1 | h1
          · rcases bor_elim h1 with h2 | h2
            · rcases bor_elim h2 with h3 | h3
              · exact Or.inl h3
              · have h4 := hD1 h3
                exact Or.inr (by omega)
            · exact absurd h2 (by simp)
          · exact Or.inr (by omega)
      · rw [if_neg hrest]
        obtain ⟨hA1, hC1, hD1⟩ := followAddAll_spec g hdk m (alGetD m nt [])
          (FolInv_getsub hm nt) hm
        obtain ⟨hA3, hC3, hD3⟩ := ih _ _ hrestchars hA1
        refine ⟨hA3, by omega, fun h => ?_⟩
        rcases hD3 h with h1 | h1
        · rcases bor_elim h1 with h2 | h2
          · exact Or.inl h2
          · have h4 := hD1 h2
            exact Or.inr (by omega)
        · exact Or.inr (by omega)
    · rw [if_neg hu]
      exact ih m u hrestchars hm

theorem followStep_false {nt : Str} (fs : SMap) :
    ∀ (p : Str) (m : SMap), (followStep nt fs (m, false) p).2 = false →
      (followStep nt fs (m, false) p).1 = m ∧
      (∀ (l : Str) (c : Char) (r : Str), p = l ++ c :: r → c.isUpper = true →
        (followFirstRest fs r []).2 = true →
        ∀ t ∈ alGetD m nt [], t ∈ alGetD m [c] []) := by
  intro p
  induction p with
  | nil =>
    intro m _
    refine ⟨rfl, fun l c r heq => ?_⟩
    exact absurd heq (by simp)
  | cons d rest ih =>
    intro m h
    unfold followStep at h ⊢
    dsimp only at h ⊢
    by_cases hu : d.isUpper = true
    · rw [if_pos hu] at h ⊢
      by_cases hrest : rest ≠ []
      · rw [if_pos hrest] at h ⊢
        by_cases hfr2 : (followFirstRest fs rest []).2 = true
        · rw [if_pos hfr2] at h ⊢
          have hflag : (false || (followAddAll m [d] (followFirstRest fs rest []).1).2 ||
              (followAddAll (followAddAll m [d] (followFirstRest fs rest []).1).1 [d]
                (alGetD (followAddAll m [d] (followFirstRest fs rest []).1).1 nt [])).2)
              = false := by
            by_contra hcon
            rw [Bool.ne_false_iff.mp hcon] at h
            rw [followStep_flag fs rest _] at h
            exact absurd h (by simp)
          have hsplit : (followAddAll m [d] (followFirstRest fs rest []).1).2 = false ∧
              (followAddAll (followAddAll m [d] (followFirstRest fs rest []).1).1 [d]
                (alGetD (followAddAll m [d] (followFirstRest fs rest []).1).1 nt [])).2
              = false := by
            simpa using hflag
          obtain ⟨hf1, hf2⟩ := hsplit
          obtain ⟨hr11, _⟩ := followAddAll_false hf1
          rw [hr11] at hf2 h ⊢
          obtain ⟨hr21, hmem2⟩ := followAddAll_false hf2
          rw [hf1, hf2, hr21] at h ⊢
          simp only [Bool.or_false] at h ⊢
          obtain ⟨hmapIH, hposIH⟩ := ih m h
          refine ⟨hmapIH, ?_⟩
          intro l c r heq hupper hfr
          rcases l with _ | ⟨x, l2⟩
          · rw [List.nil_append] at heq
            have hdc : d = c := List.head_eq_of_cons_eq heq
            have hrr : rest = r := List.tail_eq_of_cons_eq heq
            intro t ht
            rw [← hdc]
            exact hmem2 t ht
          · rw [List.cons_append] at heq
            have hrr : rest = l2 ++ c :: r := List.tail_eq_of_cons_eq heq
            exact hposIH l2 c r hrr hupper hfr
        · rw [if_neg hfr2] at h ⊢
          dsimp only at h ⊢
          have hflag : (false || (followAddAll m [d] (followFirstRest fs rest []).1).2 ||
              false) = false := by
            by_contra hcon
            rw [Bool.ne_false_iff.mp hcon] at h
            rw [followStep_flag fs rest _] at h
            exact absurd h (by simp)
          have hf1 : (followAddAll m [d] (followFirstRest fs rest []).1).2 = false := by
            simpa using hflag
          obtain ⟨hr11, _⟩ := followAddAll_false hf1
          rw [hf1, hr11] at h ⊢
          simp only [Bool.or_false] at h ⊢
          obtain ⟨hmapIH, hposIH⟩ := ih m h
          refine ⟨hmapIH, ?_⟩
          intro l c r heq hupper hfr
          rcases l with _ | ⟨x, l2⟩
          · rw [List.nil_append] at heq
            have hrr : rest = r := List.tail_eq_of_cons_eq heq
            rw [← hrr] at hfr
            exact absurd hfr hfr2
          · rw [List.cons_append] at heq
            have hrr : rest = l2 ++ c :: r := List.tail_eq_of_cons_eq heq
            exact hposIH l2 c r hrr hupper hfr
      · rw [if_neg hrest] at h ⊢
        have hrnil : rest = [] := not_not.mp hrest
        subst hrnil
        have hflag : (false || (followAddAll m [d] (alGetD m nt [])).2) = false := h
        have hf1 : (followAddAll m [d] (alGetD m nt [])).2 = false := by
          simpa using hflag
        obtain ⟨hr11, hmem1⟩ := followAddAll_false hf1
        refine ⟨hr11, ?_⟩
        intro l c r heq hupper hfr
        rcases l with _ | ⟨x, l2⟩
        · rw [List.nil_append] at heq
          have hdc : d = c := List.head_eq_of_cons_eq heq
          intro t ht
          rw [← hdc]
          exact hmem1 t ht
        · rw [List.cons_append] at heq
          have hrr : ([] : Str) = l2 ++ c :: r := List.tail_eq_of_cons_eq heq
          exact absurd hrr (by simp)
    · rw [if_neg hu] at h ⊢
      obtain ⟨hmapIH, hposIH⟩ := ih m h
      refine ⟨hmapIH, ?_⟩
      intro l c r heq hupper hfr
      rcases l with _ | ⟨x, l2⟩
      · rw [List.nil_append] at heq
        have hdc : d = c := List.head_eq_of_cons_eq heq
        rw [← hdc] at hupper
        exact absurd hupper hu
      · rw [List.cons_append] at heq
        have hrr : rest = l2 ++ c :: r := List.tail_eq_of_cons_eq heq
        exact hposIH l2 c r hrr hupper hfr

theorem folProdFoldA (g : Grammar) {nt : Str} (fs : SMap)
    (hfs : ∀ k x, x ∈ alGetD fs k [] → x ∈ fValU g) :
    ∀ (l : List Str), (∀ p ∈ l, ∀ c ∈ p, c ∈ g.symChars) →
      ∀ (m : SMap) (u : Bool), FolInv g m →
      FolInv g (l.foldl (fun mu2 p =>
        if p = ['e'] then mu2 else followStep nt fs mu2 p) (m, u)).1 ∧
      smapSize m ≤ smapSize (l.foldl (fun mu2 p =>
        if p = ['e'] then mu2 else followStep nt fs mu2 p) (m, u)).1 ∧
      ((l.foldl (fun mu2 p =>
        if p = ['e'] then mu2 else followStep nt fs mu2 p) (m, u)).2 = true →
        u = true ∨ smapSize m + 1 ≤ smapSize (l.foldl (fun mu2 p =>
          if p = ['e'] then mu2 else followStep nt fs mu2 p) (m, u)).1) := by
  intro l
  induction l with
  | nil =>
    intro _ m u hm
    exact ⟨hm, le_refl _, fun h => Or.inl h⟩
  | cons p rest ih =>
    intro hl m u hm
    simp only [List.foldl_cons]
    by_cases hpe : p = ['e']
    · rw [if_pos hpe]
      exact ih (fun q hq => hl q (List.mem_cons_of_mem p hq)) m u hm
    · rw [if_neg hpe]
      obtain ⟨hA, hC, hD⟩ := followStep_specA g fs hfs p m u
        (hl p (List.mem_cons_self p rest)) hm
      rcases hP : followStep nt fs (m, u) p with ⟨mA, uA⟩
      rw [hP] at hA hC hD
      dsimp only at hA hC hD
      obtain ⟨hA2, hC2, hD2⟩ := ih (fun q hq => hl q (List.mem_cons_of_mem p hq)) mA uA hA
      refine ⟨hA2, by omega, fun h => ?_⟩
      rcases hD2 h with h1 | h1
      · rcases hD h1 with h2 | h2
        · exact Or.inl h2
        · exact Or.inr (by omega)
      · exact Or.inr (by omega)

theorem folProdFold_flag {nt : Str} (fs : SMap) :
    ∀ (l : List Str) (m : SMap),
      (l.foldl (fun mu2 p =>
        if p = ['e'] then mu2 else followStep nt fs mu2 p) (m, true)).2 = true := by
  intro l
  induction l with
  | nil => intro m; rfl
  | cons p rest ih =>
    intro m
    simp only [List.foldl_cons]
    by_cases hpe : p = ['e']
    · rw [if_pos hpe]
      exact ih m
    · rw [if_neg hpe]
      have h1 := @followStep_flag nt fs p m
      rcases hP : followStep nt fs (m, true) p with ⟨mA, uA⟩
      rw [hP] at h1
      dsimp only at h1
      rw [h1]
      exact ih mA

theorem folProdFold_false {nt : Str} (fs : SMap) :
    ∀ (l : List Str) (m : SMap),
      (l.foldl (fun mu2 p =>
        if p = ['e'] then mu2 else followStep nt fs mu2 p) (m, false)).2 = false →
      (l.foldl (fun mu2 p =>
        if p = ['e'] then mu2 else followStep nt fs mu2 p) (m, false)).1 = m ∧
      (∀ p ∈ l, ¬ p = ['e'] →
        ∀ (l2 : Str) (c : Char) (r : Str), p = l2 ++ c :: r → c.isUpper = true →
          (followFirstRest fs r []).2 = true →
          ∀ t ∈ alGetD m nt [], t ∈ alGetD m [c] []) := by
  intro l
  induction l with
  | nil =>
    intro m _
    exact ⟨rfl, fun p hp => absurd hp (List.not_mem_nil p)⟩
  | cons p rest ih =>
    intro m h
    simp only [List.foldl_cons] at h ⊢
    by_cases hpe : p = ['e']
    · rw [if_pos hpe] at h ⊢
      obtain ⟨h1, h2⟩ := ih m h
      refine ⟨h1, ?_⟩
      intro q hq hqe
      rcases List.mem_cons.mp hq with h3 | h3
      · exact absurd (h3 ▸ hpe) hqe
      · exact h2 q h3 hqe
    · rw [if_neg hpe] at h ⊢
      rcases hP : followStep nt fs (m, false) p with ⟨mA, uA⟩
      rw [hP] at h
      have huA : uA = false := by
        by_contra hcon
        rw [Bool.ne_false_iff.mp hcon] at h
        rw [folProdFold_flag fs rest mA] at h
        exact absurd h (by simp)
      rw [huA] at h
      have hstep := followStep_false fs p m (by rw [hP, huA])
      rw [hP] at hstep
      dsimp only at hstep
      obtain ⟨hmA, hpos⟩ := hstep
      rw [hmA] at h
      obtain ⟨h1, h2⟩ := ih m h
      rw [huA, hmA]
      refine ⟨h1, ?_⟩
      intro q hq hqe
      rcases List.mem_cons.mp hq with h3 | h3
      · exact h3 ▸ hpos
      · exact h2 q h3 hqe

theorem folPassFoldA (g : Grammar) (fs : SMap)
    (hfs : ∀ k x, x ∈ alGetD fs k [] → x ∈ fValU g) :
    ∀ (entries : List (Str × List Str)), (∀ e ∈ entries, e ∈ g.productions) →
      ∀ (m : SMap) (u : Bool), FolInv g m →
      FolInv g (entries.foldl (fun mu entry => entry.2.foldl (fun mu2 p =>
        if p = ['e'] then mu2 else followStep entry.1 fs mu2 p) mu) (m, u)).1 ∧
      smapSize m ≤ smapSize (entries.foldl (fun mu entry => entry.2.foldl (fun mu2 p =>
        if p = ['e'] then mu2 else followStep entry.1 fs mu2 p) mu) (m, u)).1 ∧
      ((entries.foldl (fun mu entry => entry.2.foldl (fun mu2 p =>
        if p = ['e'] then mu2 else followStep entry.1 fs mu2 p) mu) (m, u)).2 = true →
        u = true ∨ smapSize m + 1 ≤ smapSize (entries.foldl (fun mu entry =>
          entry.2.foldl (fun mu2 p =>
            if p = ['e'] then mu2 else followStep entry.1 fs mu2 p) mu) (m, u)).1) := by
  intro entries
  induction entries with
  | nil =>
    intro _ m u hm
    exact ⟨hm, le_refl _, fun h => Or.inl h⟩
  | cons en rest ih =>
    intro hent m u hm
    simp only [List.foldl_cons]
    have hej : (en.1, en.2) ∈ g.productions := hent en (List.mem_cons_self en rest)
    have hchars : ∀ p ∈ en.2, ∀ c ∈ p, c ∈ g.symChars :=
      fun p hp c hc => mem_symChars hej hp hc
    obtain ⟨hA, hC, hD⟩ := folProdFoldA g fs hfs en.2 hchars m u hm
    rcases hP : en.2.foldl (fun mu2 p =>
        if p = ['e'] then mu2 else followStep en.1 fs mu2 p) (m, u) with ⟨mA, uA⟩
    rw [hP] at hA hC hD
    dsimp only at hA hC hD
    obtain ⟨hA2, hC2, hD2⟩ := ih (fun e2 he2 => hent e2 (List.mem_cons_of_mem en he2))
      mA uA hA
    refine ⟨hA2, by omega, fun h => ?_⟩
    rcases hD2 h with h1 | h1
    · rcases hD h1 with h2 | h2
      · exact Or.inl h2
      · exact Or.inr (by omega)
    · exact Or.inr (by omega)

theorem folPassFold_flag (fs : SMap) :
    ∀ (entries : List (Str × List Str)) (m : SMap),
      (entries.foldl (fun mu entry => entry.2.foldl (fun mu2 p =>
        if p = ['e'] then mu2 else followStep entry.1 fs mu2 p) mu) (m, true)).2
        = true := by
  intro entries
  induction entries with
  | nil => intro m; rfl
  | cons en rest ih =>
    intro m
    simp only [List.foldl_cons]
    have h1 := @folProdFold_flag en.1 fs en.2 m
    rcases hP : en.2.foldl (fun mu2 p =>
        if p = ['e'] then mu2 else followStep en.1 fs mu2 p) (m, true) with ⟨mA, uA⟩
    rw [hP] at h1
    dsimp only at h1
    rw [h1]
    exact ih mA

theorem folPassFold_false (fs : SMap) :
    ∀ (entries : List (Str × List Str)) (m : SMap),
      (entries.foldl (fun mu entry => entry.2.foldl (fun mu2 p =>
        if p = ['e'] then mu2 else followStep entry.1 fs mu2 p) mu) (m, false)).2
        = false →
      (entries.foldl (fun mu entry => entry.2.foldl (fun mu2 p =>
        if p = ['e'] then mu2 else followStep entry.1 fs mu2 p) mu) (m, false)).1 = m ∧
      (∀ e ∈ entries, ∀ p ∈ e.2, ¬ p = ['e'] →
        ∀ (l2 : Str) (c : Char) (r : Str), p = l2 ++ c :: r → c.isUpper = true →
          (followFirstRest fs r []).2 = true →
          ∀ t ∈ alGetD m e.1 [], t ∈ alGetD m [c] []) := by
  intro entries
  induction entries with
  | nil =>
    intro m _
    exact ⟨rfl, fun e he => absurd he (List.not_mem_nil e)⟩
  | cons en rest ih =>
    intro m h
    simp only [List.foldl_cons] at h ⊢
    rcases hP : en.2.foldl (fun mu2 p =>
        if p = ['e'] then mu2 else followStep en.1 fs mu2 p) (m, false) with ⟨mA, uA⟩
    rw [hP] at h
    have huA : uA = false := by
      by_contra hcon
      rw [Bool.ne_false_iff.mp hcon] at h
      rw [folPassFold_flag fs rest mA] at h
      exact absurd h (by simp)
    rw [huA] at h
    have hinner := folProdFold_false fs en.2 m (by rw [hP, huA])
    rw [hP] at hinner
    dsimp only at hinner
    obtain ⟨hmA, hpos⟩ := hinner
    rw [hmA] at h
    obtain ⟨h1, h2⟩ := ih m h
    rw [huA, hmA]
    refine ⟨h1, ?_⟩
    intro e he p hp hpe
    rcases List.mem_cons.mp he with h3 | h3
    · subst h3
      exact hpos p hp hpe
    · exact h2 e h3 p hp hpe

theorem followPass_specA (g : Grammar) (fs : SMap)
    (hfs : ∀ k x, x ∈ alGetD fs k [] → x ∈ fValU g)
    (m : SMap) (hm : FolInv g m) :
    FolInv g (followPass g fs m).1 ∧
    smapSize m ≤ smapSize (followPass g fs m).1 ∧
    ((followPass g fs m).2 = true → smapSize m + 1 ≤ smapSize (followPass g fs m).1) := by
  unfold followPass
  obtain ⟨hA, hC, hD⟩ := folPassFoldA g fs hfs g.productions (fun e he => he) m false hm
  refine ⟨hA, hC, fun h => ?_⟩
  rcases hD h with h1 | h1
  · exact absurd h1 (by simp)
  · exact h1

theorem followPass_false_spec (g : Grammar) (fs : SMap) (m : SMap)
    (h : (followPass g fs m).2 = false) :
    (followPass g fs m).1 = m ∧
    (∀ e ∈ g.productions, ∀ p ∈ e.2, ¬ p = ['e'] →
      ∀ (l2 : Str) (c : Char) (r : Str), p = l2 ++ c :: r → c.isUpper = true →
        (followFirstRest fs r []).2 = true →
        ∀ t ∈ alGetD m e.1 [], t ∈ alGetD m [c] []) := by
  unfold followPass at h ⊢
  exact folPassFold_false fs g.productions m h

theorem ntmap_lookup {l : List Str} {k : Str} {v : CSet}
    (h : alLookup (l.map (fun nt => (nt, ([] : CSet)))) k = some v) : v = [] := by
  have hmem := alLookup_mem h
  obtain ⟨nt, _, hent⟩ := List.mem_map.mp hmem
  exact (congrArg Prod.snd hent).symm

theorem get_follow_set_closed (g : Grammar) (fs : SMap)
    (hntnd : g.non_terminals.Nodup)
    (hfs : ∀ k x, x ∈ alGetD fs k [] → x ∈ fValU g)
    {fol : SMap} (h : g.get_follow_set fs = some fol) :
    '$' ∈ alGetD fol g.start_symbol [] ∧
    followPass g fs fol = (fol, false) ∧
    (∀ nt ps p, (nt, ps) ∈ g.productions → p ∈ ps → ¬ p = ['e'] →
      ∀ (l2 : Str) (c : Char) (r : Str), p = l2 ++ c :: r → c.isUpper = true →
        (followFirstRest fs r []).2 = true →
        ∀ t ∈ alGetD fol nt [], t ∈ alGetD fol [c] []) := by
  unfold Grammar.get_follow_set at h
  dsimp only at h
  rcases hcur : alLookup (g.non_terminals.map (fun nt => (nt, ([] : CSet))))
      g.start_symbol with _ | cur
  · rw [hcur] at h
    exact absurd h (by simp)
  rw [hcur] at h
  have hfol : fixLoop (followPass g fs) g.followFuel
      (alSet (g.non_terminals.map (fun nt => (nt, ([] : CSet)))) g.start_symbol
        (addNew cur '$')) = fol := Option.some.inj h
  have hcurnil : cur = [] := ntmap_lookup hcur
  subst hcurnil
  have hseed0 : '$' ∈ alGetD (alSet (g.non_terminals.map (fun nt => (nt, ([] : CSet))))
      g.start_symbol (addNew [] '$')) g.start_symbol [] := by
    rw [alGetD_alSet_self]
    exact mem_addNew_self [] '$'
  have hseed : '$' ∈ alGetD fol g.start_symbol [] := by
    rw [← hfol]
    exact fixLoop_smapLE (fun m2 => followPass_mono g fs m2) g.followFuel _
      g.start_symbol '$' hseed0
  have hco : (g.non_terminals.map (fun nt => (nt, ([] : CSet)))).map Prod.fst
      = g.non_terminals := by
    induction g.non_terminals with
    | nil => rfl
    | cons a l ih => simp only [List.map_cons, ih]
  have hinit : FolInv g (alSet (g.non_terminals.map (fun nt => (nt, ([] : CSet))))
      g.start_symbol (addNew [] '$')) := by
    refine ⟨?_, ?_, ?_, ?_⟩
    · refine alSet_keys_nodup _ _ _ ?_
      rw [hco]
      exact hntnd
    · intro e he
      rcases mem_alSet _ _ _ e he with h1 | h1
      · rw [h1]
        exact List.mem_cons_self _ _
      · obtain ⟨nt, hnt, hent⟩ := List.mem_map.mp h1
        unfold folKeyU
        refine List.mem_cons_of_mem _ (List.mem_append_left _ ?_)
        rw [← hent]
        exact hnt
    · intro e he
      rcases mem_alSet _ _ _ e he with h1 | h1
      · rw [h1]
        exact List.nodup_singleton '$'
      · obtain ⟨nt, _, hent⟩ := List.mem_map.mp h1
        rw [← hent]
        exact List.nodup_nil
    · intro e he x hx
      have haddnew : addNew ([] : CSet) '$' = ['$'] := rfl
      rcases mem_alSet _ _ _ e he with h1 | h1
      · rw [h1] at hx
        dsimp only at hx
        rw [haddnew, List.mem_singleton] at hx
        rw [hx]
        exact List.mem_cons_self _ _
      · obtain ⟨nt, _, hent⟩ := List.mem_map.mp h1
        rw [← hent] at hx
        exact absurd hx (List.not_mem_nil x)
  have hstep : ∀ x, FolInv g x →
      FolInv g (followPass g fs x).1 ∧
      smapSize x ≤ smapSize (followPass g fs x).1 ∧
      ((followPass g fs x).2 = true → smapSize x + 1 ≤ smapSize (followPass g fs x).1) ∧
      smapSize x ≤ (folKeyU g).length * (folValU g).length := by
    intro x hx
    obtain ⟨hA, hC, hD⟩ := followPass_specA g fs hfs x hx
    refine ⟨hA, hC, hD, ?_⟩
    exact smapSize_le x (folKeyU g) (folValU g).length hx.keysnd hx.keysub
      (fun e he => nodup_sub_len (hx.valnd e he) (fun y hy => hx.valsub e he y hy))
  have hk : (folKeyU g).length = g.non_terminals.length + g.symChars.length + 1 := by
    unfold folKeyU
    simp only [List.length_cons, List.length_append, List.length_map]
  have hv : (folValU g).length = g.terminals.length + g.symChars.length + 1 := by
    unfold folValU
    simp only [List.length_cons, List.length_append]
  have hfuel : (folKeyU g).length * (folValU g).length + 1
      ≤ g.followFuel + smapSize (alSet (g.non_terminals.map (fun nt => (nt, ([] : CSet))))
          g.start_symbol (addNew [] '$')) := by
    unfold Grammar.followFuel
    rw [hk, hv]
    have hmul : (g.non_terminals.length + g.symChars.length + 1) *
        (g.terminals.length + g.symChars.length + 1) ≤
        (g.non_terminals.length + g.symChars.length + 2) *
        (g.terminals.length + g.symChars.length + 2) :=
      Nat.mul_le_mul (by omega) (by omega)
    omega
  obtain ⟨x2, hx2inv, hpass⟩ := fixLoop_false hstep g.followFuel _ hinit hfuel
  rw [hfol] at hpass
  obtain ⟨hid, _⟩ := followPass_false_spec g fs x2 (by rw [hpass])
  have hx2fol : x2 = fol := by
    rw [hpass] at hid
    exact hid.symm
  subst hx2fol
  obtain ⟨_, hext⟩ := followPass_false_spec g fs x2 (by rw [hpass])
  refine ⟨hseed, hpass, ?_⟩
  intro nt ps p hmem hp hpe l2 c r heq hupper hfr t ht
  exact hext (nt, ps) hmem p hp hpe l2 c r heq hupper hfr t ht

theorem wfold_absent (q : Str) :
    ∀ (ws : List Char) (row : LL1Row) (t : Char), t ∉ ws →
      alLookup (ws.foldl (fun r u => ll1Insert r u q) row) t = alLookup row t := by
  intro ws
  induction ws with
  | nil => intro row t _; rfl
  | cons u rest ih =>
    intro row t ht
    simp only [List.foldl_cons]
    have hut : ¬ u = t := fun hcon => ht (hcon ▸ List.mem_cons_self u rest)
    rw [ih _ t (fun hcon => ht (List.mem_cons_of_mem u hcon))]
    exact ll1Insert_other hut

theorem wfold_create_val (q : Str) :
    ∀ (ws : List Char) (row : LL1Row) (t : Char),
      alLookup row t = none → t ∈ ws →
      ∃ w, alLookup (ws.foldl (fun r u => ll1Insert r u q) row) t = some w ∧
        (w = some q ∨ w = none) := by
  intro ws
  induction ws with
  | nil => intro row t _ hmem; exact absurd hmem (List.not_mem_nil t)
  | cons u rest ih =>
    intro row t hn hmem
    simp only [List.foldl_cons]
    by_cases hu : u = t
    · subst hu
      obtain ⟨w, hw, hin, hout⟩ := wfold_present q rest _ u (some q) (ll1Insert_fresh q hn)
      refine ⟨w, hw, ?_⟩
      by_cases ht : u ∈ rest
      · exact Or.inr (hin ht)
      · exact Or.inl (hout ht)
    · rcases List.mem_cons.mp hmem with h1 | h1
      · exact absurd h1.symm hu
      · have h2 : alLookup (ll1Insert row u q) t = none := by
          rw [ll1Insert_other hu]
          exact hn
        exact ih _ t h2 h1

theorem wfold_source (q : Str) (ws : List Char) (row : LL1Row) (t : Char) (p0 : Str)
    (h : alLookup (ws.foldl (fun r u => ll1Insert r u q) row) t = some (some p0)) :
    (t ∈ ws ∧ p0 = q) ∨ (t ∉ ws ∧ alLookup row t = some (some p0)) := by
  by_cases hmem : t ∈ ws
  · rcases hrow : alLookup row t with _ | v
    · obtain ⟨w, hw, hval⟩ := wfold_create_val q ws row t hrow hmem
      rcases hval with h1 | h1
      · rw [h1] at hw
        rw [hw] at h
        exact Or.inl ⟨hmem, (Option.some.inj (Option.some.inj h)).symm⟩
      · rw [h1] at hw
        rw [hw] at h
        exact absurd (Option.some.inj h) (by simp)
    · obtain ⟨w, hw, hin, _⟩ := wfold_present q ws row t v hrow
      rw [hw] at h
      have hwp : w = some p0 := Option.some.inj h
      rw [hin hmem] at hwp
      exact absurd hwp.symm (by simp)
  · rw [wfold_absent q ws row t hmem] at h
    exact Or.inr ⟨hmem, h⟩

theorem prods_source (fs fol : SMap) (A : Str) :
    ∀ (qs : List Str) (row : LL1Row) (t : Char) (p0 : Str),
      alLookup (qs.foldl (fun r q =>
        (ll1Writes fs fol A q).foldl (fun r2 u => ll1Insert r2 u q) r) row) t
        = some (some p0) →
      (p0 ∈ qs ∧ t ∈ ll1Writes fs fol A p0) ∨ alLookup row t = some (some p0) := by
  intro qs
  induction qs with
  | nil => intro row t p0 h; exact Or.inr h
  | cons q rest ih =>
    intro row t p0 h
    simp only [List.foldl_cons] at h
    rcases ih _ t p0 h with h1 | h1
    · exact Or.inl ⟨List.mem_cons_of_mem q h1.1, h1.2⟩
    · rcases wfold_source q (ll1Writes fs fol A q) row t p0 h1 with h2 | h2
      · exact Or.inl ⟨h2.2 ▸ List.mem_cons_self q rest, h2.2 ▸ h2.1⟩
      · exact Or.inr h2.2

theorem wprods_pres (fs fol : SMap) (A : Str) :
    ∀ (qs : List Str) (row : LL1Row) (t : Char) (v : Str),
      alLookup row t = some (some v) →
      alLookup (qs.foldl (fun r q =>
        (ll1Writes fs fol A q).foldl (fun r2 u => ll1Insert r2 u q) r) row) t
          = some (some v) ∨
      alLookup (qs.foldl (fun r q =>
        (ll1Writes fs fol A q).foldl (fun r2 u => ll1Insert r2 u q) r) row) t
          = some none := by
  intro qs
  induction qs with
  | nil => intro row t v h; exact Or.inl h
  | cons q rest ih =>
    intro row t v h
    simp only [List.foldl_cons]
    by_cases hmem : t ∈ ll1Writes fs fol A q
    · obtain ⟨w, hw, hin, _⟩ := wfold_present q (ll1Writes fs fol A q) row t (some v) h
      rw [hin hmem] at hw
      exact Or.inr (prods_conflict fs fol A rest _ t hw)
    · have h2 : alLookup ((ll1Writes fs fol A q).foldl
          (fun r2 u => ll1Insert r2 u q) row) t = some (some v) := by
        rw [wfold_absent q (ll1Writes fs fol A q) row t hmem]
        exact h
      exact ih _ t v h2

theorem wprods_write_conflict (fs fol : SMap) (A : Str) :
    ∀ (qs : List Str) (row : LL1Row) (t : Char), (alLookup row t).isSome →
      ∀ q ∈ qs, t ∈ ll1Writes fs fol A q →
      alLookup (qs.foldl (fun r q2 =>
        (ll1Writes fs fol A q2).foldl (fun r2 u => ll1Insert r2 u q2) r) row) t
        = some none := by
  intro qs
  induction qs with
  | nil => intro row t _ q hq; exact absurd hq (List.not_mem_nil q)
  | cons q2 rest ih =>
    intro row t hsome q hq hwq
    simp only [List.foldl_cons]
    rcases hrow : alLookup row t with _ | v
    · rw [hrow] at hsome
      exact absurd hsome (by simp)
    · rcases List.mem_cons.mp hq with h1 | h1
      · subst h1
        obtain ⟨w, hw, hin, _⟩ := wfold_present q (ll1Writes fs fol A q) row t v hrow
        rw [hin hwq] at hw
        exact prods_conflict fs fol A rest _ t hw
      · obtain ⟨w, hw, _, _⟩ := wfold_present q2 (ll1Writes fs fol A q2) row t v hrow
        exact ih _ t (by rw [hw]; rfl) q h1 hwq

theorem wprods_unique (fs fol : SMap) (A : Str) :
    ∀ (qs : List Str) (row : LL1Row) (t : Char) (p0 : Str),
      alLookup row t = none →
      alLookup (qs.foldl (fun r q =>
        (ll1Writes fs fol A q).foldl (fun r2 u => ll1Insert r2 u q) r) row) t
        = some (some p0) →
      ∀ q ∈ qs, t ∈ ll1Writes fs fol A q → q = p0 := by
  intro qs
  induction qs with
  | nil => intro row t p0 _ _ q hq; exact absurd hq (List.not_mem_nil q)
  | cons q2 rest ih =>
    intro row t p0 hrow h q hq hwq
    simp only [List.foldl_cons] at h
    by_cases hmem : t ∈ ll1Writes fs fol A q2
    · obtain ⟨w, hw, hval⟩ := wfold_create_val q2 (ll1Writes fs fol A q2) row t hrow hmem
      rcases hval with h1 | h1
      · rcases List.mem_cons.mp hq with h2 | h2
        · subst h2
          rw [h1] at hw
          rcases wprods_pres fs fol A rest _ t q hw with h3 | h3
          · rw [h3] at h
            exact Option.some.inj (Option.some.inj h)
          · rw [h3] at h
            exact absurd (Option.some.inj h) (by simp)
        · rw [h1] at hw
          rw [wprods_write_conflict fs fol A rest _ t (by rw [hw]; rfl) q h2 hwq] at h
          exact absurd (Option.some.inj h) (by simp)
      · rw [h1] at hw
        rw [prods_conflict fs fol A rest _ t hw] at h
        exact absurd (Option.some.inj h) (by simp)
    · have habs : alLookup ((ll1Writes fs fol A q2).foldl
          (fun r2 u => ll1Insert r2 u q2) row) t = none := by
        rw [wfold_absent q2 (ll1Writes fs fol A q2) row t hmem]
        exact hrow
      rcases List.mem_cons.mp hq with h2 | h2
      · subst h2
        exact absurd hwq hmem
      · exact ih _ t p0 habs h q h2 hwq

theorem wprods_written (fs fol : SMap) (A : Str) :
    ∀ (qs : List Str) (row : LL1Row) (t : Char) (q : Str), q ∈ qs →
      t ∈ ll1Writes fs fol A q →
      (alLookup (qs.foldl (fun r q2 =>
        (ll1Writes fs fol A q2).foldl (fun r2 u => ll1Insert r2 u q2) r) row) t).isSome := by
  intro qs
  induction qs with
  | nil => intro row t q hq; exact absurd hq (List.not_mem_nil q)
  | cons q2 rest ih =>
    intro row t q hq hwq
    simp only [List.foldl_cons]
    rcases List.mem_cons.mp hq with h1 | h1
    · subst h1
      rcases hrow : alLookup row t with _ | v
      · obtain ⟨w, hw⟩ := wfold_create q (ll1Writes fs fol A q) row t hrow hwq
        obtain ⟨w2, hw2⟩ := prods_present fs fol A rest _ t w hw
        rw [hw2]
        rfl
      · obtain ⟨w, hw, _, _⟩ := wfold_present q (ll1Writes fs fol A q) row t v hrow
        obtain ⟨w2, hw2⟩ := prods_present fs fol A rest _ t w hw
        rw [hw2]
        rfl
    · exact ih _ t q h1 hwq


theorem alLookup_of_mem_nodup {m : List (Str × List Str)} {k : Str} {v : List Str}
    (hnd : (m.map Prod.fst).Nodup) (hmem : (k, v) ∈ m) : alLookup m k = some v := by
  induction m with
  | nil => exact absurd hmem (List.not_mem_nil _)
  | cons e rest ih =>
    obtain ⟨k1, v1⟩ := e
    rw [List.map_cons, List.nodup_cons] at hnd
    rcases List.mem_cons.mp hmem with h1 | h1
    · have hk : k1 = k := (congrArg Prod.fst h1).symm
      have hv : v1 = v := (congrArg Prod.snd h1).symm
      unfold alLookup
      rw [if_pos hk, hv]
    · have hk : ¬ k1 = k := by
        intro hcon
        refine hnd.1 ?_
        rw [hcon]
        exact List.mem_map.mpr ⟨(k, v), h1, rfl⟩
      unfold alLookup
      rw [if_neg hk]
      exact ih hnd.2 h1

theorem ntmap_lookup_isSome {l : List Str} {k : Str} (h : k ∈ l) :
    (alLookup (l.map (fun nt => (nt, ([] : LL1Row)))) k).isSome := by
  induction l with
  | nil => exact absurd h (List.not_mem_nil k)
  | cons a rest ih =>
    rcases List.mem_cons.mp h with h1 | h1
    · subst h1
      simp [alLookup]
    · simp only [List.map_cons]
      unfold alLookup
      by_cases ha : a = k
      · rw [if_pos ha]
        rfl
      · rw [if_neg ha]
        exact ih h1

theorem tblInsert_isSome (tbl : LL1Table) (nt : Str) (t : Char) (p : Str) (k : Str)
    (h : (alLookup tbl k).isSome) : (alLookup (ll1TblInsert tbl nt t p) k).isSome := by
  unfold ll1TblInsert
  exact alLookup_alSet_isSome tbl nt k _ h

theorem ll1ProdWrites_isSome (fs fol : SMap) (nt : Str) (p : Str) (k : Str) :
    ∀ (tbl : LL1Table), (alLookup tbl k).isSome →
      (alLookup (ll1ProdWrites fs fol nt tbl p) k).isSome := by
  intro tbl h
  unfold ll1ProdWrites
  dsimp only
  have hg : ∀ (ws : List Char) (t0 : LL1Table), (alLookup t0 k).isSome →
      (alLookup (ws.foldl (fun t0 t => if t ≠ 'e' then ll1TblInsert t0 nt t p else t0) t0)
        k).isSome := by
    intro ws
    induction ws with
    | nil => intro t0 h0; exact h0
    | cons u rest ih =>
      intro t0 h0
      simp only [List.foldl_cons]
      by_cases hu : u ≠ 'e'
      · rw [if_pos hu]
        exact ih _ (tblInsert_isSome t0 nt u p k h0)
      · rw [if_neg hu]
        exact ih t0 h0
  have hg2 : ∀ (ws : List Char) (t0 : LL1Table), (alLookup t0 k).isSome →
      (alLookup (ws.foldl (fun t0 t => ll1TblInsert t0 nt t p) t0) k).isSome := by
    intro ws
    induction ws with
    | nil => intro t0 h0; exact h0
    | cons u rest ih =>
      intro t0 h0
      simp only [List.foldl_cons]
      exact ih _ (tblInsert_isSome t0 nt u p k h0)
  by_cases he : 'e' ∈ ll1FirstOfStr fs p
  · rw [if_pos he]
    exact hg2 _ _ (hg _ tbl h)
  · rw [if_neg he]
    exact hg _ tbl h

theorem build_table_isSome (g : Grammar) (fs fol : SMap) {A : Str}
    (hA : A ∈ g.non_terminals) :
    (alLookup (build_parse_table g fs fol) A).isSome := by
  unfold build_parse_table
  dsimp only
  have hinit := ntmap_lookup_isSome hA
  have hg : ∀ (entries : List (Str × List Str)) (tbl : LL1Table),
      (alLookup tbl A).isSome →
      (alLookup (entries.foldl (fun tb entry =>
        entry.2.foldl (ll1ProdWrites fs fol entry.1) tb) tbl) A).isSome := by
    intro entries
    induction entries with
    | nil => intro tbl h; exact h
    | cons e rest ih =>
      intro tbl h
      simp only [List.foldl_cons]
      refine ih _ ?_
      have hinner : ∀ (ps : List Str) (t0 : LL1Table), (alLookup t0 A).isSome →
          (alLookup (ps.foldl (ll1ProdWrites fs fol e.1) t0) A).isSome := by
        intro ps
        induction ps with
        | nil => intro t0 h0; exact h0
        | cons p prest ih2 =>
          intro t0 h0
          simp only [List.foldl_cons]
          exact ih2 _ (ll1ProdWrites_isSome fs fol e.1 p A t0 h0)
      exact hinner e.2 tbl h
  exact hg g.productions _ hinit

theorem check_true_cells {tbl : LL1Table} (hchk : check_if_ll1 tbl = true)
    {A : Str} {row : LL1Row} {t : Char} {w : Option Str}
    (hrow : alLookup tbl A = some row) (hcell : alLookup row t = some w) :
    w.isSome := by
  unfold check_if_ll1 at hchk
  rw [List.all_eq_true] at hchk
  have h1 := hchk (A, row) (alLookup_mem hrow)
  rw [List.all_eq_true] at h1
  have h2 := h1 (t, w) (alLookup_mem hcell)
  simpa using h2

theorem nefold_e_rev :
    ∀ (s : CSet) (acc : CSet),
      'e' ∈ s.foldl (fun a t => if t ≠ 'e' then addNew a t else a) acc → 'e' ∈ acc := by
  intro s
  induction s with
  | nil => intro acc h; exact h
  | cons t rest ih =>
    intro acc h
    simp only [List.foldl_cons] at h
    by_cases ht : t ≠ 'e'
    · rw [if_pos ht] at h
      rcases mem_addNew_elim (ih _ h) with h1 | h1
      · exact h1
      · exact absurd h1.symm ht
    · rw [if_neg ht] at h
      exact ih acc h

theorem go_sub (g : Grammar) (fs : SMap)
    (hfs : ∀ k x, x ∈ alGetD fs k [] → x ∈ fValU g) :
    ∀ (s : Str) (acc : CSet), (∀ c ∈ s, c ∈ g.symChars) →
      ∀ x ∈ ll1FirstOfStrGo fs s acc, x ∈ acc ∨ x ∈ fValU g := by
  intro s
  induction s with
  | nil =>
    intro acc _ x hx
    rcases mem_addNew_elim hx with h1 | h1
    · exact Or.inl h1
    · refine Or.inr ?_
      rw [h1]
      exact List.mem_cons_self _ _
  | cons c rest ih =>
    intro acc hchars x hx
    unfold ll1FirstOfStrGo at hx
    rcases hl : alLookup fs [c] with _ | sf
    · rw [hl] at hx
      rcases mem_addNew_elim hx with h1 | h1
      · exact Or.inl h1
      · refine Or.inr ?_
        unfold fValU
        refine List.mem_cons_of_mem _ (List.mem_append_right _ ?_)
        exact h1 ▸ hchars c (List.mem_cons_self c rest)
    · rw [hl] at hx
      dsimp only at hx
      have hacc1 : ∀ y ∈ sf.foldl (fun a t => if t ≠ 'e' then addNew a t else a) acc,
          y ∈ acc ∨ y ∈ fValU g := by
        refine nefold_sub sf acc (fun y hy => Or.inl hy) ?_
        intro t ht _
        refine Or.inr (hfs [c] t ?_)
        rw [alGetD_of_lookup hl]
        exact ht
      by_cases he : 'e' ∈ sf
      · rw [if_pos he] at hx
        rcases ih _ (fun d hd => hchars d (List.mem_cons_of_mem c hd)) x hx with h1 | h1
        · exact hacc1 x h1
        · exact Or.inr h1
      · rw [if_neg he] at hx
        exact hacc1 x hx

theorem firstOfStr_sub (g : Grammar) (fs : SMap)
    (hfs : ∀ k x, x ∈ alGetD fs k [] → x ∈ fValU g)
    (p : Str) (hchars : ∀ c ∈ p, c ∈ g.symChars) :
    ∀ x ∈ ll1FirstOfStr fs p, x ∈ fValU g := by
  intro x hx
  unfold ll1FirstOfStr at hx
  by_cases hp : p = [] ∨ p = ['e']
  · rw [if_pos hp] at hx
    rw [List.mem_singleton] at hx
    rw [hx]
    exact List.mem_cons_self _ _
  · rw [if_neg hp] at hx
    rcases go_sub g fs hfs p [] hchars x hx with h1 | h1
    · exact absurd h1 (List.not_mem_nil x)
    · exact h1

theorem go_e (fs : SMap) :
    ∀ (s : Str), (∀ c ∈ s, 'e' ∈ alGetD fs [c] []) →
      ∀ (acc : CSet), 'e' ∈ ll1FirstOfStrGo fs s acc := by
  intro s
  induction s with
  | nil => intro _ acc; exact mem_addNew_self acc 'e'
  | cons c rest ih =>
    intro hall acc
    have hc := hall c (List.mem_cons_self c rest)
    have hls := mem_alGetD_isSome hc
    rcases hl : alLookup fs [c] with _ | sf
    · rw [hl] at hls
      exact absurd hls (by simp)
    · unfold ll1FirstOfStrGo
      rw [hl]
      dsimp only
      have hes : 'e' ∈ sf := by
        rw [alGetD_of_lookup hl] at hc
        exact hc
      rw [if_pos hes]
      exact ih (fun d hd => hall d (List.mem_cons_of_mem c hd)) _

theorem firstOfStr_e (fs : SMap) (p : Str)
    (hall : ∀ c ∈ p, 'e' ∈ alGetD fs [c] []) : 'e' ∈ ll1FirstOfStr fs p := by
  unfold ll1FirstOfStr
  by_cases hp : p = [] ∨ p = ['e']
  · rw [if_pos hp]
    exact List.mem_singleton.mpr rfl
  · rw [if_neg hp]
    exact go_e fs p hall []

theorem go_e_rev (fs : SMap) (hek : (alLookup fs ['e']).isSome) :
    ∀ (s : Str) (acc : CSet), 'e' ∈ ll1FirstOfStrGo fs s acc →
      'e' ∈ acc ∨ ∀ c ∈ s, 'e' ∈ alGetD fs [c] [] := by
  intro s
  induction s with
  | nil =>
    intro acc _
    exact Or.inr (fun c hc => absurd hc (List.not_mem_nil c))
  | cons c rest ih =>
    intro acc h
    unfold ll1FirstOfStrGo at h
    rcases hl : alLookup fs [c] with _ | sf
    · rw [hl] at h
      rcases mem_addNew_elim h with h1 | h1
      · exact Or.inl h1
      · exfalso
        rw [← h1] at hl
        rw [hl] at hek
        exact absurd hek (by simp)
    · rw [hl] at h
      dsimp only at h
      by_cases he : 'e' ∈ sf
      · rw [if_pos he] at h
        rcases ih _ h with h1 | h1
        · exact Or.inl (nefold_e_rev sf acc h1)
        · refine Or.inr ?_
          intro d hd
          rcases List.mem_cons.mp hd with h2 | h2
          · rw [h2, alGetD_of_lookup hl]
            exact he
          · exact h1 d h2
      · rw [if_neg he] at h
        exact Or.inl (nefold_e_rev sf acc h)

theorem firstOfStr_e_rev {g : Grammar} {fs : SMap} (hm : FInv g fs) {p : Str}
    (h : 'e' ∈ ll1FirstOfStr fs p) : ∀ c ∈ p, 'e' ∈ alGetD fs [c] [] := by
  unfold ll1FirstOfStr at h
  by_cases hp : p = [] ∨ p = ['e']
  · rcases hp with h1 | h1
    · subst h1
      exact fun c hc => absurd hc (List.not_mem_nil c)
    · subst h1
      intro c hc
      rw [List.mem_singleton] at hc
      rw [hc]
      exact hm.ekey
  · rw [if_neg hp] at h
    rcases go_e_rev fs (mem_alGetD_isSome hm.ekey) p [] h with h1 | h1
    · exact absurd h1 (List.not_mem_nil _)
    · exact h1

theorem dollar_not_fValU {g : Grammar} (hdt : '$' ∉ g.terminals)
    (hds : '$' ∉ g.symChars) : '$' ∉ fValU g := by
  intro hcon
  unfold fValU at hcon
  rcases List.mem_cons.mp hcon with h1 | h1
  · exact absurd h1 (by decide)
  · rcases List.mem_append.mp h1 with h2 | h2
    · exact hdt h2
    · exact hds h2

theorem writes_dollar_elim {g : Grammar} {fs fol : SMap} {A p : Str}
    (hfs : ∀ k x, x ∈ alGetD fs k [] → x ∈ fValU g)
    (hchars : ∀ c ∈ p, c ∈ g.symChars)
    (hdt : '$' ∉ g.terminals) (hds : '$' ∉ g.symChars)
    (h : '$' ∈ ll1Writes fs fol A p) :
    'e' ∈ ll1FirstOfStr fs p ∧ '$' ∈ alGetD fol A [] := by
  unfold ll1Writes at h
  rcases List.mem_append.mp h with h1 | h1
  · exfalso
    have h2 := List.mem_filter.mp h1
    exact dollar_not_fValU hdt hds (firstOfStr_sub g fs hfs p hchars '$' h2.1)
  · by_cases he : 'e' ∈ ll1FirstOfStr fs p
    · rw [if_pos he] at h1
      exact ⟨he, h1⟩
    · rw [if_neg he] at h1
      exact absurd h1 (List.not_mem_nil _)

theorem writes_dollar_intro {fs fol : SMap} {A p : Str}
    (he : 'e' ∈ ll1FirstOfStr fs p) (hfol : '$' ∈ alGetD fol A []) :
    '$' ∈ ll1Writes fs fol A p := by
  unfold ll1Writes
  refine List.mem_append_right _ ?_
  rw [if_pos he]
  exact hfol

theorem ciD (ptr : Nat) :
    (if h : ptr < (['$'] : Str).length then (['$'] : Str).get ⟨ptr, h⟩ else '$') = '$' := by
  by_cases h : ptr < (['$'] : Str).length
  · rw [dif_pos h]
    have h2 : ptr = 0 := by
      have h3 : ptr < 1 := h
      omega
    subst h2
    rfl
  · rw [dif_neg h]

theorem ll1Loop_step_eps (tbl : LL1Table) (fuel : Nat) (stack : List Str) (ptr : Nat) :
    ll1Loop tbl ['$'] (fuel + 1) (['e'] :: stack) ptr
      = ll1Loop tbl ['$'] fuel stack ptr := by
  rfl

theorem ll1Loop_step_dollar (tbl : LL1Table) (fuel : Nat) (stack : List Str) (ptr : Nat) :
    ll1Loop tbl ['$'] (fuel + 1) (['$'] :: stack) ptr
      = ll1Loop tbl ['$'] fuel stack (ptr + 1) := by
  rcases ptr with _ | k <;> rfl

theorem ll1Loop_step_expand (tbl : LL1Table) {top : Str} {row : LL1Row} {p : Str}
    (hne : ¬ top = ['e']) (hupper2 : pyIsUpperStr top = true)
    (hrowl : alLookup tbl top = some row)
    (hcell : alLookup row '$' = some (some p)) (hpe : ¬ p = ['e'])
    (fuel : Nat) (stack : List Str) (ptr : Nat) :
    ll1Loop tbl ['$'] (fuel + 1) (top :: stack) ptr
      = ll1Loop tbl ['$'] fuel (p.map (fun c => [c]) ++ stack) ptr := by
  conv_lhs => unfold ll1Loop
  dsimp only
  rw [ciD ptr]
  rw [if_neg hne, if_neg (not_not_intro hupper2), hrowl]
  dsimp only
  rw [hcell]
  dsimp only
  rw [if_neg hpe]

theorem ll1Loop_step_cell_eps (tbl : LL1Table) {top : Str} {row : LL1Row}
    (hne : ¬ top = ['e']) (hupper2 : pyIsUpperStr top = true)
    (hrowl : alLookup tbl top = some row)
    (hcell : alLookup row '$' = some (some ['e']))
    (fuel : Nat) (stack : List Str) (ptr : Nat) :
    ll1Loop tbl ['$'] (fuel + 1) (top :: stack) ptr
      = ll1Loop tbl ['$'] fuel stack ptr := by
  conv_lhs => unfold ll1Loop
  dsimp only
  rw [ciD ptr]
  rw [if_neg hne, if_neg (not_not_intro hupper2), hrowl]
  dsimp only
  rw [hcell]
  dsimp only
  rw [if_pos rfl]

theorem erase_list (tbl : LL1Table) :
    ∀ (syms : Str),
      (∀ c ∈ syms, ∃ n, ∀ (m : Nat) (rest : List Str) (ptr : Nat),
        ll1Loop tbl ['$'] (n + m) ([c] :: rest) ptr = ll1Loop tbl ['$'] m rest ptr) →
      ∃ N, ∀ (m : Nat) (rest : List Str) (ptr : Nat),
        ll1Loop tbl ['$'] (N + m) (syms.map (fun c => [c]) ++ rest) ptr
          = ll1Loop tbl ['$'] m rest ptr := by
  intro syms
  induction syms with
  | nil =>
    intro _
    refine ⟨0, fun m rest ptr => ?_⟩
    rw [Nat.zero_add]
    rfl
  | cons c rest2 ih =>
    intro hall
    obtain ⟨n1, hn1⟩ := hall c (List.mem_cons_self c rest2)
    obtain ⟨N2, hN2⟩ := ih (fun d hd => hall d (List.mem_cons_of_mem c hd))
    refine ⟨n1 + N2, fun m rest ptr => ?_⟩
    have hassoc : n1 + N2 + m = n1 + (N2 + m) := by omega
    rw [hassoc]
    simp only [List.map_cons, List.cons_append]
    rw [hn1 (N2 + m) (rest2.map (fun c => [c]) ++ rest) ptr]
    exact hN2 m rest ptr

theorem NullK_nt {g : Grammar} {s : Str} (h : NullK g s) :
    s = ['e'] ∨ ∃ ps, (s, ps) ∈ g.productions := by
  cases h with
  | eps => exact Or.inl rfl
  | allNull nt ps p h1 _ _ => exact Or.inr ⟨ps, h1⟩

theorem pyIsUpperStr_single {c : Char} (h : pyIsUpperStr [c] = true) :
    c.isUpper = true := by
  unfold pyIsUpperStr at h
  simp only [List.any_cons, List.any_nil, Bool.or_false, List.all_cons, List.all_nil,
    Bool.and_true, Bool.and_eq_true] at h
  obtain ⟨h1, h2⟩ := h
  rcases Bool.or_eq_true _ _ ▸ h2 with h3 | h3
  · rw [h1] at h3
    exact absurd h3 (by decide)
  · exact h3

theorem erase_null (g : Grammar) (fs fol : SMap) (tbl : LL1Table)
    (hwf : g.WF)
    (hup : ∀ s ∈ g.non_terminals, pyIsUpperStr s = true)
    (hfsfi : FInv g fs) (hclosed : ClosedE g fs)
    (hfolpass : followPass g fs fol = (fol, false))
    (htbl : tbl = build_parse_table g fs fol)
    (hchk : check_if_ll1 tbl = true) :
    ∀ (s : Str), NullK g s → '$' ∈ alGetD fol s [] →
      ∃ n, ∀ (m : Nat) (rest : List Str) (ptr : Nat),
        ll1Loop tbl ['$'] (n + m) (s :: rest) ptr = ll1Loop tbl ['$'] m rest ptr := by
  intro s hnull
  induction hnull with
  | eps =>
    intro _
    refine ⟨1, fun m rest ptr => ?_⟩
    rw [Nat.add_comm]
    exact ll1Loop_step_eps tbl m rest ptr
  | allNull nt ps q hj hq hallq ih =>
    intro hfolnt
    have hntNT : nt ∈ g.non_terminals := hwf.2.1 (nt, ps) hj
    have hupper : pyIsUpperStr nt = true := hup nt hntNT
    have hne : ¬ nt = ['e'] := by
      intro hcon
      rw [hcon] at hupper
      exact absurd hupper (by decide)
    have hrowS : (alLookup tbl nt).isSome := htbl ▸ build_table_isSome g fs fol hntNT
    rcases hrowl : alLookup tbl nt with _ | row
    · rw [hrowl] at hrowS
      exact absurd hrowS (by simp)
    have hrowGet : alGetD tbl nt [] = row := by
      unfold alGetD
      rw [hrowl]
      rfl
    have hpl : alLookup g.productions nt = some ps := alLookup_of_mem_nodup hwf.1 hj
    have hfold : ps.foldl (fun row2 q2 =>
        (ll1Writes fs fol nt q2).foldl (fun r2 u => ll1Insert r2 u q2) row2) [] = row := by
      rw [← hrowGet, htbl]
      exact (build_row g fs fol nt ps hwf.1 hpl).symm
    have hqchars : ∀ c ∈ q, c ∈ g.symChars := fun c hc => mem_symChars hj hq hc
    have hqe2 : 'e' ∈ ll1FirstOfStr fs q :=
      firstOfStr_e fs q (fun c hc => NullK_first hclosed hfsfi.ekey (hallq c hc))
    have hwq : '$' ∈ ll1Writes fs fol nt q := writes_dollar_intro hqe2 hfolnt
    have hpres : (alLookup row '$').isSome := by
      rw [← hfold]
      exact wprods_written fs fol nt ps [] '$' q hq hwq
    rcases hcell : alLookup row '$' with _ | w
    · rw [hcell] at hpres
      exact absurd hpres (by simp)
    have hwS : w.isSome := check_true_cells hchk hrowl hcell
    rcases w with _ | p0
    · exact absurd hwS (by simp)
    have hcellF : alLookup (ps.foldl (fun row2 q2 =>
        (ll1Writes fs fol nt q2).foldl (fun r2 u => ll1Insert r2 u q2) row2) []) '$'
        = some (some p0) := by
      rw [hfold]
      exact hcell
    have hqp0 : q = p0 := wprods_unique fs fol nt ps [] '$' p0 rfl hcellF q hq hwq
    subst hqp0
    by_cases hqe : q = ['e']
    · refine ⟨1, fun m rest ptr => ?_⟩
      rw [Nat.add_comm]
      exact ll1Loop_step_cell_eps tbl hne hupper hrowl (hqe ▸ hcell) m rest ptr
    · have hsym : ∀ c ∈ q, ∃ n, ∀ (m : Nat) (rest : List Str) (ptr : Nat),
          ll1Loop tbl ['$'] (n + m) ([c] :: rest) ptr = ll1Loop tbl ['$'] m rest ptr := by
        intro c hc
        by_cases hce : c = 'e'
        · subst hce
          refine ⟨1, fun m rest ptr => ?_⟩
          rw [Nat.add_comm]
          exact ll1Loop_step_eps tbl m rest ptr
        · have hnullc : NullK g [c] := hallq c hc
          have hupc : pyIsUpperStr [c] = true := by
            rcases NullK_nt hnullc with h1 | ⟨ps2, h2⟩
            · exact absurd (List.head_eq_of_cons_eq h1) hce
            · exact hup [c] (hwf.2.1 ([c], ps2) h2)
          obtain ⟨l, r, hsplit⟩ := List.append_of_mem hc
          have hrfs : ∀ d ∈ r, 'e' ∈ alGetD fs [d] [] := by
            intro d hd
            refine NullK_first hclosed hfsfi.ekey (hallq d ?_)
            rw [hsplit]
            exact List.mem_append_right l (List.mem_cons_of_mem c hd)
          have hfr : (followFirstRest fs r []).2 = true := followFirstRest_e fs r hrfs []
          obtain ⟨_, hext⟩ := followPass_false_spec g fs fol (by rw [hfolpass])
          have hfolc : '$' ∈ alGetD fol [c] [] :=
            hext (nt, ps) hj q hq hqe l c r hsplit (pyIsUpperStr_single hupc) hfr
              '$' hfolnt
          exact ih c hc hfolc
      obtain ⟨N, hN⟩ := erase_list tbl q hsym
      refine ⟨N + 1, fun m rest ptr => ?_⟩
      have hfe : N + 1 + m = (N + m) + 1 := by omega
      rw [hfe, ll1Loop_step_expand tbl hne hupper hrowl hcell hqe (N + m) rest ptr]
      exact hN m rest ptr

theorem ll1Loop_step_norow (tbl : LL1Table) {top : Str}
    (hne : ¬ top = ['e']) (hupper2 : pyIsUpperStr top = true)
    (hrowl : alLookup tbl top = none)
    (fuel : Nat) (stack : List Str) (ptr : Nat) :
    ll1Loop tbl ['$'] (fuel + 1) (top :: stack) ptr = .error := by
  conv_lhs => unfold ll1Loop
  dsimp only
  rw [ciD ptr]
  rw [if_neg hne, if_neg (not_not_intro hupper2), hrowl]

theorem ll1Loop_step_nocell (tbl : LL1Table) {top : Str} {row : LL1Row}
    (hne : ¬ top = ['e']) (hupper2 : pyIsUpperStr top = true)
    (hrowl : alLookup tbl top = some row)
    (hcell : alLookup row '$' = none)
    (fuel : Nat) (stack : List Str) (ptr : Nat) :
    ll1Loop tbl ['$'] (fuel + 1) (top :: stack) ptr = .reject := by
  conv_lhs => unfold ll1Loop
  dsimp only
  rw [ciD ptr]
  rw [if_neg hne, if_neg (not_not_intro hupper2), hrowl]
  dsimp only
  rw [hcell]

theorem ll1Loop_step_conflict (tbl : LL1Table) {top : Str} {row : LL1Row}
    (hne : ¬ top = ['e']) (hupper2 : pyIsUpperStr top = true)
    (hrowl : alLookup tbl top = some row)
    (hcell : alLookup row '$' = some none)
    (fuel : Nat) (stack : List Str) (ptr : Nat) :
    ll1Loop tbl ['$'] (fuel + 1) (top :: stack) ptr = .reject := by
  conv_lhs => unfold ll1Loop
  dsimp only
  rw [ciD ptr]
  rw [if_neg hne, if_neg (not_not_intro hupper2), hrowl]
  dsimp only
  rw [hcell]

theorem build_row_nokey (g : Grammar) (fs fol : SMap) {A : Str}
    (h : alLookup g.productions A = none) :
    alGetD (build_parse_table g fs fol) A [] = [] := by
  unfold build_parse_table
  dsimp only
  have hA1 : ∀ e ∈ g.productions, ¬ e.1 = A := by
    intro e he hcon
    exact (alLookup_eq_none.mp h) (List.mem_map.mpr ⟨e, he, hcon⟩)
  have hrow1 : ∀ (l : List (Str × List Str)) (tbl : LL1Table),
      (∀ e ∈ l, ¬ e.1 = A) →
      alGetD (l.foldl (fun tb entry => entry.2.foldl (ll1ProdWrites fs fol entry.1) tb) tbl)
        A [] = alGetD tbl A [] := by
    intro l
    induction l with
    | nil => intro tbl _; rfl
    | cons e rest ih =>
      intro tbl hl
      simp only [List.foldl_cons]
      rw [ih _ (fun e2 he2 => hl e2 (List.mem_cons_of_mem _ he2)),
        entry_row_other fs fol (hl e (List.mem_cons_self e rest))]
  rw [hrow1 g.productions _ hA1, alGetD_map_nil]

/-- C3 (amended): for a well-formed grammar with duplicate-free uppercase
non-terminal names, start symbol the literal S, and no occurrence of the
end marker among its terminals or right-hand-side characters, if the
constructed parser passes the LL(1) conflict check then querying the bare
end-marker string is accepted at some fuel exactly when the computed FIRST
set of the start symbol contains the epsilon sentinel.  Without these
provisos the equivalence fails in both directions. -/
theorem claim_C3_amended (g : Grammar) (P : LL1Parser)
    (hwf : g.WF)
    (hntnd : g.non_terminals.Nodup)
    (hup : ∀ s ∈ g.non_terminals, pyIsUpperStr s = true)
    (hstart : g.start_symbol = ['S'])
    (hdt : '$' ∉ g.terminals) (hds : '$' ∉ g.symChars)
    (hmk : mkLL1 g = some P) (hll1 : P.is_ll1 = true) :
    (∃ fuel, P.parse ['$'] fuel = .ok true) ↔
      'e' ∈ alGetD P.first_sets g.start_symbol [] := by
  unfold mkLL1 at hmk
  dsimp only at hmk
  rcases hfol : g.get_follow_set g.get_first_set with _ | fol
  · rw [hfol] at hmk
    exact absurd hmk (by simp)
  rw [hfol] at hmk
  dsimp only at hmk
  have hPeq := Option.some.inj hmk
  subst hPeq
  obtain ⟨hclosed, hfsfi, hsound⟩ := get_first_set_closed g hwf hntnd
  have hfsv : ∀ k x, x ∈ alGetD g.get_first_set k [] → x ∈ fValU g :=
    fun k x hx => FInv_getsub hfsfi k x hx
  obtain ⟨hseed, hfolpass, _⟩ := get_follow_set_closed g g.get_first_set hntnd hfsv hfol
  have hchk : check_if_ll1 (build_parse_table g g.get_first_set fol) = true := hll1
  have hinp : ensureDollar ['$'] = ['$'] := rfl
  constructor
  · rintro ⟨fuel, hparse⟩
    unfold LL1Parser.parse at hparse
    dsimp only at hparse
    rw [if_neg (by simp [hchk]), hinp, hstart] at hparse
    show 'e' ∈ alGetD g.get_first_set g.start_symbol []
    rw [hstart]
    rcases fuel with _ | f
    · rw [show ll1Loop (build_parse_table g g.get_first_set fol) ['$'] 0 [['S'], ['$']] 0
          = LoopRes.fuelOut from rfl] at hparse
      dsimp only at hparse
      exact absurd hparse (by decide)
    have hneS : ¬ (['S'] : Str) = ['e'] := by decide
    have hupS : pyIsUpperStr ['S'] = true := by decide
    rcases hrowl : alLookup (build_parse_table g g.get_first_set fol) ['S'] with _ | row
    · rw [ll1Loop_step_norow _ hneS hupS hrowl f [['$']] 0] at hparse
      dsimp only at hparse
      exact absurd hparse (by decide)
    rcases hcell : alLookup row '$' with _ | w
    · rw [ll1Loop_step_nocell _ hneS hupS hrowl hcell f [['$']] 0] at hparse
      dsimp only at hparse
      exact absurd hparse (by decide)
    rcases w with _ | p0
    · rw [ll1Loop_step_conflict _ hneS hupS hrowl hcell f [['$']] 0] at hparse
      dsimp only at hparse
      exact absurd hparse (by decide)
    have hrow2 : alGetD (build_parse_table g g.get_first_set fol) ['S'] [] = row := by
      unfold alGetD
      rw [hrowl]
      rfl
    rcases hplk : alLookup g.productions ['S'] with _ | ps
    · have hr0 : alGetD (build_parse_table g g.get_first_set fol) ['S'] [] = [] :=
        build_row_nokey g _ fol hplk
      rw [hrow2] at hr0
      rw [hr0] at hcell
      exact absurd hcell (by simp [alLookup])
    have hjS : ((['S'] : Str), ps) ∈ g.productions := alLookup_mem hplk
    have hfold : alGetD (build_parse_table g g.get_first_set fol) ['S'] []
        = ps.foldl (fun row2 q2 => (ll1Writes g.get_first_set fol ['S'] q2).foldl
            (fun r2 u => ll1Insert r2 u q2) row2) [] :=
      build_row g _ fol ['S'] ps hwf.1 hplk
    have hcellF : alLookup (ps.foldl (fun row2 q2 =>
        (ll1Writes g.get_first_set fol ['S'] q2).foldl
          (fun r2 u => ll1Insert r2 u q2) row2) []) '$' = some (some p0) := by
      rw [← hfold, hrow2]
      exact hcell
    rcases prods_source g.get_first_set fol ['S'] ps [] '$' p0 hcellF with h1 | h1
    · obtain ⟨hp0, hw0⟩ := h1
      have hchars : ∀ c ∈ p0, c ∈ g.symChars := fun c hc => mem_symChars hjS hp0 hc
      obtain ⟨he0, _⟩ := writes_dollar_elim hfsv hchars hdt hds hw0
      exact hclosed ['S'] ps p0 hjS hp0 (firstOfStr_e_rev hfsfi he0)
    · exact absurd h1 (by simp [alLookup])
  · intro hE
    rw [hstart] at hE
    have hnullS : NullK g ['S'] := hsound ['S'] hE
    have hfolS : '$' ∈ alGetD fol ['S'] [] := by
      rw [← hstart]
      exact hseed
    obtain ⟨n, hn⟩ := erase_null g g.get_first_set fol
      (build_parse_table g g.get_first_set fol) hwf hup hfsfi hclosed hfolpass rfl hchk
      ['S'] hnullS hfolS
    refine ⟨n + 2, ?_⟩
    unfold LL1Parser.parse
    dsimp only
    rw [if_neg (by simp [hchk]), hinp, hstart]
    have hloop : ll1Loop (build_parse_table g g.get_first_set fol) ['$'] (n + 2)
        [['S'], ['$']] 0 = .finished 1 := by
      rw [hn 2 [['$']] 0]
      rw [show (2 : Nat) = 1 + 1 from rfl]
      rw [ll1Loop_step_dollar _ 1 [] 0]
      rfl
    rw [hloop]
    rfl

/-- C3 counterexample: the grammar S to dollar accepts the query consisting
of the bare end marker although epsilon is not in FIRST(S) — the forward
direction of the claim fails when the dollar occurs as an ordinary grammar
terminal; and the grammar S to e or e has epsilon in FIRST(S) although its
parse of the bare end marker returns false — the backward direction fails
because the duplicated epsilon alternative makes the conflict check reject
the grammar before the machine runs. -/
theorem claim_C3_counterexample :
    ((mkLL1 gdol).getD ll1Default).parse ['$'] 100 = .ok true ∧
    'e' ∉ alGetD ((mkLL1 gdol).getD ll1Default).first_sets gdol.start_symbol [] ∧
    ((mkLL1 gee).getD ll1Default).parse ['$'] 100 = .ok false ∧
    'e' ∈ alGetD ((mkLL1 gee).getD ll1Default).first_sets gee.start_symbol [] := by
  exact ⟨by decide, by decide, by decide, by decide⟩

theorem claim_C3_witness :
    (∃ fuel, ((mkLL1 gAB).getD ll1Default).parse ['$'] fuel = .ok true) ↔
      'e' ∈ alGetD ((mkLL1 gAB).getD ll1Default).first_sets gAB.start_symbol [] :=
  claim_C3_amended gAB ((mkLL1 gAB).getD ll1Default)
    (by unfold Grammar.WF; decide) (by decide) (by decide) (by decide)
    (by decide) (by decide) rfl rfl

theorem gloop_diverge : ∀ (fuel ptr : Nat),
    ll1Loop gloopP.parse_table ['$'] fuel [['S'], ['$']] ptr = .fuelOut := by
  intro fuel
  induction fuel using Nat.strong_induction_on with
  | _ fuel ih =>
    intro ptr
    match fuel with
    | 0 => rfl
    | 1 => rcases ptr with _ | k <;> rfl
    | (n + 2) =>
      have hstep : ll1Loop gloopP.parse_table ['$'] (n + 2) [['S'], ['$']] ptr
          = ll1Loop gloopP.parse_table ['$'] n [['S'], ['$']] (ptr + 1) := by
        rcases ptr with _ | k <;> rfl
      rw [hstep]
      exact ih n (by omega) (ptr + 1)

/-- C10 counterexample: the grammar S to dollar-S builds successfully and is
accepted as LL(1), yet parsing the empty string never terminates: each
expansion of S pushes a dollar terminal that matches the synthetic end
marker substituted for positions beyond the input end, so the stack never
empties and the cursor grows forever; the machine exhausts every fuel
bound. -/
theorem claim_C10_counterexample :
    mkLL1 gloop = some gloopP ∧ gloopP.is_ll1 = true ∧
    ∀ fuel, gloopP.parse [] fuel = .fuelOut := by
  refine ⟨rfl, rfl, fun fuel => ?_⟩
  unfold LL1Parser.parse
  rw [if_neg (by decide)]
  dsimp only
  have hinp : ensureDollar [] = ['$'] := rfl
  rw [hinp]
  have hstart2 : gloopP.grammar.start_symbol = ['S'] := rfl
  rw [hstart2]
  rw [gloop_diverge fuel 0]

theorem ll1Loop_no_error (g : Grammar) (fs fol : SMap) (hwf : g.WF)
    (input : Str) :
    ∀ (fuel : Nat) (stack : List Str) (ptr : Nat),
      (∀ s ∈ stack, pyIsUpperStr s = true →
        (alLookup (build_parse_table g fs fol) s).isSome) →
      ll1Loop (build_parse_table g fs fol) input fuel stack ptr ≠ .error := by
  intro fuel
  induction fuel with
  | zero =>
    intro stack ptr _
    cases stack with
    | nil => intro hcon; exact absurd hcon (by simp [ll1Loop])
    | cons top rest => intro hcon; exact absurd hcon (by simp [ll1Loop])
  | succ f ih =>
    intro stack ptr hinv
    cases stack with
    | nil => intro hcon; exact absurd hcon (by simp [ll1Loop])
    | cons top rest =>
      have hrest : ∀ s ∈ rest, pyIsUpperStr s = true →
          (alLookup (build_parse_table g fs fol) s).isSome :=
        fun s hs => hinv s (List.mem_cons_of_mem top hs)
      unfold ll1Loop
      dsimp only
      by_cases htope : top = ['e']
      · rw [if_pos htope]
        exact ih rest ptr hrest
      · rw [if_neg htope]
        by_cases hupper : pyIsUpperStr top = true
        · rw [if_neg (not_not_intro hupper)]
          have hrowS := hinv top (List.mem_cons_self top rest) hupper
          rcases hrowl : alLookup (build_parse_table g fs fol) top with _ | row
          · rw [hrowl] at hrowS
            exact absurd hrowS (by simp)
          dsimp only
          rcases hcell : alLookup row
              (if h : ptr < input.length then input.get ⟨ptr, h⟩ else '$') with _ | w
          · dsimp only
            intro hcon
            exact absurd hcon (by decide)
          rcases w with _ | p
          · dsimp only
            intro hcon
            exact absurd hcon (by decide)
          dsimp only
          by_cases hpe : p = ['e']
          · rw [if_pos hpe]
            exact ih rest ptr hrest
          · rw [if_neg hpe]
            refine ih (p.map (fun c => [c]) ++ rest) ptr ?_
            intro s hs hsu
            rcases List.mem_append.mp hs with h1 | h1
            · obtain ⟨c, hc, hcs⟩ := List.mem_map.mp h1
              have hrow2 : alGetD (build_parse_table g fs fol) top [] = row := by
                unfold alGetD
                rw [hrowl]
                rfl
              rcases hplk : alLookup g.productions top with _ | psT
              · have hr0 : alGetD (build_parse_table g fs fol) top [] = [] :=
                  build_row_nokey g fs fol hplk
                rw [hrow2] at hr0
                rw [hr0] at hcell
                exact absurd hcell (by simp [alLookup])
              have hjT : (top, psT) ∈ g.productions := alLookup_mem hplk
              have hfold : alGetD (build_parse_table g fs fol) top []
                  = psT.foldl (fun row2 q2 => (ll1Writes fs fol top q2).foldl
                      (fun r2 u => ll1Insert r2 u q2) row2) [] :=
                build_row g fs fol top psT hwf.1 hplk
              have hcellF : alLookup (psT.foldl (fun row2 q2 =>
                  (ll1Writes fs fol top q2).foldl
                    (fun r2 u => ll1Insert r2 u q2) row2) [])
                  (if h : ptr < input.length then input.get ⟨ptr, h⟩ else '$')
                  = some (some p) := by
                rw [← hfold, hrow2]
                exact hcell
              rcases prods_source fs fol top psT [] _ p hcellF with h2 | h2
              · have hcu : c.isUpper = true := by
                  rw [← hcs] at hsu
                  exact pyIsUpperStr_single hsu
                have hcnt : ([c] : Str) ∈ g.non_terminals :=
                  (hwf.2.2.1 (top, psT) hjT p h2.1 c hc).1 hcu
                rw [← hcs]
                exact build_table_isSome g fs fol hcnt
              · exact absurd h2 (by simp [alLookup])
            · exact hrest s h1 hsu
        · rw [if_pos hupper]
          by_cases hmatch : top
              = [if h : ptr < input.length then input.get ⟨ptr, h⟩ else '$']
          · rw [if_pos hmatch]
            exact ih rest (ptr + 1) hrest
          · rw [if_neg hmatch]
            intro hcon
            exact absurd hcon (by decide)

theorem get_follow_set_some_start {g : Grammar} {fs fol : SMap}
    (h : g.get_follow_set fs = some fol) : g.start_symbol ∈ g.non_terminals := by
  unfold Grammar.get_follow_set at h
  dsimp only at h
  rcases hcur : alLookup (g.non_terminals.map (fun nt => (nt, ([] : CSet))))
      g.start_symbol with _ | cur
  · rw [hcur] at h
    exact absurd h (by simp)
  · have hmem := alLookup_mem hcur
    obtain ⟨nt, hnt, hent⟩ := List.mem_map.mp hmem
    have hk : nt = g.start_symbol := congrArg Prod.fst hent
    rw [← hk]
    exact hnt

/-- C10 (amended): for every well-formed grammar whose LL(1) parser is
constructed successfully, parse never raises: every uppercase symbol that
can reach the stack top has an initialized table row, so the result is a
boolean verdict or fuel exhaustion, never the error outcome.  The
termination half of the claim is false: the construction accepts grammars
on which the loop runs forever. -/
theorem claim_C10_amended (g : Grammar) (P : LL1Parser)
    (hwf : g.WF) (hmk : mkLL1 g = some P) :
    ∀ (input : Str) (fuel : Nat), P.parse input fuel ≠ .error := by
  unfold mkLL1 at hmk
  dsimp only at hmk
  rcases hfol : g.get_follow_set g.get_first_set with _ | fol
  · rw [hfol] at hmk
    exact absurd hmk (by simp)
  rw [hfol] at hmk
  dsimp only at hmk
  have hPeq := Option.some.inj hmk
  subst hPeq
  intro input fuel
  unfold LL1Parser.parse
  dsimp only
  by_cases hb : check_if_ll1 (build_parse_table g g.get_first_set fol) = false
  · rw [if_pos hb]
    intro hcon
    exact absurd hcon (by decide)
  · rw [if_neg hb]
    have hinv : ∀ s ∈ [g.start_symbol, ['$']], pyIsUpperStr s = true →
        (alLookup (build_parse_table g g.get_first_set fol) s).isSome := by
      intro s hs hsu
      rcases List.mem_cons.mp hs with h1 | h1
      · subst h1
        exact build_table_isSome g _ fol (get_follow_set_some_start hfol)
      · rw [List.mem_singleton] at h1
        subst h1
        exact absurd hsu (by decide)
    have hne := ll1Loop_no_error g g.get_first_set fol hwf (ensureDollar input)
      fuel [g.start_symbol, ['$']] 0 hinv
    rcases hL : ll1Loop (build_parse_table g g.get_first_set fol) (ensureDollar input)
        fuel [g.start_symbol, ['$']] 0 with _ | ptr2 | _ | _
    · dsimp only
      intro hcon
      exact PRes.noConfusion hcon
    · dsimp only
      intro hcon
      exact PRes.noConfusion hcon
    · exact absurd hL hne
    · dsimp only
      intro hcon
      exact PRes.noConfusion hcon

theorem claim_C10_witness :
    ((mkLL1 gAB).getD ll1Default).parse ['x', 'y'] 5 ≠ .error :=
  claim_C10_amended gAB ((mkLL1 gAB).getD ll1Default)
    (by unfold Grammar.WF; decide) rfl ['x', 'y'] 5
